import Mathlib

/-!
# hvresult: resultant set of policy and its differential

A shallow embedding of `internal/data.go`, `internal/rsop.go`,
`internal/rsop_diff.go`, `internal/auth.go`, `internal/policyprovider.go` and,
in the namespace `gitops`, of `internal/gitops/gitops.go`,
`internal/gitops/download.go`, `internal/gitops/rsop.go` and
`internal/gitops/diff.go`.

## The world outside

What the code obtains from the file system, from git, from Vault and from
libraries is passed to the embedding as functions (the structures
`gitops.World`, `Host` and `Client`, and the arguments `decode`, `sortSlice`,
`dir` and `git`), and the statements hold for all of them.  Go errors are
`Except String`, a nil pointer is `none`.  The loop of `GetChangedFiles`, which
need not end, runs for a given number of iterations at most.

## Go maps

A Go map value is either nil or a reference to a table with pairwise distinct
keys.  A table is an `AList` (an association list whose keys are distinct, so
that `len` is the number of entries); the nil map is `none`.  `range` visits the
entries in an order Go leaves unspecified: the embedding visits them in the
order of the association list, and every statement below is quantified over
all association lists, hence over every visiting order.  Results are compared
through lookups; two tables are stated equal only where one is a copy of the
other or where both have at most one entry.

A Go slice of strings is a `List String`; the zero value (the nil slice) is
`[]`.  The code under study only takes `len` of such slices, appends to them and
copies them, so nil and empty slices are not distinguished.
-/

namespace HVResult

/-- A Go map value known to be non-nil (the result of `make` or of a map literal). -/
abbrev MadeMap (K V : Type) := AList (fun _ : K => V)

/-- A Go map value: `none` is the nil map. -/
abbrev GoMap (K V : Type) := Option (MadeMap K V)

namespace GoMap

variable {K V : Type}

/-- Go `len(m)`: zero for the nil map. -/
def len (m : GoMap K V) : Nat :=
  match m with
  | none => 0
  | some a => a.entries.length

/-- Go `v, ok := m[k]`: `none` when the key is not present (always so for the nil map). -/
def get? [DecidableEq K] (m : GoMap K V) (k : K) : Option V :=
  match m with
  | none => none
  | some a => a.lookup k

/-- Go `m[k]`: the zero value of the element type when the key is not present. -/
def index [DecidableEq K] (m : GoMap K V) (k : K) (zero : V) : V :=
  (m.get? k).getD zero

/-- The entries visited by Go `for k, v := range m`: none for the nil map. -/
def range (m : GoMap K V) : List (Sigma (fun _ : K => V)) :=
  match m with
  | none => []
  | some a => a.entries

end GoMap

/-- `type Capability string` (data.go:68): any string is a value of the type. -/
abbrev Capability := String

/-- data.go:77. -/
def Deny : Capability := "deny"

/-- `PathConfig` (data.go:31); the `Other` body is not read by the code under study. -/
structure PathConfig where
  Path : String
  Capabilities : List Capability
  deriving DecidableEq, Repr

/-- `Policy` (data.go:13). -/
structure Policy where
  Name : String
  Paths : List PathConfig
  deriving DecidableEq, Repr

/-- `RSoP` (rsop.go:15).  `Policies` is a slice of pointers in Go; a nil element makes
`GetCapabilityMap` dereference nil, so the embedding holds the pointees. -/
structure RSoP where
  Policies : List Policy
  deriving DecidableEq, Repr

/-- `map[Capability][]string`: capability to the names of the policies granting it. -/
abbrev CapSet := GoMap Capability (List String)

/-- `RSoPCapMap` (rsop.go:90): path to capability to granting policies. -/
abbrev RSoPCapMap := GoMap String CapSet

/-- The two-level lookup `m[path][cap]` with presence: `none` when the path or the
capability is not a key. -/
def RSoPCapMap.lookup2 (m : RSoPCapMap) (path : String) (cap : Capability) :
    Option (List String) :=
  match m.get? path with
  | none => none
  | some caps => caps.get? cap

/-- rsop.go:45-48: the loop over one rule's capabilities, run on the (non-nil) table
that `capmap[path.Path]` refers to. -/
def grantCapabilities (name : String) (caps : List Capability)
    (table : MadeMap Capability (List String)) : MadeMap Capability (List String) :=
  caps.foldl (fun t cap => t.insert cap ((t.lookup cap).getD [] ++ [name])) table

/-- rsop.go:41-48: one rule.  `capmap[path.Path] == nil` holds when the key is absent
or bound to the nil map; a fresh table is then made.  Go maps are references, so the
writes of the inner loop land in the table bound to the path. -/
def accumulateRule (name : String) (capmap : MadeMap String CapSet) (path : PathConfig) :
    MadeMap String CapSet :=
  let table : MadeMap Capability (List String) :=
    match capmap.lookup path.Path with
    | some (some t) => t
    | _ => ∅
  capmap.insert path.Path (some (grantCapabilities name path.Capabilities table))

/-- rsop.go:39-49: one policy. -/
def accumulatePolicy (capmap : MadeMap String CapSet) (policy : Policy) :
    MadeMap String CapSet :=
  policy.Paths.foldl (accumulateRule policy.Name) capmap

/-- rsop.go:36-50: the first pass. -/
def accumulate (policies : List Policy) : MadeMap String CapSet :=
  policies.foldl accumulatePolicy ∅

/-- rsop.go:53-60: what the second pass binds a path to, given the capabilities `caps`
it finds there. -/
def collapseEntry (caps : CapSet) : CapSet :=
  if 1 < caps.len ∧ 0 < (caps.index Deny []).length then
    some (AList.singleton Deny (caps.index Deny []))
  else caps

/-- rsop.go:53-60: the body of the second pass at the entry `e` it is visiting. -/
def collapseStep (capmap : MadeMap String CapSet) (e : Sigma (fun _ : String => CapSet)) :
    MadeMap String CapSet :=
  if 1 < e.2.len then
    if 0 < (e.2.index Deny []).length then
      capmap.insert e.1 (some (AList.singleton Deny (e.2.index Deny [])))
    else capmap
  else capmap

/-- rsop.go:52-61: the second pass.  The loop ranges over `capmap` and rebinds only the
key it is visiting, so every visit reads the binding left by the first pass. -/
def denyCollapse (capmap : MadeMap String CapSet) : MadeMap String CapSet :=
  capmap.entries.foldl collapseStep capmap

/-- `RSoP.GetCapabilityMap` (rsop.go:35-63). -/
def GetCapabilityMap (r : RSoP) : RSoPCapMap :=
  some (denyCollapse (accumulate r.Policies))

/-- `RSoPDifferential` (rsop_diff.go:11). -/
structure RSoPDifferential where
  Added : RSoPCapMap
  Removed : RSoPCapMap

/-- `RSoPDiffMetrics` (rsop_diff.go:74).  `CapabilityChanges` is a Go `int`; it only
ever receives sums of slice lengths, taken here as a natural number. -/
structure RSoPDiffMetrics where
  CapabilityChanges : Nat
  deriving DecidableEq, Repr

/-- `(*RSoPDifferential).Empty` (rsop_diff.go:17-22); the receiver is a pointer, `none`
being nil. -/
def Empty (p : Option RSoPDifferential) : Bool :=
  match p with
  | none => true
  | some d => d.Added.len == 0 && d.Removed.len == 0

/-- rsop_diff.go:61-65 (and 66-70): the two nested loops over one capability map, adding
`len(caps[cap])` to the running count for every path and every capability key. -/
def countChanges (m : RSoPCapMap) (count : Nat) : Nat :=
  m.range.foldl
    (fun n e => e.2.range.foldl (fun k x => k + (e.2.index x.1 []).length) n)
    count

/-- `(*RSoPDifferential).Metrics` (rsop_diff.go:59-72).  `none` stands for the nil
dereference of `p.Added` when the receiver is nil. -/
def Metrics (p : Option RSoPDifferential) : Option RSoPDiffMetrics :=
  match p with
  | none => none
  | some d => some ⟨countChanges d.Removed (countChanges d.Added 0)⟩

/-- rsop_diff.go:146-151 (and 161-166): the capability `e` of our side is recorded
when it is not a key of `otherCaps`.  The table bound to `path` in the side under
construction is made first if there is none yet (`== nil`); the capability is then
bound in it. -/
def recordCapability (otherCaps : CapSet) (path : String) (side : MadeMap String CapSet)
    (e : Sigma (fun _ : Capability => List String)) : MadeMap String CapSet :=
  if (otherCaps.get? e.1).isNone then
    let table : MadeMap Capability (List String) :=
      match side.lookup path with
      | some (some t) => t
      | _ => AList.singleton e.1 e.2
    side.insert path (some (table.insert e.1 e.2))
  else side

/-- rsop_diff.go:145-152 (and 160-167): the loop over the capabilities of one path. -/
def diffCapabilities (otherCaps : CapSet) (path : String) (side : MadeMap String CapSet)
    (caps : CapSet) : MadeMap String CapSet :=
  caps.range.foldl (recordCapability otherCaps path) side

/-- rsop_diff.go:141-153 (and 156-168): the body of the loop over paths, at the entry
`e` of our map: when the other map has no capability on the path, the path is recorded
with all of our capabilities, otherwise capability by capability. -/
def diffPath (theirs : RSoPCapMap) (side : MadeMap String CapSet)
    (e : Sigma (fun _ : String => CapSet)) : MadeMap String CapSet :=
  if (theirs.index e.1 none).len = 0 then side.insert e.1 e.2
  else diffCapabilities (theirs.index e.1 none) e.1 side e.2

/-- rsop_diff.go:140-154 with `ours = r`, `theirs = other` (building `Removed`) and
rsop_diff.go:155-169 with `ours = other`, `theirs = r` (building `Added`): the two loops
are the same text with the two maps exchanged. -/
def diffSide (ours theirs : RSoPCapMap) : MadeMap String CapSet :=
  ours.range.foldl (diffPath theirs) ∅

/-- rsop_diff.go:171-176: a side with no path becomes nil. -/
def normalizeSide (side : MadeMap String CapSet) : RSoPCapMap :=
  if side.entries.length = 0 then none else some side

/-- `RSoPCapMap.Diff` (rsop_diff.go:129-178).  The pointer it returns is never nil. -/
def Diff (r other : RSoPCapMap) : RSoPDifferential :=
  if other.len = 0 then
    { Added := none, Removed := r }
  else
    { Added := normalizeSide (diffSide other r), Removed := normalizeSide (diffSide r other) }

/-! ## Specification-side definitions -/

/-- Names that one rule's capability list contributes for capability `c`: the policy
name once per occurrence of `c`. -/
def namesOf (name : String) (caps : List Capability) (c : Capability) : List String :=
  (caps.filter (fun x => x = c)).map (fun _ => name)

/-- Names that one rule contributes to `(p, c)`. -/
def grantsOfRule (name : String) (rule : PathConfig) (p : String) (c : Capability) :
    List String :=
  if rule.Path = p then namesOf name rule.Capabilities c else []

/-- Names that one policy contributes to `(p, c)`, rule by rule. -/
def grantsOfPolicy (policy : Policy) (p : String) (c : Capability) : List String :=
  policy.Paths.flatMap (fun rule => grantsOfRule policy.Name rule p c)

/-- The list the resolver is specified to record: scan the policies in slice order, each
policy's rules in order and each rule's capabilities in order, and emit the policy's
name once for every occurrence of `c` in a rule whose path is `p`. -/
def grantingPolicies (policies : List Policy) (p : String) (c : Capability) : List String :=
  policies.flatMap (fun policy => grantsOfPolicy policy p c)

/-- Some rule of the policy has path `p`. -/
def policyHasPath (policy : Policy) (p : String) : Prop :=
  ∃ rule ∈ policy.Paths, rule.Path = p

/-- Some rule of some policy has path `p`. -/
def hasPath (policies : List Policy) (p : String) : Prop :=
  ∃ policy ∈ policies, policyHasPath policy p

/-- Some rule of some policy with path `p` lists `deny`. -/
def grantsDeny (policies : List Policy) (p : String) : Prop :=
  ∃ policy ∈ policies, ∃ rule ∈ policy.Paths, rule.Path = p ∧ Deny ∈ rule.Capabilities

/-- State of the first pass at path `p`: when `hp` (a rule with this path was seen) the
path is bound to a table whose keys are the capabilities with a non-empty list `g c`;
otherwise the path is not a key. -/
def ReprAt (capmap : MadeMap String CapSet) (p : String) (hp : Prop)
    (g : Capability → List String) : Prop :=
  (hp → ∃ t, capmap.lookup p = some (some t) ∧
      ∀ c, t.lookup c = if g c = [] then none else some (g c)) ∧
  (¬ hp → capmap.lookup p = none ∧ ∀ c, g c = [])

/-- The number of policy attributions recorded in a capability map: the lengths of the
granting-policy lists, summed over every path and capability. -/
def attributions (m : RSoPCapMap) : Nat :=
  (m.range.map (fun e => (e.2.range.map (fun x => x.2.length)).sum)).sum

/-- Lookup of `side[path][cap]` with presence, in a side under construction. -/
def sideLookup2 (side : MadeMap String CapSet) (path : String) (cap : Capability) :
    Option (List String) :=
  RSoPCapMap.lookup2 (some side) path cap

/-! ## Concrete inputs -/

/-- One policy whose only rule lists no capability (`capabilities = []` in HCL). -/
def emptyRuleRSoP : RSoP := ⟨[⟨"a", [⟨"p", []⟩]⟩]⟩

/-- One policy granting `read` on path `q`. -/
def readRSoP : RSoP := ⟨[⟨"a", [⟨"q", ["read"]⟩]⟩]⟩

/-- The differential of scenario 3: two policies add `read` on `p1`, one policy loses
`write` on `p2`. -/
def scenarioDifferential : RSoPDifferential :=
  { Added := some (AList.singleton "p1" (some (AList.singleton "read" ["polA", "polB"]))),
    Removed := some (AList.singleton "p2" (some (AList.singleton "write" ["polC"]))) }

/-- `TestRsopDiff/Added` (rsop_diff_test.go:22-34): the policy set before. -/
def addedTestBefore : RSoP := ⟨[⟨"before", [⟨"modified", ["create"]⟩]⟩]⟩

/-- `TestRsopDiff/Added` (rsop_diff_test.go:35-51): the policy set after. -/
def addedTestAfter : RSoP :=
  ⟨[⟨"after", [⟨"modified", ["create", "delete"]⟩, ⟨"new", ["sudo"]⟩]⟩]⟩

/-- `TestRsopDiff/Removed` (rsop_diff_test.go:64-81): the policy set before. -/
def removedTestBefore : RSoP :=
  ⟨[⟨"before", [⟨"modified", ["create", "list"]⟩]⟩,
    ⟨"before2", [⟨"removed", ["sudo", "subscribe"]⟩]⟩]⟩

/-- `TestRsopDiff/Removed` (rsop_diff_test.go:82-92): the policy set after. -/
def removedTestAfter : RSoP := ⟨[⟨"before", [⟨"modified", ["create"]⟩]⟩]⟩

/-- Two policies on path `p`, both listing `deny` among other capabilities. -/
def denyRSoP : RSoP :=
  ⟨[⟨"a", [⟨"p", ["read", "deny"]⟩]⟩, ⟨"b", [⟨"p", ["deny", "list"]⟩]⟩]⟩

/-- Policy `a` grants `read` on `p` through two rules, policy `b` through one. -/
def repeatedRSoP : RSoP :=
  ⟨[⟨"a", [⟨"p", ["read"]⟩, ⟨"p", ["read", "list"]⟩]⟩, ⟨"b", [⟨"p", ["read"]⟩]⟩]⟩

/-! ## `Capability.Less` (data.go) -/

/-- data.go:71. -/
def Create : Capability := "create"

/-- data.go:72. -/
def Read : Capability := "read"

/-- data.go:73. -/
def Update : Capability := "update"

/-- data.go:74. -/
def Delete : Capability := "delete"

/-- data.go:75, `List` in Go (the plain name is Lean's list type). -/
def Capability.List : Capability := "list"

/-- data.go:76. -/
def Sudo : Capability := "sudo"

/-- data.go:78. -/
def Subscribe : Capability := "subscribe"

/-- `contains` (data.go:102-109). -/
def contains {T : Type} [DecidableEq T] (needle : T) (haystack : List T) : Bool :=
  match haystack with
  | [] => false
  | item :: rest => if needle = item then true else contains needle rest

/-- `Capability.Less` (data.go:82-100); `none` is the panic after the switch, reached
when the receiver is none of the eight capabilities. -/
def Less (c other : Capability) : Option Bool :=
  if c = Create then some (other != Create)
  else if c = Read then
    some (contains other [Update, Delete, Capability.List, Sudo, Deny, Subscribe])
  else if c = Update then some (contains other [Delete, Capability.List, Sudo, Deny, Subscribe])
  else if c = Delete then some (contains other [Capability.List, Sudo, Deny, Subscribe])
  else if c = Capability.List then some (contains other [Sudo, Deny, Subscribe])
  else if c = Sudo then some (contains other [Deny, Subscribe])
  else if c = Deny ∨ c = Subscribe then some (other != Subscribe)
  else none

/-- The fixed display sequence of the eight capabilities. -/
def displaySequence : List Capability :=
  [Create, Read, Update, Delete, Capability.List, Sudo, Deny, Subscribe]

/-- Capability `a` comes strictly before `b` in the display sequence. -/
def comesBefore (a b : Capability) : Bool :=
  decide (displaySequence.indexOf a < displaySequence.indexOf b)

/-! ## `ParsePolicy` (data.go) -/

/-- The comparison handed to `sort.Slice` at data.go:53-55: `Paths[i].Path < Paths[j].Path`.
Go compares strings byte by byte, which on UTF-8 text is the lexicographic order of the
character sequences. -/
def pathLess (a b : PathConfig) : Bool :=
  decide (a.Path.data < b.Path.data)

/-- `ParsePolicy` (data.go:47-58).  `decode` stands for `hclsimple.Decode` applied to the
file name and the document, and `sortSlice` for `sort.Slice` applied to a comparison and a
slice; both are library code.  The error result is Go's `(nil, err)`. -/
def ParsePolicy (decode : String → String → Except String Policy)
    (sortSlice : (PathConfig → PathConfig → Bool) → List PathConfig → List PathConfig)
    (policyData name : String) : Except String Policy :=
  match decode (name ++ ".hcl") policyData with
  | .error e => .error ("error parsing policy HCL: " ++ e)
  | .ok policy => .ok { Name := name, Paths := sortSlice pathLess policy.Paths }

/-- What `sort.Slice` promises for the comparison `less`: the slice is rearranged, and
afterwards no element is less than one that stands before it.  Nothing is promised about
the order of elements that compare equal (the sort is not stable). -/
def SortsBy (sortSlice : (PathConfig → PathConfig → Bool) → List PathConfig → List PathConfig)
    (less : PathConfig → PathConfig → Bool) : Prop :=
  ∀ l, (sortSlice less l).Perm l ∧ (sortSlice less l).Pairwise (fun a b => less b a = false)

/-- One sorting procedure that keeps the promise, used to run `ParsePolicy` on concrete
documents. -/
def insertionSortSlice (less : PathConfig → PathConfig → Bool) (l : List PathConfig) :
    List PathConfig :=
  l.insertionSort (fun a b => less b a = false)

/-- A decoder for concrete runs: the document `"three rules"` decodes to three rules, two
of them on path `b`; every other document is malformed. -/
def exampleDecode (_filename : String) (data : String) : Except String Policy :=
  if data = "three rules" then
    .ok ⟨"", [⟨"b", ["read"]⟩, ⟨"a", ["list"]⟩, ⟨"b", ["sudo"]⟩]⟩
  else .error "malformed"

/-! ## Classification of changed paths (gitops/gitops.go) -/

namespace gitops

/-- `Mutation` (gitops.go:20, 27-31). -/
inductive Mutation where
  | Add
  | Delete
  | Change
  deriving DecidableEq, Repr

/-- `ChangedFile` (gitops.go:33-38). -/
structure ChangedFile where
  Path : String
  Mutation : Mutation
  Principal : Bool
  Policy : Bool
  deriving DecidableEq, Repr

/-- Go's `strings.HasPrefix(s, pre)`. -/
def HasPrefix (s pre : String) : Bool :=
  pre.data.isPrefixOf s.data

/-- Go's `strings.HasSuffix(s, suffix)`. -/
def HasSuffix (s suffix : String) : Bool :=
  suffix.data.isSuffixOf s.data

/-- gitops.go:103-113: the `ChangedFile` built for a path and its mutation.  `dir` stands
for `filepath.Dir`, which is library code. -/
def classifyChange (dir : String → String) (path : String) (mutation : Mutation) :
    ChangedFile :=
  if HasPrefix path "auth" then
    { Path := path, Mutation := mutation, Principal := true, Policy := false }
  else if HasSuffix (dir path) "acl" then
    { Path := path, Mutation := mutation, Principal := false, Policy := true }
  else
    { Path := path, Mutation := mutation, Principal := false, Policy := false }

/-- One step of Go's `filepath.Clean` on the path elements kept so far (last kept element
first): empty elements and `.` are dropped, `..` removes the last kept element when there
is one to remove and is otherwise kept (on a path that is not rooted) or dropped (on a
rooted one). -/
def cleanStep (rooted : Bool) (out : List (List Char)) (element : List Char) :
    List (List Char) :=
  if element = [] ∨ element = ['.'] then out
  else if element = ['.', '.'] then
    match out with
    | [] => if rooted then [] else [element]
    | top :: rest => if top = ['.', '.'] then element :: out else rest
  else element :: out

/-- Go's `filepath.Clean` where the separator is `/` (library code, transcribed from its
documentation). -/
def filepathClean (path : String) : String :=
  if path = "" then "."
  else
    let rooted : Bool := path.data.head? = some '/'
    let kept := ((path.data.splitOn '/').foldl (cleanStep rooted) []).reverse
    let body := String.mk (List.intercalate ['/'] kept)
    if rooted then "/" ++ body else if body = "" then "." else body

/-- Go's `filepath.Dir` where the separator is `/`: everything up to the last separator,
cleaned. -/
def filepathDir (path : String) : String :=
  filepathClean (String.mk (path.data.reverse.dropWhile (fun c => c != '/')).reverse)

/-- The first path segment: the characters before the first `/`. -/
def firstSegment (path : String) : Option (List Char) :=
  (path.data.splitOn '/').head?

/-- The final path segment: the characters after the last `/`. -/
def finalSegment (path : String) : Option (List Char) :=
  (path.data.splitOn '/').getLast?

end gitops

/-! ## Differentials from a git repository (gitops/download.go, gitops/rsop.go) -/

namespace gitops

/-- `authPrincipalData` (download.go:22-26). -/
structure authPrincipalData where
  Policies : List String
  TokenPolicies : List String
  AllowedPolicies : List String
  deriving DecidableEq, Repr

/-- `sort.StringSlice(l).Sort()`: the strings in ascending order.  Equal strings are
identical, so the outcome does not depend on the sorting procedure. -/
def sortStrings (l : List String) : List String :=
  l.insertionSort (fun a b => a.data ≤ b.data)

/-- `authPrincipalData.AllPolicies` (download.go:29-39). -/
def authPrincipalData.AllPolicies (a : authPrincipalData) : List String :=
  sortStrings (a.TokenPolicies ++ a.AllowedPolicies ++ a.Policies)

/-- An error of `os.ReadFile`; `notExist` is the answer of `errors.Is(err, os.ErrNotExist)`. -/
structure ReadError where
  notExist : Bool
  message : String
  deriving DecidableEq, Repr

/-- Everything the code asks of the operating system, of git and of libraries:
`readFile` is `os.ReadFile`; `gitShow dir arg` is `Git{Dir: dir}.CombinedOutput("show", arg)`;
`unmarshal` is `json.Unmarshal` into an `authPrincipalData`; `decode` is `hclsimple.Decode`
and `sortSlice` is `sort.Slice` (both used by `ParsePolicy`); `join`, `abs`, `rel` and
`base` are `filepath.Join`, `filepath.Abs`, `filepath.Rel` and `filepath.Base`; `walkDir root`
lists the calls `filepath.WalkDir(root, fn)` makes to `fn` as long as `fn` returns no
error, each with its path and `d.IsDir()`, and is `none` when the root cannot be examined
(`fn` is then called with a nil entry). -/
structure World where
  readFile : String → Except ReadError String
  gitShow : String → String → Except String String
  unmarshal : String → Except String authPrincipalData
  decode : String → String → Except String Policy
  sortSlice : (PathConfig → PathConfig → Bool) → List PathConfig → List PathConfig
  join : List String → String
  abs : String → Except String String
  rel : String → String → Except String String
  base : String → String
  walkDir : String → Option (List (String × Bool))

/-- rsop.go:142-170: the body of the loop of `readPrincipalPolicies` for one policy name:
the policy loaded, or `none` when the loop moves on without one (`continue`).  In the
working copy (`historicalGitRef` empty) a policy file that does not exist is passed
over; every other failure is an error. -/
def fetchPolicy (w : World) (gitDir relativePolicyDirectory historicalGitRef readThing : String)
    (policyName : String) : Except String (Option Policy) :=
  if historicalGitRef = "" then
    match w.readFile (w.join [gitDir, relativePolicyDirectory, policyName]) with
    | .error err =>
      if err.notExist then .ok none
      else
        .error ("error reading working copy policy file at '" ++ readThing ++ "': " ++
          err.message)
    | .ok data =>
      match ParsePolicy w.decode w.sortSlice data policyName with
      | .error e => .error ("error parsing " ++ data ++ ": " ++ e)
      | .ok policy => .ok (some policy)
  else
    match w.gitShow gitDir
        (historicalGitRef ++ ":" ++ w.join [relativePolicyDirectory, policyName]) with
    | .error e =>
      .error ("error getting policy file at ref " ++ historicalGitRef ++ ":" ++
        w.join [relativePolicyDirectory, policyName] ++ ": " ++ e)
    | .ok policyData =>
      match ParsePolicy w.decode w.sortSlice policyData policyName with
      | .error e => .error ("error parsing " ++ policyData ++ ": " ++ e)
      | .ok policy => .ok (some policy)

/-- rsop.go:141-171: the loop of `readPrincipalPolicies` over the policy names, with the
policies appended so far; it ends at the first error. -/
def loadPolicies (w : World) (gitDir relativePolicyDirectory historicalGitRef readThing : String)
    (names : List String) (policies : List Policy) : Except String (List Policy) :=
  match names with
  | [] => .ok policies
  | policyName :: rest =>
    match fetchPolicy w gitDir relativePolicyDirectory historicalGitRef readThing
        policyName with
    | .error e => .error e
    | .ok none =>
      loadPolicies w gitDir relativePolicyDirectory historicalGitRef readThing rest policies
    | .ok (some policy) =>
      loadPolicies w gitDir relativePolicyDirectory historicalGitRef readThing rest
        (policies ++ [policy])

/-- rsop.go:110-130: the content of the principal file, from the working copy when
`historicalGitRef` is empty and from `git show ref:path` otherwise. -/
def readPrincipalData (w : World) (gitDir relativePrincipalPath historicalGitRef : String) :
    Except String String :=
  if historicalGitRef = "" then
    match w.readFile (w.join [gitDir, relativePrincipalPath]) with
    | .error err =>
      .error ("error reading working copy auth principle file at '" ++
        w.join [gitDir, relativePrincipalPath] ++ "': " ++ err.message)
    | .ok data => .ok data
  else
    match w.gitShow gitDir (historicalGitRef ++ ":" ++ relativePrincipalPath) with
    | .error e =>
      .error ("error getting auth principal file at ref " ++ historicalGitRef ++ ":" ++
        relativePrincipalPath ++ ": " ++ e)
    | .ok contentStr => .ok contentStr

/-- `readPrincipalPolicies` (rsop.go:109-173).  The error result is Go's `(nil, err)`. -/
def readPrincipalPolicies (w : World)
    (gitDir relativePrincipalPath relativePolicyDirectory historicalGitRef : String) :
    Except String (List Policy) :=
  let readThing :=
    if historicalGitRef = "" then w.join [gitDir, relativePrincipalPath]
    else historicalGitRef ++ ":" ++ relativePrincipalPath
  match readPrincipalData w gitDir relativePrincipalPath historicalGitRef with
  | .error e => .error e
  | .ok principalData =>
    match w.unmarshal principalData with
    | .error e =>
      .error ("error unmarshalling " ++ readThing ++ " as auth principal data: " ++ e)
    | .ok data =>
      loadPolicies w gitDir relativePolicyDirectory historicalGitRef readThing
        data.AllPolicies []

/-- `GetAuthPrincipalDifferential` (rsop.go:16-35).  The error result is Go's `(nil, err)`;
on success the pointer is not nil. -/
def GetAuthPrincipalDifferential (w : World)
    (repositoryPath relativePrincipalPath relativePolicyDirectory historicalGitRef : String) :
    Except String RSoPDifferential :=
  match readPrincipalPolicies w repositoryPath relativePrincipalPath relativePolicyDirectory
      "" with
  | .error e => .error ("error getting policies for working copy: " ++ e)
  | .ok currentPolicies =>
    match readPrincipalPolicies w repositoryPath relativePrincipalPath relativePolicyDirectory
        historicalGitRef with
    | .error e => .error ("error getting policies for historical copy: " ++ e)
    | .ok historicalPolicies =>
      .ok (Diff (GetCapabilityMap ⟨historicalPolicies⟩) (GetCapabilityMap ⟨currentPolicies⟩))

/-- `map[string]*internal.RSoPDifferential` after `make`: a nil pointer is `none`. -/
abbrev DiffMap := MadeMap String (Option RSoPDifferential)

/-- rsop.go:51-70: the pass over the changed files, with the map filled so far. -/
def deletedPass (w : World) (repositoryPath policyName relativePolicyDirectory
    historicalGitRef : String) (changedFiles : List ChangedFile) (affected : DiffMap) :
    Except String DiffMap :=
  match changedFiles with
  | [] => .ok affected
  | changed :: rest =>
    if changed.Principal && changed.Mutation == Mutation.Delete then
      match readPrincipalPolicies w repositoryPath changed.Path relativePolicyDirectory
          historicalGitRef with
      | .error e =>
        .error ("error reading policies for deleted auth principal " ++ changed.Path ++
          ": " ++ e)
      | .ok policies =>
        if policies.any (fun policy => policy.Name == policyName) then
          deletedPass w repositoryPath policyName relativePolicyDirectory historicalGitRef rest
            (affected.insert changed.Path
              (some (Diff (GetCapabilityMap ⟨policies⟩) (some ∅))))
        else
          deletedPass w repositoryPath policyName relativePolicyDirectory historicalGitRef rest
            affected
    else
      deletedPass w repositoryPath policyName relativePolicyDirectory historicalGitRef rest
        affected

/-- rsop.go:77-104: one call of the function handed to `filepath.WalkDir`, on an entry
with its path and `d.IsDir()`.  The loop over `AllPolicies()` returns at the first name
equal to `policyName`, after binding the relative path to the differential. -/
def walkEntry (w : World) (gitDir policyName relativePolicyDirectory historicalGitRef : String)
    (affected : DiffMap) (entry : String × Bool) : Except String DiffMap :=
  if entry.2 then .ok affected
  else
    match w.readFile entry.1 with
    | .error err => .error err.message
    | .ok content =>
      match w.unmarshal content with
      | .error e =>
        .error ("error unmarshalling " ++ entry.1 ++ " as auth principal data: " ++ e)
      | .ok authData =>
        if authData.AllPolicies.any (fun name => name == policyName) then
          match w.rel gitDir entry.1 with
          | .error e => .error ("error getting relative path to auth principal: " ++ e)
          | .ok relPath =>
            match GetAuthPrincipalDifferential w gitDir relPath relativePolicyDirectory
                historicalGitRef with
            | .error e => .error e
            | .ok diff => .ok (affected.insert relPath (some diff))
        else .ok affected

/-- rsop.go:77-105: the walk.  It stops at the first error; the map keeps what was
written before. -/
def walkEntries (w : World) (gitDir policyName relativePolicyDirectory historicalGitRef : String)
    (entries : List (String × Bool)) (affected : DiffMap) : DiffMap × Option String :=
  match entries with
  | [] => (affected, none)
  | entry :: rest =>
    match walkEntry w gitDir policyName relativePolicyDirectory historicalGitRef affected
        entry with
    | .error e => (affected, some e)
    | .ok written =>
      walkEntries w gitDir policyName relativePolicyDirectory historicalGitRef rest written

/-- What a call produces: a panic, or the values it returns. -/
inductive Outcome (α : Type) where
  | panicked
  | returned (value : α)

/-- `GetPolicyChangeDifferentials` (rsop.go:38-107).  It returns the map and the error;
the map is nil when the first pass or `filepath.Abs` fails.  The call panics when the
walk root cannot be examined, the callback then calling `d.IsDir()` on a nil entry. -/
def GetPolicyChangeDifferentials (w : World) (changedFiles : List ChangedFile)
    (repositoryPath policyName relativePolicyDirectory relativePrincipalDirectory
      historicalGitRef : String) :
    Outcome (GoMap String (Option RSoPDifferential) × Option String) :=
  match deletedPass w repositoryPath policyName relativePolicyDirectory historicalGitRef
      changedFiles ∅ with
  | .error e => .returned (none, some e)
  | .ok affected =>
    match w.abs (w.join [repositoryPath, relativePrincipalDirectory]) with
    | .error e =>
      .returned (none,
        some ("error getting absolute path of auth principal directory: " ++ e))
    | .ok absWalkRoot =>
      match w.walkDir absWalkRoot with
      | none => .panicked
      | some entries =>
        .returned
          (some (walkEntries w repositoryPath policyName relativePolicyDirectory
              historicalGitRef entries affected).1,
            (walkEntries w repositoryPath policyName relativePolicyDirectory
              historicalGitRef entries affected).2)

end gitops

/-! ## The change-processing loop of `MustEmitMarkdownDiffs` (gitops/diff.go) -/

namespace gitops

/-- diff.go:34-35: the two variables the loop updates. -/
structure EmitState where
  changedPaths : List String
  diffs : DiffMap

/-- How the loop can end early: `log.Fatal` exits the process, or a callee panics. -/
inductive Abort where
  | fatal (message : String)
  | panicked

/-- diff.go:68-71: the fallout of a policy change is recorded, path by path. -/
def recordFallout (affected : GoMap String (Option RSoPDifferential)) (st : EmitState)
    (keys : List String) : EmitState :=
  keys.foldl
    (fun st path =>
      { changedPaths := st.changedPaths ++ [path],
        diffs := st.diffs.insert path (affected.index path none) })
    st

/-- diff.go:58-67: the paths of `affected` that have no differential yet, sorted. -/
def falloutKeys (affected : GoMap String (Option RSoPDifferential)) (diffs : DiffMap) :
    List String :=
  sortStrings ((affected.range.map (fun e => e.1)).filter
    (fun path => (diffs.lookup path).isNone))

/-- diff.go:38-72: the body of the loop for one change.  A failure of
`GetAuthPrincipalDifferential` is logged and the nil differential is stored. -/
def processChange (w : World) (changes : List ChangedFile) (gitDirectory compareRef : String)
    (st : EmitState) (change : ChangedFile) : Except Abort EmitState :=
  if (st.diffs.lookup change.Path).isSome then .ok st
  else if change.Principal then
    let diff : Option RSoPDifferential :=
      match GetAuthPrincipalDifferential w gitDirectory change.Path
          (w.join ["sys", "policies", "acl"]) compareRef with
      | .ok d => some d
      | .error _ => none
    .ok { changedPaths := st.changedPaths ++ [change.Path],
          diffs := st.diffs.insert change.Path diff }
  else if change.Policy then
    match GetPolicyChangeDifferentials w changes gitDirectory (w.base change.Path)
        (w.join ["sys", "policies", "acl"]) "auth" compareRef with
    | .panicked => .error Abort.panicked
    | .returned (_, some e) => .error (Abort.fatal e)
    | .returned (affected, none) =>
      .ok (recordFallout affected st (falloutKeys affected st.diffs))
  else .ok st

/-- diff.go:37-73: the loop over `todo`, the changes not yet visited; `changes` is the
whole list, which every policy change hands to `GetPolicyChangeDifferentials`. -/
def processChanges (w : World) (changes : List ChangedFile) (gitDirectory compareRef : String)
    (todo : List ChangedFile) (st : EmitState) : Except Abort EmitState :=
  match todo with
  | [] => .ok st
  | change :: rest =>
    match processChange w changes gitDirectory compareRef st change with
    | .error a => .error a
    | .ok st2 => processChanges w changes gitDirectory compareRef rest st2

/-- diff.go:34-35: the state before the loop. -/
def EmitState.initial : EmitState :=
  { changedPaths := [], diffs := ∅ }

/-! ## A concrete repository -/

/-- The files of the working copy under `/repo`, by absolute path. -/
def exampleReadFile (path : String) : Except ReadError String :=
  if path = "/repo/auth/kept" then .ok "refers to other"
  else if path = "/repo/auth/gone" then .ok "refers to P"
  else if path = "/repo/auth/new" then .ok "refers to P"
  else if path = "/repo/auth/dangling" then .ok "refers to P and missing"
  else if path = "/repo/sys/policies/acl/P" then .ok "P now"
  else if path = "/repo/sys/policies/acl/other" then .ok "other"
  else .error ⟨true, "open " ++ path ++ ": no such file or directory"⟩

/-- The files at revision `main`: `auth/new` is not among them, and neither is the
policy `missing`, which has no file in the working copy either. -/
def exampleGitShow (_dir : String) (arg : String) : Except String String :=
  if arg = "main:auth/kept" then .ok "refers to P"
  else if arg = "main:auth/gone" then .ok "refers to P"
  else if arg = "main:auth/dangling" then .ok "refers to P and missing"
  else if arg = "main:sys/policies/acl/P" then .ok "P then"
  else if arg = "main:sys/policies/acl/other" then .ok "other"
  else .error "exit status 128"

/-- The identity bindings of the concrete repository. -/
def exampleUnmarshal (content : String) : Except String authPrincipalData :=
  if content = "refers to P" then .ok ⟨[], ["P"], []⟩
  else if content = "refers to other" then .ok ⟨[], ["other"], []⟩
  else if content = "refers to P and missing" then .ok ⟨["missing"], ["P"], []⟩
  else .error "invalid character"

/-- The policy documents of the concrete repository. -/
def examplePolicyDecode (_filename : String) (data : String) : Except String Policy :=
  if data = "P now" then .ok ⟨"", [⟨"secret/b", ["read"]⟩]⟩
  else if data = "P then" then .ok ⟨"", [⟨"secret/a", ["read"]⟩]⟩
  else if data = "other" then .ok ⟨"", [⟨"secret/o", ["list"]⟩]⟩
  else .error "malformed"

/-- `filepath.Rel` for the concrete repository: the path below the base directory. -/
def exampleRel (base path : String) : Except String String :=
  if (base ++ "/").data.isPrefixOf path.data then
    .ok (String.mk (path.data.drop (base.data.length + 1)))
  else .error "Rel: can't make path relative"

/-- The concrete repository `/repo`, compared with revision `main`; `walked` is what
the walk of `/repo/auth` visits. -/
def exampleWorld (walked : List (String × Bool)) : World :=
  { readFile := exampleReadFile
    gitShow := exampleGitShow
    unmarshal := exampleUnmarshal
    decode := examplePolicyDecode
    sortSlice := insertionSortSlice
    join := fun parts => String.intercalate "/" parts
    abs := fun path => .ok path
    rel := exampleRel
    base := fun path => String.mk ((path.data.splitOn '/').getLastD [])
    walkDir := fun root => if root = "/repo/auth" then some walked else none }

end gitops

/-! ## Specification-side definitions for the policy-change fallout -/

namespace gitops

/-- The first pass of `GetPolicyChangeDifferentials` has reason to record `path`: it is
the path of a changed file that is a deleted principal, and `policies`, the policies
read for it at `ref`, include one named `policyName`. -/
def recordedByDeletedPass (w : World) (repositoryPath policyName polDir ref : String)
    (changedFiles : List ChangedFile) (path : String) (policies : List Policy) : Prop :=
  ∃ cf ∈ changedFiles, cf.Path = path ∧ cf.Principal = true ∧
    cf.Mutation = Mutation.Delete ∧
    readPrincipalPolicies w repositoryPath path polDir ref = .ok policies ∧
    policyName ∈ policies.map (fun policy => policy.Name)

/-- The walked entry is a file at relative path `path` whose merged policy-name list
contains `policyName`. -/
def entryMatches (w : World) (repositoryPath policyName : String) (entry : String × Bool)
    (path : String) : Prop :=
  entry.2 = false ∧ w.rel repositoryPath entry.1 = .ok path ∧
    ∃ content data, w.readFile entry.1 = .ok content ∧ w.unmarshal content = .ok data ∧
      policyName ∈ data.AllPolicies

/-- The walk finds, at relative path `path`, a file whose merged policy-name list
contains `policyName`. -/
def foundByWalk (w : World) (repositoryPath policyName : String)
    (entries : List (String × Bool)) (path : String) : Prop :=
  ∃ entry ∈ entries, entryMatches w repositoryPath policyName entry path

/-- The entry of the returned map at `path`, when a map is returned. -/
def returnedEntry (r : Outcome (GoMap String (Option RSoPDifferential) × Option String))
    (path : String) : Option (Option RSoPDifferential) :=
  match r with
  | .panicked => none
  | .returned (m, _) => m.get? path

/-- The call returned, and without an error. -/
def returnedWithoutError
    (r : Outcome (GoMap String (Option RSoPDifferential) × Option String)) : Bool :=
  match r with
  | .returned (_, none) => true
  | _ => false

end gitops

namespace gitops

/-- The changed file of the concrete runs: the principal `auth/gone`, reported deleted. -/
def goneDeleted : ChangedFile :=
  ⟨"auth/gone", Mutation.Delete, true, false⟩

/-- The walk of `/repo/auth` when `auth/gone` is absent from the working copy. -/
def walkWithoutGone : List (String × Bool) :=
  [("/repo/auth", true)]

/-- The walk of `/repo/auth` when the file `auth/gone` is still on disk (a file removed
from the index only). -/
def walkWithGone : List (String × Bool) :=
  [("/repo/auth", true), ("/repo/auth/gone", false)]

/-- The walk of `/repo/auth` that finds the identity `auth/kept`. -/
def walkWithKept : List (String × Bool) :=
  [("/repo/auth", true), ("/repo/auth/kept", false)]

/-- Policy `P` as it is at revision `main`. -/
def policyThen : Policy :=
  ⟨"P", [⟨"secret/a", ["read"]⟩]⟩

/-- Policy `P` as it is in the working copy. -/
def policyNow : Policy :=
  ⟨"P", [⟨"secret/b", ["read"]⟩]⟩

end gitops

namespace gitops

/-- The changes of a concrete run of the loop: a newly added identity and a change to
policy `P`. -/
def exampleChanges : List ChangedFile :=
  [⟨"auth/new", Mutation.Add, true, false⟩, ⟨"sys/policies/acl/P", Mutation.Change, false, true⟩]

/-- The state the loop reaches on `exampleChanges` when the walk finds `auth/gone`: the
new identity has a nil differential, the fallout of `P` reaches `auth/gone`. -/
def exampleFinalState : EmitState :=
  { changedPaths := ["auth/new", "auth/gone"],
    diffs := ((∅ : DiffMap).insert "auth/new" none).insert "auth/gone"
      (some (Diff (GetCapabilityMap ⟨[policyThen]⟩) (GetCapabilityMap ⟨[policyNow]⟩))) }

end gitops

/-! ## `GuessAuthKind` (auth.go) -/

/-- `type AuthKind int` (auth.go:11). -/
abbrev AuthKind := Int

/-- auth.go:14. -/
def Token : AuthKind := 0

/-- auth.go:15. -/
def TokenAccessor : AuthKind := 1

/-- auth.go:16. -/
def RolePathMaybe : AuthKind := 2

/-- Modelled from the spec: the six token prefixes that auth.go:38-43 takes from the
package `consts` of the Vault SDK, which is not among the sources, in the order the
code lists them (service, batch, recovery, then the three legacy ones). -/
def vaultTokenPrefixes : List String :=
  ["hvs.", "hvb.", "hvr.", "s.", "b.", "r."]

/-- The character class `[A-Za-z0-9]` of `reTokenAccessor` (auth.go:33). -/
def isBase62 (c : Char) : Bool :=
  ('A'.toNat ≤ c.toNat && c.toNat ≤ 'Z'.toNat) ||
    ('a'.toNat ≤ c.toNat && c.toNat ≤ 'z'.toNat) ||
    ('0'.toNat ≤ c.toNat && c.toNat ≤ '9'.toNat)

/-- `reTokenAccessor.MatchString(thing)` for the expression `^[A-Za-z0-9]{24}$`: the whole
text is 24 characters of the class. -/
def matchesTokenAccessor (thing : String) : Bool :=
  thing.data.length == 24 && thing.data.all isBase62

/-- `GuessAuthKind` (auth.go:36-57), with the list of token prefixes it loops over.  The
second component is the error. -/
def GuessAuthKind (tokenPrefixes : List String) (thing : String) : AuthKind × Option String :=
  if tokenPrefixes.any (fun pre => gitops.HasPrefix thing pre) then (Token, none)
  else if matchesTokenAccessor thing then (TokenAccessor, none)
  else if 0 < thing.data.count '/' then (RolePathMaybe, none)
  else (-1, some ("could not guess the auth kind of: '" ++ thing ++ "'"))

/-! ## `GetChangedFiles` (gitops/gitops.go) -/

namespace gitops

/-- Go's `unicode.IsSpace`. -/
def isSpace (c : Char) : Bool :=
  c.toNat == 0x09 || c.toNat == 0x0A || c.toNat == 0x0B || c.toNat == 0x0C ||
    c.toNat == 0x0D || c.toNat == 0x20 || c.toNat == 0x85 || c.toNat == 0xA0 ||
    c.toNat == 0x1680 || (0x2000 ≤ c.toNat && c.toNat ≤ 0x200A) || c.toNat == 0x2028 ||
    c.toNat == 0x2029 || c.toNat == 0x202F || c.toNat == 0x205F || c.toNat == 0x3000

/-- Go's `strings.TrimSpace`: white space is removed at the end and at the start. -/
def TrimSpace (s : List Char) : List Char :=
  ((s.reverse.dropWhile isSpace).reverse).dropWhile isSpace

/-- `reader.ReadString('\n')` (gitops.go:74) on the text not yet read: the text up to and
including the next newline, what is left after it, and `false`; or, when no newline is
left, all the remaining text, nothing left, and `true` for `io.EOF`.  A reader over a
string has no other error. -/
def ReadString (remaining : List Char) : List Char × List Char × Bool :=
  match remaining.span (fun c => c != '\n') with
  | (line, _ :: rest) => (line ++ ['\n'], rest, false)
  | (line, []) => (line, [], true)

/-- Go's `strings.SplitN(s, "\t", 2)`: the text before the first tab and the text after
it, or the text alone when it has no tab. -/
def splitAtTab (s : List Char) : List (List Char) :=
  match s.span (fun c => c != '\t') with
  | (status, _ :: path) => [status, path]
  | (_, []) => [s]

/-- gitops.go:92-102: the mutation for a status, `none` for the default case. -/
def statusMutation (status : List Char) : Option Mutation :=
  if status = ['A'] ∨ status = ['C'] then some Mutation.Add
  else if status = ['D'] then some Mutation.Delete
  else if status = ['M'] then some Mutation.Change
  else none

/-- gitops.go:80-112: what one line contributes: `none` where the loop body reaches a
`continue`, the classified `ChangedFile` otherwise. -/
def parseLine (dir : String → String) (line : List Char) : Option ChangedFile :=
  match splitAtTab (TrimSpace line) with
  | [status, path] =>
    match statusMutation status with
    | none => none
    | some mutation => some (classifyChange dir (String.mk path) mutation)
  | _ => none

/-- gitops.go:73-117: the loop, run for at most `fuel` iterations on the text not yet
read and the changes appended so far; `none` when it is still running after that many.
Both `continue` statements skip the test of `done` at the end of the body. -/
def parseLoop (dir : String → String) :
    Nat → List Char → List ChangedFile → Option (List ChangedFile)
  | 0, _, _ => none
  | fuel + 1, remaining, changes =>
    match ReadString remaining with
    | (line, rest, done) =>
      match parseLine dir line with
      | none => parseLoop dir fuel rest changes
      | some cf =>
        if done then some (changes ++ [cf])
        else parseLoop dir fuel rest (changes ++ [cf])

/-- The error of `Git.CombinedOutput`, with the exit code that `errors.As` finds in it
when the command ran and failed. -/
structure GitError where
  message : String
  exitCode : Option Int
  deriving DecidableEq, Repr

/-- `guessDefaultBranch` (gitops.go:139-151); `git args` is `Git.CombinedOutput(args...)`,
the trimmed output and the error. -/
def guessDefaultBranch (git : List String → String × Option GitError) : Except String String :=
  match git ["branch"] with
  | (output, some err) => .error ("error running git branch: " ++ err.message ++ ": " ++ output)
  | (output, none) =>
    if output = "" then .error "git branch output empty"
    else
      .ok (String.mk (TrimSpace (((output.data.splitOn '\n').getLastD []).dropWhile
        (fun c => c == '*'))))

/-- gitops.go:45-62: the reference to compare with, or the reference and the error that
`GetChangedFiles` returns. -/
def resolveReference (git : List String → String × Option GitError) (referenceName : String) :
    Except (String × String) String :=
  if referenceName = "" then
    match git ["config", "init.defaultBranch"] with
    | (output, err) =>
      if err.isSome ∧ ¬ (err.bind (fun e => e.exitCode) = some 1) then
        .error (referenceName, "error running `git config init.defaultBranch`:" ++
          (err.map (fun e => e.message)).getD "" ++ ": " ++ output)
      else if output = "" then
        match guessDefaultBranch git with
        | .error e => .error ("", "error guessing default branch: " ++ e)
        | .ok branch => .ok branch
      else .ok output
  else .ok referenceName

/-- `GetChangedFiles` (gitops.go:43-119) with at most `fuel` iterations of its loop: the
changes, the reference used and the error; `none` when the loop is still running. -/
def GetChangedFiles (git : List String → String × Option GitError) (dir : String → String)
    (fuel : Nat) (referenceName : String) :
    Option (List ChangedFile × String × Option String) :=
  match resolveReference git referenceName with
  | .error (ref, msg) => some ([], ref, some msg)
  | .ok ref =>
    match git ["diff", ref, "--name-status"] with
    | (output, some err) =>
      some ([], ref, some ("error running `git diff " ++ ref ++ " --name-status`: " ++
        err.message ++ ": " ++ output))
    | (output, none) =>
      match parseLoop dir fuel output.data [] with
      | none => none
      | some changes => some (changes, ref, none)

/-- A run of git for concrete evaluation: `git diff main --name-status` prints `output`. -/
def exampleGit (output : String) (args : List String) : String × Option GitError :=
  if args = ["diff", "main", "--name-status"] then (output, none)
  else ("", some ⟨"exit status 1", some 1⟩)

/-- A run of git in a repository where `init.defaultBranch` is not set and whose branches
are `change`, checked out, and `main`: `git diff main --name-status` prints `output`. -/
def exampleGitBranches (output : String) (args : List String) : String × Option GitError :=
  if args = ["config", "init.defaultBranch"] then
    ("", some ⟨"error running git config init.defaultBranch: exit status 1", some 1⟩)
  else if args = ["branch"] then ("* change\n  main", none)
  else if args = ["diff", "main", "--name-status"] then (output, none)
  else ("", some ⟨"exit status 128", some 128⟩)

end gitops

/-! ## `ReadthroughPolicyProvider` (policyprovider.go) -/

/-- `logicalPolicyData` (policyprovider.go:75-78). -/
structure logicalPolicyData where
  Policies : List String
  TokenPolicies : List String
  deriving DecidableEq, Repr

/-- What `GetRSoP` reads of a `*vault.Secret` that a lookup returned without error:
whether `s.Data` is not nil, whether `s.Data["token_policies"]` is not nil, the outcome of
`mapstructure.Decode(s.Data, &data)`, and `s.Auth.Policies`. -/
structure Secret where
  hasData : Bool
  hasTokenPolicies : Bool
  decoded : Except String logicalPolicyData
  authPolicies : List String

/-- The Vault client (library code): its token and the answers of the server to the five
requests that `GetRSoP` and `GetPolicy` make. -/
structure Client where
  Token : String
  LookupSelf : Except String Secret
  Lookup : String → Except String Secret
  LookupAccessor : String → Except String Secret
  Read : String → Except String Secret
  GetPolicy : String → Except String String

/-- The operating system and the libraries under the provider, over a type `FS` of file
system states: `filepath.Join`, `os.ReadFile`, the file system after `os.WriteFile` (whose
error `GetPolicy` discards), `hclsimple.Decode` into a `*Policy` (the pointer can stay
nil) and into a `Policy`, and `sort.Slice` on rules and on policies. -/
structure Host (FS : Type) where
  join : List String → String
  readFile : FS → String → Except String String
  writeFile : FS → String → String → FS
  decodeCached : String → String → Except String (Option Policy)
  decode : String → String → Except String Policy
  sortSlice : (PathConfig → PathConfig → Bool) → List PathConfig → List PathConfig
  sortPolicies : (Policy → Policy → Bool) → List Policy → List Policy

/-- `ReadthroughPolicyProvider` (policyprovider.go:28-31); a nil client is `none`. -/
structure ReadthroughPolicyProvider where
  offlinePath : String
  client : Option Client

/-- `getOfflinePolicy` (policyprovider.go:59-69). -/
def ReadthroughPolicyProvider.getOfflinePolicy {FS : Type} (h : Host FS)
    (p : ReadthroughPolicyProvider) (fs : FS) (name : String) : Except String (Option Policy) :=
  match h.readFile fs (h.join [p.offlinePath, name]) with
  | .error e => .error ("error reading cached policy: " ++ e)
  | .ok data =>
    match h.decodeCached name data with
    | .error e => .error ("error decoding cached policy: " ++ e)
    | .ok policy => .ok policy

/-- policyprovider.go:41-56: the part of `GetPolicy` that asks Vault, with the file
system it leaves. -/
def ReadthroughPolicyProvider.readThrough {FS : Type} (h : Host FS)
    (p : ReadthroughPolicyProvider) (fs : FS) (name : String) : Except String Policy × FS :=
  match p.client with
  | none => (.error "no Vault client specified, policy not found", fs)
  | some client =>
    match client.GetPolicy name with
    | .error e => (.error ("error reading policy from Vault: " ++ e), fs)
    | .ok policyData =>
      match ParsePolicy h.decode h.sortSlice policyData name with
      | .error e => (.error e, fs)
      | .ok policy =>
        if p.offlinePath ≠ "" then
          (.ok policy, h.writeFile fs (h.join [p.offlinePath, name]) policyData)
        else (.ok policy, fs)

/-- `GetPolicy` (policyprovider.go:34-57), with the file system it leaves.  The error
result is Go's `(nil, err)`. -/
def ReadthroughPolicyProvider.GetPolicy {FS : Type} (h : Host FS)
    (p : ReadthroughPolicyProvider) (fs : FS) (name : String) : Except String Policy × FS :=
  if p.offlinePath ≠ "" then
    match p.getOfflinePolicy h fs name with
    | .error e => (.error e, fs)
    | .ok (some policy) => (.ok policy, fs)
    | .ok none => p.readThrough h fs name
  else p.readThrough h fs name

/-- policyprovider.go:88-131: the policy names of the principal, by the kind guessed. -/
def policyNamesOf (client : Client) (ak : AuthKind) (authThing : String) :
    Except String (List String) :=
  if ak = Token then
    if authThing = client.Token then
      match client.LookupSelf with
      | .error e => .error ("error looking up self: " ++ e)
      | .ok s =>
        match s.decoded with
        | .error e => .error ("error decoding token lookup data: " ++ e)
        | .ok data => .ok data.Policies
    else
      match client.Lookup authThing with
      | .error e => .error ("error looking up token: " ++ e)
      | .ok s =>
        match s.decoded with
        | .error e => .error ("error decoding token lookup data: " ++ e)
        | .ok data => .ok data.Policies
  else if ak = TokenAccessor then
    match client.LookupAccessor authThing with
    | .error e => .error ("error looking up token accessor: " ++ e)
    | .ok s => .ok s.authPolicies
  else if ak = RolePathMaybe then
    match client.Read authThing with
    | .error e => .error ("error reading guessed role path: " ++ e)
    | .ok s =>
      if !s.hasData || !s.hasTokenPolicies then
        .error ".data.token_policies not present in guessed role path"
      else
        match s.decoded with
        | .error e => .error ("error decoding guessed role path data: " ++ e)
        | .ok data => .ok data.TokenPolicies
  else .error "unhandled AuthKind"

/-- policyprovider.go:132-139: the loop of `GetRSoP` over the policy names, with the
policies obtained so far; every policy gets the name it was asked for. -/
def ReadthroughPolicyProvider.getPolicies {FS : Type} (h : Host FS)
    (p : ReadthroughPolicyProvider) :
    FS → List String → List Policy → Except String (List Policy) × FS
  | fs, [], policies => (.ok policies, fs)
  | fs, name :: rest, policies =>
    match p.GetPolicy h fs name with
    | (.error e, fs2) => (.error ("error getting policy '" ++ name ++ "': " ++ e), fs2)
    | (.ok policy, fs2) =>
      ReadthroughPolicyProvider.getPolicies h p fs2 rest
        (policies ++ [{ policy with Name := name }])

/-- policyprovider.go:141-143: the comparison handed to `sort.Slice`. -/
def nameLess (a b : Policy) : Bool :=
  decide (a.Name.data < b.Name.data)

/-- `GetRSoP` (policyprovider.go:80-145), with the file system it leaves.  The error
result is Go's `(nil, err)`. -/
def ReadthroughPolicyProvider.GetRSoP {FS : Type} (h : Host FS)
    (p : ReadthroughPolicyProvider) (tokenPrefixes : List String) (fs : FS)
    (authThing : String) : Except String RSoP × FS :=
  match p.client with
  | none => (.error "vault client required but not provided", fs)
  | some client =>
    match GuessAuthKind tokenPrefixes authThing with
    | (_, some err) => (.error err, fs)
    | (ak, none) =>
      match policyNamesOf client ak authThing with
      | .error e => (.error e, fs)
      | .ok policyNames =>
        match p.getPolicies h fs policyNames [] with
        | (.error e, fs2) => (.error e, fs2)
        | (.ok policies, fs2) => (.ok ⟨h.sortPolicies nameLess policies⟩, fs2)

/-- What `sort.Slice` promises for a comparison of policies: the slice is rearranged, and
afterwards no policy is less than one that stands before it. -/
def SortsPoliciesBy (sortPolicies : (Policy → Policy → Bool) → List Policy → List Policy)
    (less : Policy → Policy → Bool) : Prop :=
  ∀ l, (sortPolicies less l).Perm l ∧ (sortPolicies less l).Pairwise (fun a b => less b a = false)

/-- A host for concrete runs: the file system is the list of the files written, newest
first; the documents are those of the concrete repository. -/
def exampleHost : Host (List (String × String)) :=
  { join := fun parts => String.intercalate "/" parts
    readFile := fun fs path =>
      match fs.lookup path with
      | some data => .ok data
      | none => .error ("open " ++ path ++ ": no such file or directory")
    writeFile := fun fs path data => (path, data) :: fs
    decodeCached := fun filename data =>
      match gitops.examplePolicyDecode filename data with
      | .error e => .error e
      | .ok policy => .ok (some policy)
    decode := gitops.examplePolicyDecode
    sortSlice := insertionSortSlice
    sortPolicies := fun less l => l.insertionSort (fun a b => less b a = false) }

/-- A Vault server for concrete runs: the token `hvs.mine` of the client holds the
policies `other` and `P`, in this order. -/
def exampleClient : Client :=
  { Token := "hvs.mine"
    LookupSelf := .ok ⟨true, false, .ok ⟨["other", "P"], []⟩, []⟩
    Lookup := fun _ => .error "permission denied"
    LookupAccessor := fun _ => .error "permission denied"
    Read := fun _ => .error "permission denied"
    GetPolicy := fun name =>
      if name = "P" then .ok "P now"
      else if name = "other" then .ok "other"
      else .error "policy not found" }

/-! ## The report of `MustEmitMarkdownDiffs` (gitops/diff.go) -/

namespace gitops

/-- What the last loop of `MustEmitMarkdownDiffs` prints for one path: the line
`0 effective changes to <path> (policy assignment change is a no-op).`, or the line with
the count of effective changes, which the table follows. -/
inductive Report where
  | noEffectiveChanges (path : String)
  | effectiveChanges (count : Nat) (path : String)
  deriving DecidableEq, Repr

/-- diff.go:75-88: the body of the last loop for one path; `diffs[path]` is nil for a
missing key.  `none` stands for the nil dereference in `Metrics`. -/
def reportPath (diffs : DiffMap) (path : String) : Option Report :=
  if Empty ((diffs.lookup path).getD none) then some (Report.noEffectiveChanges path)
  else
    match Metrics ((diffs.lookup path).getD none) with
    | none => none
    | some metrics => some (Report.effectiveChanges metrics.CapabilityChanges path)

/-- diff.go:74-89: the last loop, over the paths recorded. -/
def emitReports (st : EmitState) : List (Option Report) :=
  st.changedPaths.map (reportPath st.diffs)

end gitops

/-! # Theorems -/

/-! ## Lookups in tables -/

theorem lookup_insert_if {K V : Type} [DecidableEq K] (t : MadeMap K V) (k k' : K) (v : V) :
    (t.insert k v).lookup k' = if k' = k then some v else t.lookup k' := by
  by_cases h : k' = k
  · subst h; simp
  · simp [h, AList.lookup_insert_ne h]

theorem namesOf_cons (name : String) (x : Capability) (xs : List Capability) (c : Capability) :
    namesOf name (x :: xs) c = if x = c then name :: namesOf name xs c else namesOf name xs c := by
  unfold namesOf
  by_cases h : x = c <;> simp [List.filter_cons, h]

theorem namesOf_eq_nil_iff (name : String) (caps : List Capability) (c : Capability) :
    namesOf name caps c = [] ↔ c ∉ caps := by
  induction caps with
  | nil => simp [namesOf]
  | cons x xs ih =>
    rw [namesOf_cons]
    by_cases h : x = c
    · subst h; simp
    · have h' : ¬ c = x := fun e => h e.symm
      simp [h, h', ih]

/-! ## The first pass of `GetCapabilityMap` -/

theorem lookup_grantCapabilities (name : String) (caps : List Capability)
    (t : MadeMap Capability (List String)) (c : Capability) :
    (grantCapabilities name caps t).lookup c =
      if namesOf name caps c = [] then t.lookup c
      else some ((t.lookup c).getD [] ++ namesOf name caps c) := by
  induction caps generalizing t with
  | nil => simp [grantCapabilities, namesOf]
  | cons x xs ih =>
    have hstep : grantCapabilities name (x :: xs) t =
        grantCapabilities name xs (t.insert x ((t.lookup x).getD [] ++ [name])) := rfl
    rw [hstep, ih, namesOf_cons, lookup_insert_if]
    by_cases hx : x = c
    · subst hx
      by_cases hn : namesOf name xs x = [] <;> simp [hn]
    · have hx' : ¬ c = x := fun h => hx h.symm
      simp [hx, hx']

theorem reprAt_accumulateRule (name : String) (capmap : MadeMap String CapSet)
    (rule : PathConfig) (p : String) (hp : Prop) (g : Capability → List String)
    (h : ReprAt capmap p hp g) :
    ReprAt (accumulateRule name capmap rule) p (hp ∨ rule.Path = p)
      (fun c => g c ++ grantsOfRule name rule p c) := by
  by_cases hpath : rule.Path = p
  · subst hpath
    refine ⟨fun _ => ?_, fun hn => absurd (Or.inr rfl) hn⟩
    by_cases hhp : hp
    · obtain ⟨t, ht, hg⟩ := h.1 hhp
      refine ⟨grantCapabilities name rule.Capabilities t, ?_, ?_⟩
      · simp [accumulateRule, ht]
      · intro c
        rw [lookup_grantCapabilities, hg c]
        by_cases h1 : g c = [] <;>
          by_cases h2 : namesOf name rule.Capabilities c = [] <;>
          simp [grantsOfRule, h1, h2]
    · obtain ⟨hnone, hg⟩ := h.2 hhp
      refine ⟨grantCapabilities name rule.Capabilities ∅, ?_, ?_⟩
      · simp [accumulateRule, hnone]
      · intro c
        rw [lookup_grantCapabilities]
        by_cases h2 : namesOf name rule.Capabilities c = [] <;>
          simp [grantsOfRule, hg c, h2]
  · have hne : p ≠ rule.Path := fun e => hpath e.symm
    have hlk : (accumulateRule name capmap rule).lookup p = capmap.lookup p := by
      simp [accumulateRule, AList.lookup_insert_ne hne]
    have hgr : ∀ c, grantsOfRule name rule p c = [] := fun c => by simp [grantsOfRule, hpath]
    refine ⟨fun hor => ?_, fun hn => ?_⟩
    · have hhp : hp := hor.resolve_right hpath
      obtain ⟨t, ht, hg⟩ := h.1 hhp
      exact ⟨t, by rw [hlk, ht], fun c => by simp [hgr c, hg c]⟩
    · have hhp : ¬ hp := fun e => hn (Or.inl e)
      obtain ⟨hnone, hg⟩ := h.2 hhp
      exact ⟨by rw [hlk, hnone], fun c => by simp [hgr c, hg c]⟩

theorem reprAt_congr (capmap : MadeMap String CapSet) (p : String) (hp hp' : Prop)
    (g g' : Capability → List String) (h1 : hp ↔ hp') (h2 : ∀ c, g c = g' c)
    (h : ReprAt capmap p hp g) : ReprAt capmap p hp' g' := by
  have hg : g = g' := funext h2
  have hh : hp = hp' := propext h1
  subst hg; subst hh; exact h

theorem reprAt_foldl_accumulateRule (name : String) (rules : List PathConfig)
    (capmap : MadeMap String CapSet) (p : String) (hp : Prop) (g : Capability → List String)
    (h : ReprAt capmap p hp g) :
    ReprAt (rules.foldl (accumulateRule name) capmap) p
      (hp ∨ ∃ rule ∈ rules, rule.Path = p)
      (fun c => g c ++ rules.flatMap (fun rule => grantsOfRule name rule p c)) := by
  induction rules generalizing capmap hp g with
  | nil => exact reprAt_congr _ _ _ _ _ _ (by simp) (by simp) h
  | cons r rs ih =>
    have := ih _ _ _ (reprAt_accumulateRule name capmap r p hp g h)
    refine reprAt_congr _ _ _ _ _ _ ?_ ?_ this
    · simp [or_assoc]
    · intro c; simp [List.append_assoc]

theorem reprAt_accumulatePolicy (policy : Policy) (capmap : MadeMap String CapSet)
    (p : String) (hp : Prop) (g : Capability → List String) (h : ReprAt capmap p hp g) :
    ReprAt (accumulatePolicy capmap policy) p (hp ∨ policyHasPath policy p)
      (fun c => g c ++ grantsOfPolicy policy p c) :=
  reprAt_foldl_accumulateRule policy.Name policy.Paths capmap p hp g h

theorem reprAt_foldl_accumulatePolicy (policies : List Policy)
    (capmap : MadeMap String CapSet) (p : String) (hp : Prop) (g : Capability → List String)
    (h : ReprAt capmap p hp g) :
    ReprAt (policies.foldl accumulatePolicy capmap) p
      (hp ∨ hasPath policies p)
      (fun c => g c ++ grantingPolicies policies p c) := by
  induction policies generalizing capmap hp g with
  | nil => exact reprAt_congr _ _ _ _ _ _ (by simp [hasPath]) (by simp [grantingPolicies]) h
  | cons q qs ih =>
    have := ih _ _ _ (reprAt_accumulatePolicy q capmap p hp g h)
    refine reprAt_congr _ _ _ _ _ _ ?_ ?_ this
    · simp [hasPath, or_assoc]
    · intro c; simp [grantingPolicies, List.append_assoc]

theorem reprAt_accumulate (policies : List Policy) (p : String) :
    ReprAt (accumulate policies) p (hasPath policies p)
      (fun c => grantingPolicies policies p c) := by
  have h0 : ReprAt (∅ : MadeMap String CapSet) p False (fun _ => []) :=
    ⟨fun h => h.elim, fun _ => ⟨by simp, fun _ => rfl⟩⟩
  exact reprAt_congr _ _ _ _ _ _ (by simp) (by simp)
    (reprAt_foldl_accumulatePolicy policies ∅ p False (fun _ => []) h0)

theorem grantsOfPolicy_eq_nil_iff (policy : Policy) (p : String) (c : Capability) :
    grantsOfPolicy policy p c = [] ↔
      ¬ ∃ rule ∈ policy.Paths, rule.Path = p ∧ c ∈ rule.Capabilities := by
  simp only [grantsOfPolicy, List.flatMap_eq_nil_iff, grantsOfRule, not_exists, not_and]
  constructor
  · intro h rule hr hp hc
    have := h rule hr
    rw [if_pos hp, namesOf_eq_nil_iff] at this
    exact this hc
  · intro h rule hr
    by_cases hp : rule.Path = p
    · rw [if_pos hp, namesOf_eq_nil_iff]; exact h rule hr hp
    · rw [if_neg hp]

theorem grantingPolicies_eq_nil_iff (policies : List Policy) (p : String) (c : Capability) :
    grantingPolicies policies p c = [] ↔
      ¬ ∃ policy ∈ policies, ∃ rule ∈ policy.Paths, rule.Path = p ∧ c ∈ rule.Capabilities := by
  simp only [grantingPolicies, List.flatMap_eq_nil_iff, grantsOfPolicy_eq_nil_iff]
  constructor
  · rintro h ⟨policy, hq, hex⟩; exact h policy hq hex
  · intro h policy hq hex; exact h ⟨policy, hq, hex⟩

theorem hasPath_of_grantsDeny (policies : List Policy) (p : String)
    (h : grantsDeny policies p) : hasPath policies p := by
  obtain ⟨policy, hq, rule, hr, hp, _⟩ := h
  exact ⟨policy, hq, rule, hr, hp⟩

/-! ## The second pass of `GetCapabilityMap` -/

theorem lookup_foldl_collapse (l : List (Sigma (fun _ : String => CapSet)))
    (hnd : l.NodupKeys) (m : MadeMap String CapSet)
    (hm : ∀ e ∈ l, m.lookup e.1 = some e.2) (p : String) :
    (l.foldl collapseStep m).lookup p =
      if p ∈ l.keys then (m.lookup p).map collapseEntry else m.lookup p := by
  induction l generalizing m with
  | nil => simp
  | cons e l ih =>
    obtain ⟨hnotin, hnd'⟩ := List.nodupKeys_cons.mp hnd
    rw [List.foldl_cons, ih hnd']
    · by_cases hp : p = e.1
      · subst hp
        have hme := hm e (List.mem_cons_self _ _)
        rw [if_neg hnotin]
        simp only [List.keys_cons, List.mem_cons, true_or, if_true, hme, Option.map_some']
        unfold collapseEntry collapseStep
        by_cases h1 : 1 < e.2.len
        · by_cases h2 : 0 < (e.2.index Deny []).length
          · simp [h1, h2]
          · simp [h1, h2, hme]
        · simp [h1, hme]
      · have hne : ∀ v, (m.insert e.1 v).lookup p = m.lookup p :=
          fun v => AList.lookup_insert_ne hp
        have hkeys : (p ∈ (e :: l).keys) ↔ p ∈ l.keys := by simp [hp]
        simp only [hkeys]
        unfold collapseStep
        split_ifs <;> simp [hne]
    · intro e' he'
      have hk : e'.1 ∈ l.keys := List.mem_keys_of_mem he'
      have hne : e'.1 ≠ e.1 := fun h => hnotin (h ▸ hk)
      have hme := hm e' (List.mem_cons_of_mem _ he')
      unfold collapseStep
      split_ifs <;> simp [AList.lookup_insert_ne hne, hme]

theorem lookup_denyCollapse (m : MadeMap String CapSet) (p : String) :
    (denyCollapse m).lookup p = (m.lookup p).map collapseEntry := by
  unfold denyCollapse
  rw [lookup_foldl_collapse m.entries m.nodupKeys m
    (fun e he => AList.mem_lookup_iff.mpr (by cases e; exact he)) p]
  by_cases hp : p ∈ m.entries.keys
  · rw [if_pos hp]
  · rw [if_neg hp]
    have : m.lookup p = none := AList.lookup_eq_none.mpr hp
    simp [this]

theorem get?_GetCapabilityMap (r : RSoP) (p : String) :
    (GetCapabilityMap r).get? p = ((accumulate r.Policies).lookup p).map collapseEntry := by
  simp [GetCapabilityMap, GoMap.get?, lookup_denyCollapse]

theorem entries_eq_singleton_of_lookup {K V : Type} [DecidableEq K] (t : MadeMap K V)
    (k : K) (v : V) (hlk : t.lookup k = some v) (hlen : ¬ 1 < t.entries.length) :
    t = AList.singleton k v := by
  have hmem : Sigma.mk k v ∈ t.entries := AList.mem_lookup_iff.mp hlk
  apply AList.ext
  rw [AList.singleton_entries]
  match hent : t.entries, hmem, hlen with
  | [e], hmem, _ => simp at hmem; simp [hmem]
  | _ :: _ :: _, _, hlen => simp at hlen

/-- C1 (deny dominance).  When some rule of some policy lists `deny` on path `p`, the
map returned by `GetCapabilityMap` binds `p` to the table whose only key is `deny`,
bound to the names of the policies granting `deny` on `p`, one name per grant, in policy
order, then rule order. -/
theorem GetCapabilityMap_deny_only (r : RSoP) (p : String) (h : grantsDeny r.Policies p) :
    (GetCapabilityMap r).get? p =
      some (some (AList.singleton Deny (grantingPolicies r.Policies p Deny))) := by
  have hne : grantingPolicies r.Policies p Deny ≠ [] := fun e =>
    (grantingPolicies_eq_nil_iff _ _ _).mp e h
  obtain ⟨t, ht, hg⟩ := (reprAt_accumulate r.Policies p).1 (hasPath_of_grantsDeny _ _ h)
  have hd : t.lookup Deny = some (grantingPolicies r.Policies p Deny) := by
    rw [hg Deny, if_neg hne]
  have hidx : GoMap.index (some t) Deny [] = grantingPolicies r.Policies p Deny := by
    simp [GoMap.index, GoMap.get?, hd]
  have hpos : 0 < (grantingPolicies r.Policies p Deny).length := List.length_pos.mpr hne
  rw [get?_GetCapabilityMap, ht]
  simp only [Option.map_some', collapseEntry, hidx, hpos, and_true]
  by_cases hlen : 1 < GoMap.len (some t)
  · rw [if_pos hlen]
  · rw [if_neg hlen, entries_eq_singleton_of_lookup t Deny _ hd hlen]

theorem GetCapabilityMap_deny_only_witness :
    grantsDeny denyRSoP.Policies "p" ∧
      (GetCapabilityMap denyRSoP).get? "p" =
        some (some (AList.singleton Deny (grantingPolicies denyRSoP.Policies "p" Deny))) :=
  ⟨by simp [grantsDeny, denyRSoP, Deny],
    GetCapabilityMap_deny_only denyRSoP "p" (by simp [grantsDeny, denyRSoP, Deny])⟩

/-- C2 (accumulation).  On a path `p` where no rule lists `deny`: `p` is a key of the
map returned by `GetCapabilityMap` iff some rule has path `p`; `result[p][c]` is the
list of policy names obtained by scanning policies, rules and capabilities in order,
one name per occurrence of `c` on `p` (no deduplication); and `c` is a key of
`result[p]` iff that list is non-empty. -/
theorem GetCapabilityMap_accumulates (r : RSoP) (p : String)
    (h : ¬ grantsDeny r.Policies p) :
    (((GetCapabilityMap r).get? p).isSome ↔ hasPath r.Policies p) ∧
      ∀ c : Capability,
        ((GetCapabilityMap r).index p none).index c [] = grantingPolicies r.Policies p c ∧
        ((((GetCapabilityMap r).index p none).get? c).isSome ↔
          grantingPolicies r.Policies p c ≠ []) := by
  have hrep := reprAt_accumulate r.Policies p
  have hdeny : grantingPolicies r.Policies p Deny = [] :=
    (grantingPolicies_eq_nil_iff _ _ _).mpr h
  by_cases hp : hasPath r.Policies p
  · obtain ⟨t, ht, hg⟩ := hrep.1 hp
    have hd : t.lookup Deny = none := by rw [hg Deny, if_pos hdeny]
    have hcol : collapseEntry (some t) = some t := by
      simp [collapseEntry, GoMap.index, GoMap.get?, hd]
    have hget : (GetCapabilityMap r).get? p = some (some t) := by
      rw [get?_GetCapabilityMap, ht, Option.map_some', hcol]
    have hidx : (GetCapabilityMap r).index p none = some t := by
      rw [GoMap.index, hget]; rfl
    refine ⟨by simp [hget, hp], fun c => ?_⟩
    rw [hidx]
    have hc := hg c
    by_cases hnil : grantingPolicies r.Policies p c = []
    · simp [GoMap.index, GoMap.get?, hc, hnil]
    · simp [GoMap.index, GoMap.get?, hc, hnil]
  · obtain ⟨hnone, hg⟩ := hrep.2 hp
    have hget : (GetCapabilityMap r).get? p = none := by
      rw [get?_GetCapabilityMap, hnone, Option.map_none']
    have hidx : (GetCapabilityMap r).index p none = none := by
      rw [GoMap.index, hget]; rfl
    refine ⟨by simp [hget, hp], fun c => ?_⟩
    rw [hidx]
    simp [GoMap.index, GoMap.get?, hg c]

theorem GetCapabilityMap_accumulates_witness :
    ¬ grantsDeny repeatedRSoP.Policies "p" ∧
      ((((GetCapabilityMap repeatedRSoP).get? "p").isSome ↔
          hasPath repeatedRSoP.Policies "p") ∧
        ∀ c : Capability,
          ((GetCapabilityMap repeatedRSoP).index "p" none).index c [] =
              grantingPolicies repeatedRSoP.Policies "p" c ∧
            ((((GetCapabilityMap repeatedRSoP).index "p" none).get? c).isSome ↔
              grantingPolicies repeatedRSoP.Policies "p" c ≠ [])) :=
  ⟨by simp [grantsDeny, repeatedRSoP, Deny],
    GetCapabilityMap_accumulates repeatedRSoP "p" (by simp [grantsDeny, repeatedRSoP, Deny])⟩

/-- The lists of the two concrete inputs above, evaluated: `deny` keeps one name per
grant in policy order, and a policy granting `read` through two rules is named twice. -/
theorem grantingPolicies_examples :
    grantingPolicies denyRSoP.Policies "p" Deny = ["a", "b"] ∧
      grantingPolicies repeatedRSoP.Policies "p" "read" = ["a", "a", "b"] ∧
      (GetCapabilityMap denyRSoP).lookup2 "p" "read" = none ∧
      (GetCapabilityMap repeatedRSoP).lookup2 "p" "read" = some ["a", "a", "b"] :=
  ⟨rfl, rfl, rfl, rfl⟩

/-! ## Go map facts -/

theorem GoMap.get?_eq_dlookup {K V : Type} [DecidableEq K] (m : GoMap K V) (k : K) :
    m.get? k = List.dlookup k m.range := by
  cases m <;> rfl

theorem GoMap.range_nodupKeys {K V : Type} (m : GoMap K V) : m.range.NodupKeys := by
  cases m with
  | none => exact List.nodupKeys_nil
  | some a => exact a.nodupKeys

theorem GoMap.len_eq_length_range {K V : Type} (m : GoMap K V) : m.len = m.range.length := by
  cases m <;> rfl

theorem GoMap.get?_of_len_eq_zero {K V : Type} [DecidableEq K] (m : GoMap K V)
    (h : m.len = 0) (k : K) : m.get? k = none := by
  rw [GoMap.len_eq_length_range] at h
  rw [GoMap.get?_eq_dlookup, List.length_eq_zero.mp h]
  rfl

theorem GoMap.get?_of_mem_range {K V : Type} [DecidableEq K] (m : GoMap K V)
    (e : Sigma (fun _ : K => V)) (he : e ∈ m.range) : m.get? e.1 = some e.2 := by
  rw [GoMap.get?_eq_dlookup]
  exact List.mem_dlookup_iff m.range_nodupKeys |>.mpr (by cases e; exact he)

theorem GoMap.get?_isSome_iff {K V : Type} [DecidableEq K] (m : GoMap K V) (k : K) :
    (m.get? k).isSome ↔ k ∈ m.range.keys := by
  rw [GoMap.get?_eq_dlookup]
  exact List.dlookup_isSome

theorem GoMap.len_eq_zero_iff {K V : Type} [DecidableEq K] (m : GoMap K V) :
    m.len = 0 ↔ ∀ k, m.get? k = none := by
  constructor
  · exact fun h k => m.get?_of_len_eq_zero h k
  · intro h
    rw [GoMap.len_eq_length_range]
    match hr : m.range with
    | [] => rfl
    | e :: l =>
      have := m.get?_of_mem_range e (by rw [hr]; exact List.mem_cons_self _ _)
      rw [h e.1] at this
      cases this

theorem lookup2_eq_index_get? (m : RSoPCapMap) (p : String) (c : Capability) :
    m.lookup2 p c = (m.index p none).get? c := by
  unfold RSoPCapMap.lookup2 GoMap.index
  cases m.get? p <;> rfl

theorem sideLookup2_eq (side : MadeMap String CapSet) (p : String) (c : Capability) :
    sideLookup2 side p c =
      match side.lookup p with
      | some caps => caps.get? c
      | none => none := by
  have hget : GoMap.get? (some side) p = side.lookup p := rfl
  unfold sideLookup2 RSoPCapMap.lookup2
  rw [hget]
  cases side.lookup p <;> rfl

theorem sideLookup2_of_lookup_eq (side side2 : MadeMap String CapSet) (p : String)
    (c : Capability) (h : side.lookup p = side2.lookup p) :
    sideLookup2 side p c = sideLookup2 side2 p c := by
  rw [sideLookup2_eq, sideLookup2_eq, h]

/-! ## One side of `Diff` -/

theorem lookup_recordCapability_ne (otherCaps : CapSet) (path : String)
    (side : MadeMap String CapSet) (e : Sigma (fun _ : Capability => List String))
    (p : String) (hp : p ≠ path) :
    (recordCapability otherCaps path side e).lookup p = side.lookup p := by
  unfold recordCapability
  split_ifs
  · exact AList.lookup_insert_ne hp
  · rfl

theorem sideLookup2_insert_self (side : MadeMap String CapSet) (path : String)
    (caps : CapSet) (c : Capability) :
    sideLookup2 (side.insert path caps) path c = caps.get? c := by
  rw [sideLookup2_eq, AList.lookup_insert]

theorem sideLookup2_recordCapability (otherCaps : CapSet) (path : String)
    (side : MadeMap String CapSet) (e : Sigma (fun _ : Capability => List String))
    (c : Capability) :
    sideLookup2 (recordCapability otherCaps path side e) path c =
      if (otherCaps.get? e.1).isNone ∧ e.1 = c then some e.2
      else sideLookup2 side path c := by
  unfold recordCapability
  by_cases hn : (otherCaps.get? e.1).isNone
  · rw [if_pos hn, sideLookup2_insert_self]
    have hget : ∀ t : MadeMap Capability (List String),
        GoMap.get? (some t) c = t.lookup c := fun _ => rfl
    rw [hget, lookup_insert_if, sideLookup2_eq]
    by_cases hc : c = e.1
    · subst hc; simp [hn]
    · have hc' : ¬ e.1 = c := fun h => hc h.symm
      rw [if_neg hc, if_neg (fun h => hc' h.2)]
      rcases hlk : side.lookup path with _ | _ | t
      · simp [AList.singleton, AList.lookup, List.dlookup, hc']
      · simp [AList.singleton, AList.lookup, List.dlookup, hc', GoMap.get?]
      · rfl
  · rw [if_neg hn, if_neg (fun h => hn h.1)]

theorem lookup_foldl_recordCapability_ne (otherCaps : CapSet) (path : String)
    (l : List (Sigma (fun _ : Capability => List String))) (side : MadeMap String CapSet)
    (p : String) (hp : p ≠ path) :
    (l.foldl (recordCapability otherCaps path) side).lookup p = side.lookup p := by
  induction l generalizing side with
  | nil => rfl
  | cons e l ih => rw [List.foldl_cons, ih, lookup_recordCapability_ne _ _ _ _ _ hp]

theorem sideLookup2_foldl_recordCapability (otherCaps : CapSet) (path : String)
    (l : List (Sigma (fun _ : Capability => List String))) (hnd : l.NodupKeys)
    (side : MadeMap String CapSet) (c : Capability) :
    sideLookup2 (l.foldl (recordCapability otherCaps path) side) path c =
      if (otherCaps.get? c).isNone ∧ (List.dlookup c l).isSome then List.dlookup c l
      else sideLookup2 side path c := by
  induction l generalizing side with
  | nil => simp
  | cons e l ih =>
    obtain ⟨hnotin, hnd'⟩ := List.nodupKeys_cons.mp hnd
    rw [List.foldl_cons, ih hnd', sideLookup2_recordCapability]
    by_cases hc : e.1 = c
    · subst hc
      have hnone : List.dlookup e.1 l = none := List.dlookup_eq_none.mpr hnotin
      cases e with
      | mk k v =>
        simp only [List.dlookup_cons_eq]
        simp only [] at hnone
        simp [hnone]
    · have hc' : c ≠ e.1 := fun h => hc h.symm
      rw [List.dlookup_cons_ne _ _ hc']
      simp [hc]

theorem lookup_diffPath_ne (theirs : RSoPCapMap) (side : MadeMap String CapSet)
    (e : Sigma (fun _ : String => CapSet)) (p : String) (hp : p ≠ e.1) :
    (diffPath theirs side e).lookup p = side.lookup p := by
  unfold diffPath
  split_ifs
  · exact AList.lookup_insert_ne hp
  · exact lookup_foldl_recordCapability_ne _ _ _ _ _ hp

theorem sideLookup2_diffPath (theirs : RSoPCapMap) (side : MadeMap String CapSet)
    (e : Sigma (fun _ : String => CapSet)) (c : Capability)
    (hfresh : side.lookup e.1 = none) :
    sideLookup2 (diffPath theirs side e) e.1 c =
      if (theirs.lookup2 e.1 c).isSome then none else e.2.get? c := by
  unfold diffPath
  rw [lookup2_eq_index_get?]
  by_cases hlen : (theirs.index e.1 none).len = 0
  · rw [if_pos hlen, GoMap.get?_of_len_eq_zero _ hlen, sideLookup2_eq, AList.lookup_insert]
    simp
  · rw [if_neg hlen]
    unfold diffCapabilities
    rw [sideLookup2_foldl_recordCapability _ _ _ e.2.range_nodupKeys,
      ← GoMap.get?_eq_dlookup, sideLookup2_eq, hfresh]
    cases h1 : (theirs.index e.1 none).get? c <;> cases h2 : e.2.get? c <;> simp

theorem sideLookup2_foldl_diffPath (theirs : RSoPCapMap)
    (l : List (Sigma (fun _ : String => CapSet))) (hnd : l.NodupKeys)
    (side : MadeMap String CapSet) (hfresh : ∀ k ∈ l.keys, side.lookup k = none)
    (p : String) (c : Capability) :
    sideLookup2 (l.foldl (diffPath theirs) side) p c =
      match List.dlookup p l with
      | some caps => if (theirs.lookup2 p c).isSome then none else caps.get? c
      | none => sideLookup2 side p c := by
  induction l generalizing side with
  | nil => rfl
  | cons e l ih =>
    obtain ⟨hnotin, hnd'⟩ := List.nodupKeys_cons.mp hnd
    have hfresh' : ∀ k ∈ l.keys, (diffPath theirs side e).lookup k = none := by
      intro k hk
      have hne : k ≠ e.1 := fun h => hnotin (h ▸ hk)
      rw [lookup_diffPath_ne _ _ _ _ hne]
      exact hfresh k (by simp [hk])
    rw [List.foldl_cons, ih hnd' _ hfresh']
    by_cases hp : p = e.1
    · subst hp
      have hnone : List.dlookup e.1 l = none := List.dlookup_eq_none.mpr hnotin
      rw [hnone]
      cases e with
      | mk k v =>
        simp only [List.dlookup_cons_eq]
        exact sideLookup2_diffPath theirs side ⟨k, v⟩ c (hfresh k (by simp))
    · rw [List.dlookup_cons_ne _ _ hp]
      cases List.dlookup p l with
      | some caps => rfl
      | none =>
        exact sideLookup2_of_lookup_eq _ _ _ _ (lookup_diffPath_ne _ _ _ _ hp)

theorem sideLookup2_diffSide (ours theirs : RSoPCapMap) (p : String) (c : Capability) :
    sideLookup2 (diffSide ours theirs) p c =
      if (theirs.lookup2 p c).isSome then none else ours.lookup2 p c := by
  unfold diffSide
  rw [sideLookup2_foldl_diffPath theirs ours.range ours.range_nodupKeys ∅
    (fun _ _ => AList.lookup_empty _), ← GoMap.get?_eq_dlookup]
  unfold RSoPCapMap.lookup2
  cases ours.get? p with
  | some caps => rfl
  | none => simp [sideLookup2_eq]

theorem get?_normalizeSide (side : MadeMap String CapSet) (p : String) :
    (normalizeSide side).get? p = side.lookup p := by
  unfold normalizeSide
  split_ifs with h
  · have : GoMap.get? (some side) p = none :=
      GoMap.get?_of_len_eq_zero (some side) h p
    exact this.symm
  · rfl

theorem lookup2_normalizeSide (side : MadeMap String CapSet) (p : String) (c : Capability) :
    (normalizeSide side).lookup2 p c = sideLookup2 side p c := by
  unfold sideLookup2 RSoPCapMap.lookup2
  rw [get?_normalizeSide]
  rfl

theorem lookup2_of_len_eq_zero (m : RSoPCapMap) (h : m.len = 0) (p : String)
    (c : Capability) : m.lookup2 p c = none := by
  unfold RSoPCapMap.lookup2
  rw [GoMap.get?_of_len_eq_zero m h]

theorem Diff_removed_lookup2 (r other : RSoPCapMap) (p : String) (c : Capability) :
    (Diff r other).Removed.lookup2 p c =
      if (other.lookup2 p c).isSome then none else r.lookup2 p c := by
  by_cases h : other.len = 0
  · simp [Diff, if_pos h, lookup2_of_len_eq_zero other h]
  · simp only [Diff, if_neg h, lookup2_normalizeSide, sideLookup2_diffSide]

theorem Diff_added_lookup2 (r other : RSoPCapMap) (p : String) (c : Capability) :
    (Diff r other).Added.lookup2 p c =
      if (r.lookup2 p c).isSome then none else other.lookup2 p c := by
  by_cases h : other.len = 0
  · have hnil : RSoPCapMap.lookup2 none p c = none := rfl
    simp [Diff, if_pos h, lookup2_of_len_eq_zero other h, hnil]
  · simp only [Diff, if_neg h, lookup2_normalizeSide, sideLookup2_diffSide]

theorem lookup_foldl_diffPath_absent (theirs : RSoPCapMap)
    (l : List (Sigma (fun _ : String => CapSet))) (hnd : l.NodupKeys)
    (side : MadeMap String CapSet) (habs : ∀ e ∈ l, theirs.get? e.1 = none) (p : String) :
    (l.foldl (diffPath theirs) side).lookup p =
      match List.dlookup p l with
      | some caps => some caps
      | none => side.lookup p := by
  induction l generalizing side with
  | nil => rfl
  | cons e l ih =>
    obtain ⟨hnotin, hnd'⟩ := List.nodupKeys_cons.mp hnd
    have hstep : diffPath theirs side e = side.insert e.1 e.2 := by
      have hidx : theirs.index e.1 none = none := by
        rw [GoMap.index, habs e (List.mem_cons_self _ _)]; rfl
      unfold diffPath
      rw [hidx]
      rfl
    rw [List.foldl_cons, ih hnd' _ (fun e' he' => habs e' (List.mem_cons_of_mem _ he')), hstep]
    by_cases hp : p = e.1
    · subst hp
      have hnone : List.dlookup e.1 l = none := List.dlookup_eq_none.mpr hnotin
      rw [hnone]
      cases e with
      | mk k v => simp only [List.dlookup_cons_eq, AList.lookup_insert]
    · rw [List.dlookup_cons_ne _ _ hp, AList.lookup_insert_ne hp]

theorem lookup_diffSide_absent (ours theirs : RSoPCapMap)
    (habs : ∀ p, (ours.get? p).isSome → theirs.get? p = none) (p : String) :
    (diffSide ours theirs).lookup p = ours.get? p := by
  unfold diffSide
  rw [lookup_foldl_diffPath_absent theirs ours.range ours.range_nodupKeys ∅
    (fun e he => habs e.1 (by rw [ours.get?_of_mem_range e he]; rfl)),
    ← GoMap.get?_eq_dlookup]
  cases ours.get? p <;> simp

theorem foldl_add_lengths (caps : CapSet)
    (l : List (Sigma (fun _ : Capability => List String)))
    (hl : ∀ x ∈ l, caps.get? x.1 = some x.2) (n : Nat) :
    l.foldl (fun k x => k + (caps.index x.1 []).length) n =
      n + (l.map (fun x => x.2.length)).sum := by
  induction l generalizing n with
  | nil => simp
  | cons x l ih =>
    have hx : caps.index x.1 [] = x.2 := by
      rw [GoMap.index, hl x (List.mem_cons_self _ _)]; rfl
    rw [List.foldl_cons, ih (fun y hy => hl y (List.mem_cons_of_mem _ hy)), hx]
    simp [Nat.add_assoc]

theorem countChanges_eq (m : RSoPCapMap) (count : Nat) :
    countChanges m count = count + attributions m := by
  unfold countChanges attributions
  generalize m.range = l
  induction l generalizing count with
  | nil => simp
  | cons e l ih =>
    rw [List.foldl_cons, ih, foldl_add_lengths e.2 e.2.range (e.2.get?_of_mem_range)]
    simp [Nat.add_assoc]

theorem foldl_recordCapability_of_present (otherCaps : CapSet) (path : String)
    (l : List (Sigma (fun _ : Capability => List String))) (side : MadeMap String CapSet)
    (h : ∀ e ∈ l, (otherCaps.get? e.1).isSome) :
    l.foldl (recordCapability otherCaps path) side = side := by
  induction l generalizing side with
  | nil => rfl
  | cons e l ih =>
    have hstep : recordCapability otherCaps path side e = side := by
      unfold recordCapability
      have he := h e (List.mem_cons_self _ _)
      rw [if_neg (by simp [Option.isSome_iff_ne_none.mp he])]
    rw [List.foldl_cons, hstep, ih _ (fun e' he' => h e' (List.mem_cons_of_mem _ he'))]

theorem foldl_diffPath_self (X : RSoPCapMap) (hX : ∀ e ∈ X.range, e.2.len ≠ 0)
    (l : List (Sigma (fun _ : String => CapSet))) (hl : ∀ e ∈ l, e ∈ X.range)
    (side : MadeMap String CapSet) :
    l.foldl (diffPath X) side = side := by
  induction l generalizing side with
  | nil => rfl
  | cons e l ih =>
    have hmem := hl e (List.mem_cons_self _ _)
    have hidx : X.index e.1 none = e.2 := by
      rw [GoMap.index, X.get?_of_mem_range e hmem]; rfl
    have hstep : diffPath X side e = side := by
      unfold diffPath diffCapabilities
      rw [hidx, if_neg (hX e hmem)]
      exact foldl_recordCapability_of_present e.2 e.1 e.2.range side
        (fun x hx => by rw [e.2.get?_of_mem_range x hx]; rfl)
    rw [List.foldl_cons, hstep, ih (fun e' he' => hl e' (List.mem_cons_of_mem _ he'))]

/-- Where the diff/empty law does hold: when `X` has a path and every path of `X`
carries at least one capability, `X.Diff(X)` is the zero-valued differential. -/
theorem Diff_self_of_capabilities (X : RSoPCapMap) (hne : X.len ≠ 0)
    (hX : ∀ e ∈ X.range, e.2.len ≠ 0) :
    Diff X X = { Added := none, Removed := none } := by
  have hside : diffSide X X = ∅ := foldl_diffPath_self X hX X.range (fun _ h => h) ∅
  unfold Diff
  rw [if_neg hne, hside]
  rfl

theorem Diff_self_of_capabilities_witness :
    GoMap.len (GetCapabilityMap removedTestBefore) ≠ 0 ∧
      (∀ e ∈ (GetCapabilityMap removedTestBefore).range, e.2.len ≠ 0) ∧
      Diff (GetCapabilityMap removedTestBefore) (GetCapabilityMap removedTestBefore) =
        { Added := none, Removed := none } :=
  have h1 : GoMap.len (GetCapabilityMap removedTestBefore) ≠ 0 := by decide
  have h2 : ∀ e ∈ (GetCapabilityMap removedTestBefore).range, e.2.len ≠ 0 := by
    intro e he
    have hr : (GetCapabilityMap removedTestBefore).range =
        [⟨"removed", some ((∅ : MadeMap Capability (List String)).insert "sudo" ["before2"]
            |>.insert "subscribe" ["before2"])⟩,
          ⟨"modified", some ((∅ : MadeMap Capability (List String)).insert "create" ["before"]
            |>.insert "list" ["before"])⟩] := rfl
    rw [hr] at he
    simp only [List.mem_cons, List.mem_singleton, List.not_mem_nil, or_false] at he
    rcases he with rfl | rfl <;> decide
  ⟨h1, h2, Diff_self_of_capabilities _ h1 h2⟩

/-! ## The claims about `Diff`, `Metrics` and `Empty` -/

/-- C3 (diff/empty law), at an input where the code departs from it.  `X` is the
capability map of one policy whose only rule, on path `p`, lists no capability.
`X.Diff(X)` records `p` with an empty capability table both as added and as removed,
and `Empty()` answers false. -/
theorem Diff_self_not_empty :
    Empty (some (Diff (GetCapabilityMap emptyRuleRSoP) (GetCapabilityMap emptyRuleRSoP))) =
        false ∧
      (Diff (GetCapabilityMap emptyRuleRSoP) (GetCapabilityMap emptyRuleRSoP)).Added.get? "p" =
        some (some ∅) ∧
      (Diff (GetCapabilityMap emptyRuleRSoP) (GetCapabilityMap emptyRuleRSoP)).Removed.get? "p" =
        some (some ∅) :=
  ⟨rfl, rfl, rfl⟩

/-- C4 (removed capabilities).  For every `before`, `after`, path `p` and capability
`c`: `c` is a key of `Removed[p]` iff it is a key of `before[p]` and not a key of
`after[p]`, and the list recorded is the one of `before`; a capability that is a key on
both sides is not reported, whatever its lists.  (This holds for an empty `after` as
well, where `Removed` is `before`.) -/
theorem Diff_removed_iff (before after : RSoPCapMap) (p : String) (c : Capability) :
    (((Diff before after).Removed.lookup2 p c).isSome ↔
        (before.lookup2 p c).isSome ∧ ¬ (after.lookup2 p c).isSome) ∧
      (Diff before after).Removed.lookup2 p c =
        if (after.lookup2 p c).isSome then none else before.lookup2 p c := by
  refine ⟨?_, Diff_removed_lookup2 before after p c⟩
  rw [Diff_removed_lookup2]
  by_cases h : (after.lookup2 p c).isSome <;> simp [h]

/-- C5 (added capabilities).  For every `before`, `after`, path `p` and capability `c`:
`c` is a key of `Added[p]` iff it is a key of `after[p]` and not a key of `before[p]`,
and the list recorded is the one of `after`; a capability that is a key on both sides
is not reported, whatever its lists. -/
theorem Diff_added_iff (before after : RSoPCapMap) (p : String) (c : Capability) :
    (((Diff before after).Added.lookup2 p c).isSome ↔
        (after.lookup2 p c).isSome ∧ ¬ (before.lookup2 p c).isSome) ∧
      (Diff before after).Added.lookup2 p c =
        if (before.lookup2 p c).isSome then none else after.lookup2 p c := by
  refine ⟨?_, Diff_added_lookup2 before after p c⟩
  rw [Diff_added_lookup2]
  by_cases h : (before.lookup2 p c).isSome <;> simp [h]

/-- C6 (deletion law).  When `after` has no path (it is nil, or a map without entries),
`X.Diff(after)` has `Removed` equal to `X` itself and `Added` nil, for every `X`. -/
theorem Diff_deleted (X after : RSoPCapMap) (h : after.len = 0) :
    Diff X after = { Added := none, Removed := X } := by
  unfold Diff
  rw [if_pos h]

theorem Diff_deleted_witness :
    GoMap.len (some ∅ : RSoPCapMap) = 0 ∧
      Diff (GetCapabilityMap readRSoP) (some ∅) =
        { Added := none, Removed := GetCapabilityMap readRSoP } :=
  ⟨rfl, Diff_deleted (GetCapabilityMap readRSoP) (some ∅) rfl⟩

/-- C7 (disjoint paths).  When `A` and `B` have no path in common, every path is bound
in `A.Diff(B).Added` exactly as in `B` and in `A.Diff(B).Removed` exactly as in `A`. -/
theorem Diff_disjoint (A B : RSoPCapMap)
    (h : ∀ p, ¬ ((A.get? p).isSome ∧ (B.get? p).isSome)) (p : String) :
    (Diff A B).Added.get? p = B.get? p ∧ (Diff A B).Removed.get? p = A.get? p := by
  have hAB : ∀ q, (A.get? q).isSome → B.get? q = none := by
    intro q hq
    cases hb : B.get? q with
    | none => rfl
    | some v => exact absurd ⟨hq, by rw [hb]; rfl⟩ (h q)
  have hBA : ∀ q, (B.get? q).isSome → A.get? q = none := by
    intro q hq
    cases ha : A.get? q with
    | none => rfl
    | some v => exact absurd ⟨by rw [ha]; rfl, hq⟩ (h q)
  by_cases hlen : B.len = 0
  · simp only [Diff, if_pos hlen, GoMap.get?_of_len_eq_zero B hlen]
    exact ⟨rfl, trivial⟩
  · simp only [Diff, if_neg hlen, get?_normalizeSide]
    exact ⟨lookup_diffSide_absent B A hBA p, lookup_diffSide_absent A B hAB p⟩

theorem Diff_disjoint_witness :
    (∀ p, ¬ (((GetCapabilityMap emptyRuleRSoP).get? p).isSome ∧
        ((GetCapabilityMap readRSoP).get? p).isSome)) ∧
      (Diff (GetCapabilityMap emptyRuleRSoP) (GetCapabilityMap readRSoP)).Added.get? "q" =
        (GetCapabilityMap readRSoP).get? "q" ∧
      (Diff (GetCapabilityMap emptyRuleRSoP) (GetCapabilityMap readRSoP)).Removed.get? "q" =
        (GetCapabilityMap emptyRuleRSoP).get? "q" :=
  have hd : ∀ p, ¬ (((GetCapabilityMap emptyRuleRSoP).get? p).isSome ∧
      ((GetCapabilityMap readRSoP).get? p).isSome) := by
    intro p
    rw [GoMap.get?_isSome_iff, GoMap.get?_isSome_iff]
    have h1 : (GetCapabilityMap emptyRuleRSoP).range.keys = ["p"] := rfl
    have h2 : (GetCapabilityMap readRSoP).range.keys = ["q"] := rfl
    rw [h1, h2]
    rintro ⟨hp, hq⟩
    rw [List.mem_singleton] at hp hq
    exact absurd (hp.symm.trans hq) (by decide)
  ⟨hd, Diff_disjoint _ _ hd "q"⟩

/-- C8 (normalisation), at inputs where the code departs from it.  With `before` the
map of a policy whose only rule (path `p`) lists no capability and `after` the map of a
policy granting `read` on `q`, no capability is removed, yet `Removed` is not nil: it
records `p` with an empty capability table.  With both maps resolved from an RSoP
without policies, the early return hands back `before`, so `Removed` is an empty map
that is not nil, and the differential is not the zero value. -/
theorem Diff_keeps_empty_containers :
    (Diff (GetCapabilityMap emptyRuleRSoP) (GetCapabilityMap readRSoP)).Removed =
        some (AList.singleton "p" (some ∅)) ∧
      (∀ q c, (Diff (GetCapabilityMap emptyRuleRSoP)
        (GetCapabilityMap readRSoP)).Removed.lookup2 q c = none) ∧
      (Diff (GetCapabilityMap ⟨[]⟩) (GetCapabilityMap ⟨[]⟩)).Removed = some ∅ ∧
      (Diff (GetCapabilityMap ⟨[]⟩) (GetCapabilityMap ⟨[]⟩)).Removed ≠ none := by
  refine ⟨rfl, fun q c => ?_, rfl, fun h => Option.noConfusion h⟩
  rw [Diff_removed_lookup2]
  have hb : (GetCapabilityMap emptyRuleRSoP).lookup2 q c = none := by
    have hget : (GetCapabilityMap emptyRuleRSoP).get? q =
        if q = "p" then some (some ∅) else none := by
      have h0 : (GetCapabilityMap emptyRuleRSoP).get? q =
          AList.lookup q ((∅ : MadeMap String CapSet).insert "p" (some ∅)) := rfl
      rw [h0, lookup_insert_if, AList.lookup_empty]
    unfold RSoPCapMap.lookup2
    rw [hget]
    split_ifs <;> rfl
  rw [hb]
  split_ifs <;> rfl

/-- C9 (metric).  For every differential, `Metrics().CapabilityChanges` is the number
of policy attributions in `Added` plus the number in `Removed`: the lengths of the
granting-policy lists summed over every path and capability.  On the differential of
scenario 3 (two policies on one added capability, one on a removed one) it is 3. -/
theorem Metrics_counts_attributions (d : RSoPDifferential) :
    Metrics (some d) = some ⟨attributions d.Added + attributions d.Removed⟩ ∧
      Metrics (some scenarioDifferential) = some ⟨3⟩ := by
  refine ⟨?_, rfl⟩
  simp [Metrics, countChanges_eq]

/-- C10 (emptiness).  `Empty()` is true on the nil differential; on a non-nil one it is
true iff no path is a key of `Added` and no path is a key of `Removed`. -/
theorem Empty_iff_no_paths :
    Empty none = true ∧
      ∀ d : RSoPDifferential,
        (Empty (some d) = true ↔
          (∀ p, d.Added.get? p = none) ∧ (∀ p, d.Removed.get? p = none)) := by
  refine ⟨rfl, fun d => ?_⟩
  simp [Empty, GoMap.len_eq_zero_iff]

/-! ## The repository's tests, evaluated -/

/-- `TestRsopDiff/Added`: `delete` on `modified` and `sudo` on `new` are added, each
attributed to policy `after`; nothing is removed. -/
theorem TestRsopDiff_Added :
    (Diff (GetCapabilityMap addedTestBefore) (GetCapabilityMap addedTestAfter)).Removed = none ∧
      (Diff (GetCapabilityMap addedTestBefore) (GetCapabilityMap addedTestAfter)).Added.len = 2 ∧
      (Diff (GetCapabilityMap addedTestBefore) (GetCapabilityMap addedTestAfter)).Added.get?
          "modified" = some (some (AList.singleton "delete" ["after"])) ∧
      (Diff (GetCapabilityMap addedTestBefore) (GetCapabilityMap addedTestAfter)).Added.get?
          "new" = some (some (AList.singleton "sudo" ["after"])) :=
  ⟨rfl, rfl, rfl, rfl⟩

/-- `TestRsopDiff/Removed`: `list` on `modified` (policy `before`) and `sudo`,
`subscribe` on `removed` (policy `before2`) are removed; nothing is added. -/
theorem TestRsopDiff_Removed :
    (Diff (GetCapabilityMap removedTestBefore) (GetCapabilityMap removedTestAfter)).Added =
        none ∧
      (Diff (GetCapabilityMap removedTestBefore) (GetCapabilityMap removedTestAfter)).Removed.len
        = 2 ∧
      (Diff (GetCapabilityMap removedTestBefore)
          (GetCapabilityMap removedTestAfter)).Removed.get? "modified" =
        some (some (AList.singleton "list" ["before"])) ∧
      (Diff (GetCapabilityMap removedTestBefore)
          (GetCapabilityMap removedTestAfter)).Removed.lookup2 "removed" "sudo" =
        some ["before2"] ∧
      (Diff (GetCapabilityMap removedTestBefore)
          (GetCapabilityMap removedTestAfter)).Removed.lookup2 "removed" "subscribe" =
        some ["before2"] ∧
      ((Diff (GetCapabilityMap removedTestBefore)
          (GetCapabilityMap removedTestAfter)).Removed.index "removed" none).len = 2 :=
  ⟨rfl, rfl, rfl, rfl, rfl, rfl⟩

/-! ## `Capability.Less` -/

/-- Where `Less` is the display order: for a receiver among the first six capabilities
and any of the eight as argument, `Less` answers whether the receiver comes strictly
before the argument. -/
theorem Less_of_first_six :
    ∀ a ∈ [Create, Read, Update, Delete, Capability.List, Sudo], ∀ b ∈ displaySequence,
      Less a b = some (comesBefore a b) := by
  decide

/-- C11 (display order), at inputs where the code departs from it.  The shared case for
`deny` and `subscribe` answers `other != Subscribe`: `deny` is reported before `create`
and before itself and not before `subscribe`, and `subscribe` is reported before
`create`, so `Less` is neither irreflexive nor asymmetric on the eight capabilities. -/
theorem Less_deny_subscribe_case :
    Less Deny Create = some true ∧ comesBefore Deny Create = false ∧
      Less Deny Deny = some true ∧
      Less Deny Subscribe = some false ∧ comesBefore Deny Subscribe = true ∧
      Less Subscribe Create = some true ∧ comesBefore Subscribe Create = false ∧
      Less Create Deny = some true := by
  decide

/-! ## `ParsePolicy` -/

theorem pathLess_eq_false_iff (a b : PathConfig) : pathLess b a = false ↔ a.Path ≤ b.Path := by
  have h : b.Path < a.Path ↔ b.Path.data < a.Path.data := String.lt_iff_toList_lt
  simp only [pathLess, decide_eq_false_iff_not, ← h, not_lt]

theorem sortsBy_insertionSortSlice : SortsBy insertionSortSlice pathLess := by
  intro l
  refine ⟨List.perm_insertionSort _ l, ?_⟩
  haveI : IsTotal PathConfig (fun a b => pathLess b a = false) :=
    ⟨fun a b => by simp only [pathLess_eq_false_iff]; exact le_total _ _⟩
  haveI : IsTrans PathConfig (fun a b => pathLess b a = false) :=
    ⟨fun a b c => by simp only [pathLess_eq_false_iff]; exact le_trans⟩
  exact List.sorted_insertionSort (fun a b => pathLess b a = false) l

/-- C12 (parsing).  Whenever `sort.Slice` keeps its promise for the comparison by
`Path`: a document that decodes yields a policy whose `Name` is the given name and whose
`Paths` are a permutation of the decoded rules, in ascending order of `Path` (so rules
with the same path are all kept); a document that fails to decode yields an error. -/
theorem ParsePolicy_sorted_perm (decode : String → String → Except String Policy)
    (sortSlice : (PathConfig → PathConfig → Bool) → List PathConfig → List PathConfig)
    (hs : SortsBy sortSlice pathLess) (policyData name : String) :
    (∀ decoded, decode (name ++ ".hcl") policyData = .ok decoded →
      ∃ policy, ParsePolicy decode sortSlice policyData name = .ok policy ∧
        policy.Name = name ∧ policy.Paths.Perm decoded.Paths ∧
        policy.Paths.Pairwise (fun a b => a.Path ≤ b.Path)) ∧
      (∀ e, decode (name ++ ".hcl") policyData = .error e →
        ∃ msg, ParsePolicy decode sortSlice policyData name = .error msg) := by
  constructor
  · intro decoded hd
    refine ⟨{ Name := name, Paths := sortSlice pathLess decoded.Paths }, ?_, rfl,
      (hs decoded.Paths).1, ?_⟩
    · simp [ParsePolicy, hd]
    · exact (hs decoded.Paths).2.imp (fun h => (pathLess_eq_false_iff _ _).mp h)
  · intro e he
    exact ⟨"error parsing policy HCL: " ++ e, by simp [ParsePolicy, he]⟩

theorem ParsePolicy_sorted_perm_witness :
    SortsBy insertionSortSlice pathLess ∧
      ((∀ decoded, exampleDecode ("p" ++ ".hcl") "three rules" = .ok decoded →
        ∃ policy, ParsePolicy exampleDecode insertionSortSlice "three rules" "p" = .ok policy ∧
          policy.Name = "p" ∧ policy.Paths.Perm decoded.Paths ∧
          policy.Paths.Pairwise (fun a b => a.Path ≤ b.Path)) ∧
        (∀ e, exampleDecode ("p" ++ ".hcl") "three rules" = .error e →
          ∃ msg, ParsePolicy exampleDecode insertionSortSlice "three rules" "p" = .error msg)) :=
  ⟨sortsBy_insertionSortSlice,
    ParsePolicy_sorted_perm exampleDecode insertionSortSlice sortsBy_insertionSortSlice
      "three rules" "p"⟩

/-- `ParsePolicy` run on the two concrete documents: the three rules come back sorted by
path with both rules on `b` kept, and the malformed document yields an error. -/
theorem ParsePolicy_examples :
    ParsePolicy exampleDecode insertionSortSlice "three rules" "p" =
        .ok ⟨"p", [⟨"a", ["list"]⟩, ⟨"b", ["read"]⟩, ⟨"b", ["sudo"]⟩]⟩ ∧
      ParsePolicy exampleDecode insertionSortSlice "garbage" "p" =
        .error "error parsing policy HCL: malformed" :=
  ⟨rfl, rfl⟩

/-! ## Classification of changed paths -/

namespace gitops

theorem head_isPrefix_intercalate {α : Type} (sep a : List α) (rest : List (List α)) :
    a <+: List.intercalate sep (a :: rest) := by
  cases rest with
  | nil => simp [List.intercalate]
  | cons b r => simp [List.intercalate, List.intersperse]

theorem getLast_isSuffix_intercalate {α : Type} (sep s : List α) (L : List (List α))
    (h : L.getLast? = some s) : s <:+ List.intercalate sep L := by
  induction L with
  | nil => simp at h
  | cons a rest ih =>
    cases rest with
    | nil =>
      simp at h
      subst h
      simp [List.intercalate]
    | cons b r =>
      have h2 : (b :: r).getLast? = some s := by
        simpa [List.getLast?_cons_cons] using h
      have := ih h2
      have hrw : List.intercalate sep (a :: b :: r) =
          (a ++ sep) ++ List.intercalate sep (b :: r) := by
        simp [List.intercalate, List.intersperse]
      rw [hrw]
      exact this.trans (List.suffix_append _ _)

theorem hasPrefix_of_firstSegment (path pre : String)
    (h : firstSegment path = some pre.data) : HasPrefix path pre = true := by
  unfold firstSegment at h
  unfold HasPrefix
  rw [List.isPrefixOf_iff_prefix]
  have hint : ['/'].intercalate (path.data.splitOn '/') = path.data :=
    List.intercalate_splitOn path.data '/'
  match hs : path.data.splitOn '/', h with
  | a :: rest, h =>
    simp only [List.head?_cons, Option.some.injEq] at h
    subst h
    rw [hs] at hint
    rw [← hint]
    exact head_isPrefix_intercalate _ _ _

theorem hasSuffix_of_finalSegment (path suffix : String)
    (h : finalSegment path = some suffix.data) : HasSuffix path suffix = true := by
  unfold finalSegment at h
  unfold HasSuffix
  rw [List.isSuffixOf_iff_suffix]
  have hint : ['/'].intercalate (path.data.splitOn '/') = path.data :=
    List.intercalate_splitOn path.data '/'
  rw [← hint]
  exact getLast_isSuffix_intercalate _ _ _ h

theorem classifyChange_principal (dir : String → String) (path : String) (mutation : Mutation) :
    (classifyChange dir path mutation).Principal = HasPrefix path "auth" := by
  unfold classifyChange
  split_ifs with h1 h2
  · simp [h1]
  · simp [h1]
  · simp [h1]

theorem classifyChange_policy (dir : String → String) (path : String) (mutation : Mutation) :
    (classifyChange dir path mutation).Policy =
      (!HasPrefix path "auth" && HasSuffix (dir path) "acl") := by
  unfold classifyChange
  split_ifs with h1 h2
  · simp [h1]
  · simp [h1, h2]
  · simp [h1, h2]

/-- C19 (classification).  For every path, whatever `filepath.Dir` returns: `Principal`
and `Policy` are never both set; a path whose first segment is `auth` is `Principal`; a
path that does not start with `auth` and whose directory has `acl` as final segment is
`Policy`.  With Go's `filepath.Dir`: `auth/gcp/roles/r1` is a principal,
`sys/policies/acl/default` a policy, and `secret/data/x` neither. -/
theorem classifyChange_scenarios (dir : String → String) (path : String) (mutation : Mutation) :
    ¬ ((classifyChange dir path mutation).Principal = true ∧
        (classifyChange dir path mutation).Policy = true) ∧
      (firstSegment path = some "auth".data →
        (classifyChange dir path mutation).Principal = true) ∧
      (HasPrefix path "auth" = false → finalSegment (dir path) = some "acl".data →
        (classifyChange dir path mutation).Policy = true) ∧
      classifyChange filepathDir "auth/gcp/roles/r1" mutation =
        ⟨"auth/gcp/roles/r1", mutation, true, false⟩ ∧
      classifyChange filepathDir "sys/policies/acl/default" mutation =
        ⟨"sys/policies/acl/default", mutation, false, true⟩ ∧
      classifyChange filepathDir "secret/data/x" mutation =
        ⟨"secret/data/x", mutation, false, false⟩ := by
  refine ⟨?_, ?_, ?_, ?_, ?_, ?_⟩
  · rw [classifyChange_principal, classifyChange_policy]
    cases HasPrefix path "auth" <;> simp
  · intro h
    rw [classifyChange_principal]
    exact hasPrefix_of_firstSegment path "auth" h
  · intro h1 h2
    rw [classifyChange_policy, h1, hasSuffix_of_finalSegment (dir path) "acl" h2]
    rfl
  · have h : HasPrefix "auth/gcp/roles/r1" "auth" = true := by decide
    simp [classifyChange, h]
  · have h1 : HasPrefix "sys/policies/acl/default" "auth" = false := by decide
    have h2 : HasSuffix (filepathDir "sys/policies/acl/default") "acl" = true := by decide
    simp [classifyChange, h1, h2]
  · have h1 : HasPrefix "secret/data/x" "auth" = false := by decide
    have h2 : HasSuffix (filepathDir "secret/data/x") "acl" = false := by decide
    simp [classifyChange, h1, h2]

end gitops

namespace gitops

/-- C20 (segment exactness) fails on the code: `authority/x` is classified `Principal`
although its first segment is `authority`, and `secret/oracl/x` is classified `Policy`
although the final segment of its directory is `oracl`. -/
theorem classifyChange_not_segment_exact :
    ((classifyChange filepathDir "authority/x" Mutation.Change).Principal = true ∧
        firstSegment "authority/x" = some "authority".data ∧
        firstSegment "authority/x" ≠ some "auth".data) ∧
      ((classifyChange filepathDir "secret/oracl/x" Mutation.Change).Policy = true ∧
        finalSegment (filepathDir "secret/oracl/x") = some "oracl".data ∧
        finalSegment (filepathDir "secret/oracl/x") ≠ some "acl".data) := by
  decide

/-- C20, amended.  A path is classified `Principal` exactly when the path string begins
with the characters `auth`, and `Policy` exactly when it does not and the string
returned by `filepath.Dir` ends with the characters `acl`; segment boundaries play no
part. -/
theorem classifyChange_iff (dir : String → String) (path : String) (mutation : Mutation) :
    ((classifyChange dir path mutation).Principal = true ↔ "auth".data <+: path.data) ∧
      ((classifyChange dir path mutation).Policy = true ↔
        ¬ "auth".data <+: path.data ∧ "acl".data <:+ (dir path).data) := by
  rw [classifyChange_principal, classifyChange_policy]
  have hp : HasPrefix path "auth" = true ↔ "auth".data <+: path.data := by
    unfold HasPrefix; exact List.isPrefixOf_iff_prefix
  have hs : HasSuffix (dir path) "acl" = true ↔ "acl".data <:+ (dir path).data := by
    unfold HasSuffix; exact List.isSuffixOf_iff_suffix
  rw [← hp, ← hs]
  cases HasPrefix path "auth" <;> simp

end gitops

/-! ## Reading the policies of a principal -/

namespace gitops

theorem loadPolicies_cons (w : World) (gitDir polDir ref readThing name : String)
    (rest : List String) (acc : List Policy) :
    loadPolicies w gitDir polDir ref readThing (name :: rest) acc =
      match fetchPolicy w gitDir polDir ref readThing name with
      | .error e => .error e
      | .ok none => loadPolicies w gitDir polDir ref readThing rest acc
      | .ok (some policy) => loadPolicies w gitDir polDir ref readThing rest (acc ++ [policy]) :=
  rfl

theorem loadPolicies_acc (w : World) (gitDir polDir ref readThing : String)
    (names : List String) (acc : List Policy) :
    loadPolicies w gitDir polDir ref readThing names acc =
      match loadPolicies w gitDir polDir ref readThing names [] with
      | .error e => .error e
      | .ok l => .ok (acc ++ l) := by
  induction names generalizing acc with
  | nil => simp [loadPolicies]
  | cons name rest ih =>
    rw [loadPolicies_cons, loadPolicies_cons]
    rcases hf : fetchPolicy w gitDir polDir ref readThing name with e | _ | policy
    · rfl
    · exact ih acc
    · simp only []
      rw [ih (acc ++ [policy]), ih ([] ++ [policy])]
      cases loadPolicies w gitDir polDir ref readThing rest [] <;> simp

theorem loadPolicies_append (w : World) (gitDir polDir ref readThing : String)
    (before after : List String) (l1 l2 : List Policy)
    (h1 : loadPolicies w gitDir polDir ref readThing before [] = .ok l1)
    (h2 : loadPolicies w gitDir polDir ref readThing after [] = .ok l2) :
    loadPolicies w gitDir polDir ref readThing (before ++ after) [] = .ok (l1 ++ l2) := by
  induction before generalizing l1 with
  | nil =>
    simp only [loadPolicies, Except.ok.injEq] at h1
    subst h1
    simpa using h2
  | cons name rest ih =>
    rw [List.cons_append, loadPolicies_cons]
    rw [loadPolicies_cons] at h1
    rcases hf : fetchPolicy w gitDir polDir ref readThing name with e | _ | policy
    · rw [hf] at h1; cases h1
    · rw [hf] at h1
      exact ih l1 h1
    · rw [hf] at h1
      simp only [] at h1 ⊢
      rw [loadPolicies_acc] at h1 ⊢
      cases hr : loadPolicies w gitDir polDir ref readThing rest [] with
      | error e => rw [hr] at h1; cases h1
      | ok l =>
        rw [hr] at h1
        simp only [Except.ok.injEq] at h1
        subst h1
        rw [ih l hr]
        simp

theorem fetchPolicy_missing (w : World) (gitDir polDir readThing name : String)
    (err : ReadError) (hread : w.readFile (w.join [gitDir, polDir, name]) = .error err)
    (hne : err.notExist = true) :
    fetchPolicy w gitDir polDir "" readThing name = .ok none := by
  simp [fetchPolicy, hread, hne]

theorem fetchPolicy_historical_error (w : World) (gitDir polDir ref readThing name e : String)
    (href : ref ≠ "") (hshow : w.gitShow gitDir (ref ++ ":" ++ w.join [polDir, name]) = .error e) :
    ∃ msg, fetchPolicy w gitDir polDir ref readThing name = .error msg := by
  simp [fetchPolicy, href, hshow]

theorem loadPolicies_error_of_mem (w : World) (gitDir polDir ref readThing : String)
    (names : List String) (acc : List Policy) (name : String) (hmem : name ∈ names)
    (hf : ∃ msg, fetchPolicy w gitDir polDir ref readThing name = .error msg) :
    ∃ msg, loadPolicies w gitDir polDir ref readThing names acc = .error msg := by
  induction names generalizing acc with
  | nil => simp at hmem
  | cons n rest ih =>
    rw [loadPolicies_cons]
    rcases List.mem_cons.mp hmem with h | h
    · subst h
      obtain ⟨msg, hmsg⟩ := hf
      exact ⟨msg, by rw [hmsg]⟩
    · rcases hn : fetchPolicy w gitDir polDir ref readThing n with e | _ | policy
      · exact ⟨e, rfl⟩
      · exact ih acc h
      · exact ih _ h

theorem accumulate_skip_empty (l1 l2 : List Policy) (name : String) :
    GetCapabilityMap ⟨l1 ++ ⟨name, []⟩ :: l2⟩ = GetCapabilityMap ⟨l1 ++ l2⟩ := by
  simp [GetCapabilityMap, accumulate, List.foldl_append, accumulatePolicy]

end gitops

namespace gitops

theorem readPrincipalPolicies_of_data (w : World) (gitDir principalPath polDir ref : String)
    (content : String) (data : authPrincipalData)
    (hc : readPrincipalData w gitDir principalPath ref = .ok content)
    (hd : w.unmarshal content = .ok data) :
    readPrincipalPolicies w gitDir principalPath polDir ref =
      loadPolicies w gitDir polDir ref
        (if ref = "" then w.join [gitDir, principalPath] else ref ++ ":" ++ principalPath)
        data.AllPolicies [] := by
  simp [readPrincipalPolicies, hc, hd]

theorem readPrincipalPolicies_error_of_gitShow (w : World)
    (gitDir principalPath polDir ref e : String) (href : ref ≠ "")
    (hshow : w.gitShow gitDir (ref ++ ":" ++ principalPath) = .error e) :
    ∃ msg, readPrincipalPolicies w gitDir principalPath polDir ref = .error msg := by
  simp [readPrincipalPolicies, readPrincipalData, href, hshow]

/-- C15 (newly added identity) fails on the code: in the concrete repository the
identity `auth/new` is in the working copy and absent at revision `main`, and
`GetAuthPrincipalDifferential` returns an error instead of a differential. -/
theorem GetAuthPrincipalDifferential_new_identity :
    readPrincipalPolicies (exampleWorld []) "/repo" "auth/new" "sys/policies/acl" "" =
        .ok [⟨"P", [⟨"secret/b", ["read"]⟩]⟩] ∧
      exampleGitShow "/repo" "main:auth/new" = .error "exit status 128" ∧
      GetAuthPrincipalDifferential (exampleWorld []) "/repo" "auth/new" "sys/policies/acl"
          "main" =
        .error ("error getting policies for historical copy: " ++
          "error getting auth principal file at ref main:auth/new: exit status 128") :=
  ⟨rfl, rfl, rfl⟩

/-- C15, amended.  When the identity file cannot be shown at the historical revision
(as for a newly added identity), `GetAuthPrincipalDifferential` returns an error and no
differential, whatever the working copy holds. -/
theorem GetAuthPrincipalDifferential_error_of_gitShow (w : World)
    (repositoryPath principalPath polDir ref e : String) (href : ref ≠ "")
    (hshow : w.gitShow repositoryPath (ref ++ ":" ++ principalPath) = .error e) :
    ∃ msg, GetAuthPrincipalDifferential w repositoryPath principalPath polDir ref =
      .error msg := by
  obtain ⟨msg, hmsg⟩ :=
    readPrincipalPolicies_error_of_gitShow w repositoryPath principalPath polDir ref e href hshow
  unfold GetAuthPrincipalDifferential
  cases readPrincipalPolicies w repositoryPath principalPath polDir "" with
  | error e1 => exact ⟨_, rfl⟩
  | ok current => simp only [hmsg]; exact ⟨_, rfl⟩

theorem GetAuthPrincipalDifferential_error_of_gitShow_witness :
    "main" ≠ "" ∧
      (exampleWorld []).gitShow "/repo" ("main" ++ ":" ++ "auth/new") =
        .error "exit status 128" ∧
      ∃ msg, GetAuthPrincipalDifferential (exampleWorld []) "/repo" "auth/new"
        "sys/policies/acl" "main" = .error msg :=
  ⟨by decide, rfl,
    GetAuthPrincipalDifferential_error_of_gitShow (exampleWorld []) "/repo" "auth/new"
      "sys/policies/acl" "main" "exit status 128" (by decide) rfl⟩

/-- C16 (missing policy files).  Reading the working copy: when the file of a referenced
policy does not exist and the policies referenced before and after it load, no error is
returned, the policy is left out of the result, and the capability map of the result is
the one obtained with that policy present without rules.  Reading a historical
revision: when a referenced policy cannot be shown, the result is an error. -/
theorem readPrincipalPolicies_missing_policy (w : World)
    (gitDir principalPath polDir : String) :
    (∀ (content : String) (data : authPrincipalData) (before : List String) (name : String)
        (after : List String) (err : ReadError) (l1 l2 : List Policy),
        readPrincipalData w gitDir principalPath "" = .ok content →
        w.unmarshal content = .ok data →
        data.AllPolicies = before ++ name :: after →
        w.readFile (w.join [gitDir, polDir, name]) = .error err →
        err.notExist = true →
        loadPolicies w gitDir polDir "" (w.join [gitDir, principalPath]) before [] = .ok l1 →
        loadPolicies w gitDir polDir "" (w.join [gitDir, principalPath]) after [] = .ok l2 →
        readPrincipalPolicies w gitDir principalPath polDir "" = .ok (l1 ++ l2) ∧
          GetCapabilityMap ⟨l1 ++ l2⟩ = GetCapabilityMap ⟨l1 ++ ⟨name, []⟩ :: l2⟩) ∧
      (∀ (ref content : String) (data : authPrincipalData) (name e : String),
        ref ≠ "" →
        readPrincipalData w gitDir principalPath ref = .ok content →
        w.unmarshal content = .ok data →
        name ∈ data.AllPolicies →
        w.gitShow gitDir (ref ++ ":" ++ w.join [polDir, name]) = .error e →
        ∃ msg, readPrincipalPolicies w gitDir principalPath polDir ref = .error msg) := by
  constructor
  · intro content data before name after err l1 l2 hc hd hall hread hne h1 h2
    refine ⟨?_, (accumulate_skip_empty l1 l2 name).symm⟩
    rw [readPrincipalPolicies_of_data w gitDir principalPath polDir "" content data hc hd,
      hall, if_pos rfl]
    have hskip : loadPolicies w gitDir polDir "" (w.join [gitDir, principalPath])
        (name :: after) [] = .ok l2 := by
      rw [loadPolicies_cons, fetchPolicy_missing w gitDir polDir _ name err hread hne]
      exact h2
    exact loadPolicies_append w gitDir polDir "" _ before (name :: after) l1 l2 h1 hskip
  · intro ref content data name e href hc hd hmem hshow
    rw [readPrincipalPolicies_of_data w gitDir principalPath polDir ref content data hc hd]
    exact loadPolicies_error_of_mem w gitDir polDir ref _ data.AllPolicies [] name hmem
      (fetchPolicy_historical_error w gitDir polDir ref _ name e href hshow)

theorem readPrincipalPolicies_missing_policy_witness :
    (readPrincipalPolicies (exampleWorld []) "/repo" "auth/dangling" "sys/policies/acl" "" =
          .ok ([⟨"P", [⟨"secret/b", ["read"]⟩]⟩] ++ []) ∧
        GetCapabilityMap ⟨[⟨"P", [⟨"secret/b", ["read"]⟩]⟩] ++ []⟩ =
          GetCapabilityMap ⟨[⟨"P", [⟨"secret/b", ["read"]⟩]⟩] ++ ⟨"missing", []⟩ :: []⟩) ∧
      ∃ msg, readPrincipalPolicies (exampleWorld []) "/repo" "auth/dangling"
        "sys/policies/acl" "main" = .error msg :=
  ⟨(readPrincipalPolicies_missing_policy (exampleWorld []) "/repo" "auth/dangling"
      "sys/policies/acl").1 "refers to P and missing" ⟨["missing"], ["P"], []⟩ ["P"] "missing" []
      ⟨true, "open /repo/sys/policies/acl/missing: no such file or directory"⟩
      [⟨"P", [⟨"secret/b", ["read"]⟩]⟩] [] rfl rfl rfl rfl rfl rfl rfl,
    (readPrincipalPolicies_missing_policy (exampleWorld []) "/repo" "auth/dangling"
      "sys/policies/acl").2 "main" "refers to P and missing" ⟨["missing"], ["P"], []⟩ "missing"
      "exit status 128" (by decide) rfl rfl (by decide) rfl⟩

end gitops

/-! ## The two passes of `GetPolicyChangeDifferentials` -/

namespace gitops

theorem any_name_eq_iff (l : List String) (policyName : String) :
    l.any (fun name => name == policyName) = true ↔ policyName ∈ l := by
  simp [List.any_eq_true]

theorem any_policy_name_iff (policies : List Policy) (policyName : String) :
    policies.any (fun policy => policy.Name == policyName) = true ↔
      policyName ∈ policies.map (fun policy => policy.Name) := by
  simp [List.any_eq_true]

theorem Diff_empty_literal (X : RSoPCapMap) :
    Diff X (some ∅) = { Added := none, Removed := X } :=
  rfl

theorem deletedPass_cons (w : World) (repo policyName polDir ref : String)
    (changed : ChangedFile) (rest : List ChangedFile) (affected : DiffMap) :
    deletedPass w repo policyName polDir ref (changed :: rest) affected =
      if changed.Principal && changed.Mutation == Mutation.Delete then
        match readPrincipalPolicies w repo changed.Path polDir ref with
        | .error e =>
          .error ("error reading policies for deleted auth principal " ++ changed.Path ++
            ": " ++ e)
        | .ok policies =>
          if policies.any (fun policy => policy.Name == policyName) then
            deletedPass w repo policyName polDir ref rest
              (affected.insert changed.Path
                (some (Diff (GetCapabilityMap ⟨policies⟩) (some ∅))))
          else deletedPass w repo policyName polDir ref rest affected
      else deletedPass w repo policyName polDir ref rest affected :=
  rfl

theorem recorded_cons_of_rest (w : World) (repo policyName polDir ref : String)
    (changed : ChangedFile) (rest : List ChangedFile) (p : String) (policies : List Policy)
    (h : recordedByDeletedPass w repo policyName polDir ref rest p policies) :
    recordedByDeletedPass w repo policyName polDir ref (changed :: rest) p policies := by
  obtain ⟨cf, hmem, hrest⟩ := h
  exact ⟨cf, List.mem_cons_of_mem _ hmem, hrest⟩

theorem recorded_cons_inv (w : World) (repo policyName polDir ref : String)
    (changed : ChangedFile) (rest : List ChangedFile) (p : String) (policies : List Policy)
    (h : recordedByDeletedPass w repo policyName polDir ref (changed :: rest) p policies) :
    (changed.Path = p ∧ changed.Principal = true ∧ changed.Mutation = Mutation.Delete ∧
        readPrincipalPolicies w repo p polDir ref = .ok policies ∧
        policyName ∈ policies.map (fun policy => policy.Name)) ∨
      recordedByDeletedPass w repo policyName polDir ref rest p policies := by
  obtain ⟨cf, hmem, hrest⟩ := h
  rcases List.mem_cons.mp hmem with h | h
  · subst h; exact Or.inl hrest
  · exact Or.inr ⟨cf, h, hrest⟩

theorem deletedPass_lookup (w : World) (repo policyName polDir ref : String)
    (changedFiles : List ChangedFile) (affected result : DiffMap)
    (h : deletedPass w repo policyName polDir ref changedFiles affected = .ok result)
    (p : String) :
    (∀ policies, recordedByDeletedPass w repo policyName polDir ref changedFiles p policies →
        result.lookup p = some (some { Added := none, Removed := GetCapabilityMap ⟨policies⟩ })) ∧
      ((¬ ∃ policies,
          recordedByDeletedPass w repo policyName polDir ref changedFiles p policies) →
        result.lookup p = affected.lookup p) := by
  induction changedFiles generalizing affected with
  | nil =>
    simp only [deletedPass, Except.ok.injEq] at h
    subst h
    exact ⟨fun policies ⟨_, hmem, _⟩ => absurd hmem (List.not_mem_nil _), fun _ => rfl⟩
  | cons changed rest ih =>
    rw [deletedPass_cons] at h
    by_cases hdel : (changed.Principal && changed.Mutation == Mutation.Delete) = true
    · rw [if_pos hdel] at h
      have hprin : changed.Principal = true := by
        simp only [Bool.and_eq_true] at hdel; exact hdel.1
      have hmut : changed.Mutation = Mutation.Delete := by
        simp only [Bool.and_eq_true, beq_iff_eq] at hdel; exact hdel.2
      cases hread : readPrincipalPolicies w repo changed.Path polDir ref with
      | error e => rw [hread] at h; cases h
      | ok policies0 =>
        rw [hread] at h
        simp only [] at h
        by_cases hrel : policies0.any (fun policy => policy.Name == policyName) = true
        · rw [if_pos hrel, Diff_empty_literal] at h
          obtain ⟨ih1, ih2⟩ := ih _ h
          constructor
          · intro policies hrec
            by_cases hrest : ∃ q, recordedByDeletedPass w repo policyName polDir ref rest p q
            · rcases recorded_cons_inv _ _ _ _ _ _ _ _ _ hrec with hhead | htail
              · obtain ⟨q, hq⟩ := hrest
                have hq' := hq
                obtain ⟨_, _, _, _, _, hreadq, _⟩ := hq'
                have : q = policies := by
                  rw [hhead.2.2.2.1] at hreadq
                  exact (Except.ok.inj hreadq).symm
                subst this
                exact ih1 _ hq
              · exact ih1 _ htail
            · rcases recorded_cons_inv _ _ _ _ _ _ _ _ _ hrec with hhead | htail
              · obtain ⟨hpath, _, _, hreadp, _⟩ := hhead
                subst hpath
                rw [hread] at hreadp
                have : policies0 = policies := Except.ok.inj hreadp
                subst this
                rw [ih2 hrest, AList.lookup_insert]
              · exact absurd ⟨_, htail⟩ hrest
          · intro hnone
            have hrest : ¬ ∃ q, recordedByDeletedPass w repo policyName polDir ref rest p q :=
              fun ⟨q, hq⟩ => hnone ⟨q, recorded_cons_of_rest _ _ _ _ _ _ _ _ _ hq⟩
            have hne : p ≠ changed.Path := by
              intro hp
              exact hnone ⟨policies0, changed, List.mem_cons_self _ _, hp.symm, hprin, hmut,
                hp ▸ hread, (any_policy_name_iff _ _).mp hrel⟩
            rw [ih2 hrest, AList.lookup_insert_ne hne]
        · rw [if_neg hrel] at h
          obtain ⟨ih1, ih2⟩ := ih _ h
          have hnohead : ∀ policies,
              recordedByDeletedPass w repo policyName polDir ref (changed :: rest) p policies →
                recordedByDeletedPass w repo policyName polDir ref rest p policies := by
            intro policies hrec
            rcases recorded_cons_inv _ _ _ _ _ _ _ _ _ hrec with hhead | htail
            · obtain ⟨hpath, _, _, hreadp, hin⟩ := hhead
              subst hpath
              rw [hread] at hreadp
              have : policies0 = policies := Except.ok.inj hreadp
              subst this
              exact absurd ((any_policy_name_iff _ _).mpr hin) hrel
            · exact htail
          exact ⟨fun policies hrec => ih1 _ (hnohead _ hrec),
            fun hnone => ih2 (fun ⟨q, hq⟩ =>
              hnone ⟨q, recorded_cons_of_rest _ _ _ _ _ _ _ _ _ hq⟩)⟩
    · rw [if_neg hdel] at h
      obtain ⟨ih1, ih2⟩ := ih _ h
      have hnohead : ∀ policies,
          recordedByDeletedPass w repo policyName polDir ref (changed :: rest) p policies →
            recordedByDeletedPass w repo policyName polDir ref rest p policies := by
        intro policies hrec
        rcases recorded_cons_inv _ _ _ _ _ _ _ _ _ hrec with hhead | htail
        · obtain ⟨_, hprin, hmut, _, _⟩ := hhead
          exact absurd (by simp [hprin, hmut]) hdel
        · exact htail
      exact ⟨fun policies hrec => ih1 _ (hnohead _ hrec),
        fun hnone => ih2 (fun ⟨q, hq⟩ =>
          hnone ⟨q, recorded_cons_of_rest _ _ _ _ _ _ _ _ _ hq⟩)⟩

end gitops

namespace gitops

theorem walkEntry_lookup (w : World) (repo policyName polDir ref : String)
    (affected written : DiffMap) (entry : String × Bool)
    (h : walkEntry w repo policyName polDir ref affected entry = .ok written) (p : String) :
    (entryMatches w repo policyName entry p →
        ∃ d, GetAuthPrincipalDifferential w repo p polDir ref = .ok d ∧
          written.lookup p = some (some d)) ∧
      (¬ entryMatches w repo policyName entry p → written.lookup p = affected.lookup p) := by
  unfold walkEntry at h
  by_cases hdir : entry.2 = true
  · rw [if_pos hdir] at h
    have hw : written = affected := (Except.ok.inj h).symm
    subst hw
    exact ⟨fun hm => absurd hm.1 (by simp [hdir]), fun _ => rfl⟩
  · rw [if_neg hdir] at h
    cases hread : w.readFile entry.1 with
    | error err => rw [hread] at h; cases h
    | ok content =>
      rw [hread] at h
      simp only [] at h
      cases hun : w.unmarshal content with
      | error e => rw [hun] at h; cases h
      | ok data =>
        rw [hun] at h
        simp only [] at h
        by_cases hany : data.AllPolicies.any (fun name => name == policyName) = true
        · rw [if_pos hany] at h
          cases hrel : w.rel repo entry.1 with
          | error e => rw [hrel] at h; cases h
          | ok relPath =>
            rw [hrel] at h
            simp only [] at h
            cases hdiff : GetAuthPrincipalDifferential w repo relPath polDir ref with
            | error e => rw [hdiff] at h; cases h
            | ok d =>
              rw [hdiff] at h
              have hw : written = affected.insert relPath (some d) := (Except.ok.inj h).symm
              subst hw
              constructor
              · intro hm
                obtain ⟨_, hrelp, _⟩ := hm
                rw [hrel] at hrelp
                have : relPath = p := Except.ok.inj hrelp
                subst this
                exact ⟨d, hdiff, AList.lookup_insert _⟩
              · intro hnm
                have hne : p ≠ relPath := by
                  intro hp
                  subst hp
                  exact hnm ⟨by simpa using hdir, hrel, content, data, hread, hun,
                    (any_name_eq_iff _ _).mp hany⟩
                exact AList.lookup_insert_ne hne
        · rw [if_neg hany] at h
          have hw : written = affected := (Except.ok.inj h).symm
          subst hw
          refine ⟨fun hm => ?_, fun _ => rfl⟩
          obtain ⟨_, _, content2, data2, hread2, hun2, hin⟩ := hm
          rw [hread] at hread2
          have hc : content = content2 := Except.ok.inj hread2
          subst hc
          rw [hun] at hun2
          have hd : data = data2 := Except.ok.inj hun2
          subst hd
          exact absurd ((any_name_eq_iff _ _).mpr hin) hany

theorem walkEntries_cons (w : World) (repo policyName polDir ref : String)
    (entry : String × Bool) (rest : List (String × Bool)) (affected : DiffMap) :
    walkEntries w repo policyName polDir ref (entry :: rest) affected =
      match walkEntry w repo policyName polDir ref affected entry with
      | .error e => (affected, some e)
      | .ok written => walkEntries w repo policyName polDir ref rest written :=
  rfl

/-- The walk leaves alone every path at which it finds no matching file, whether or
not it ends with an error. -/
theorem walkEntries_lookup_of_not_found (w : World) (repo policyName polDir ref : String)
    (entries : List (String × Bool)) (affected : DiffMap) (p : String)
    (hnf : ¬ foundByWalk w repo policyName entries p) :
    (walkEntries w repo policyName polDir ref entries affected).1.lookup p =
      affected.lookup p := by
  induction entries generalizing affected with
  | nil => rfl
  | cons entry rest ih =>
    rw [walkEntries_cons]
    have hrest : ¬ foundByWalk w repo policyName rest p :=
      fun ⟨e, he, hm⟩ => hnf ⟨e, List.mem_cons_of_mem _ he, hm⟩
    have hentry : ¬ entryMatches w repo policyName entry p :=
      fun hm => hnf ⟨entry, List.mem_cons_self _ _, hm⟩
    cases hstep : walkEntry w repo policyName polDir ref affected entry with
    | error e => rfl
    | ok written =>
      simp only []
      rw [ih written hrest]
      exact (walkEntry_lookup w repo policyName polDir ref affected written entry hstep p).2
        hentry

/-- A walk that ends without error binds every path at which it finds a matching file
to the differential of `GetAuthPrincipalDifferential` for that path. -/
theorem walkEntries_lookup_of_found (w : World) (repo policyName polDir ref : String)
    (entries : List (String × Bool)) (affected : DiffMap) (p : String)
    (hok : (walkEntries w repo policyName polDir ref entries affected).2 = none)
    (hf : foundByWalk w repo policyName entries p) :
    ∃ d, GetAuthPrincipalDifferential w repo p polDir ref = .ok d ∧
      (walkEntries w repo policyName polDir ref entries affected).1.lookup p =
        some (some d) := by
  induction entries generalizing affected with
  | nil =>
    obtain ⟨_, hmem, _⟩ := hf
    exact absurd hmem (List.not_mem_nil _)
  | cons entry rest ih =>
    rw [walkEntries_cons] at hok ⊢
    cases hstep : walkEntry w repo policyName polDir ref affected entry with
    | error e => rw [hstep] at hok; cases hok
    | ok written =>
      rw [hstep] at hok
      simp only [] at hok ⊢
      by_cases hrest : foundByWalk w repo policyName rest p
      · exact ih written hok hrest
      · have hentry : entryMatches w repo policyName entry p := by
          obtain ⟨e, he, hm⟩ := hf
          rcases List.mem_cons.mp he with h | h
          · subst h; exact hm
          · exact absurd ⟨e, h, hm⟩ hrest
        obtain ⟨d, hd, hlk⟩ :=
          (walkEntry_lookup w repo policyName polDir ref affected written entry hstep p).1
            hentry
        refine ⟨d, hd, ?_⟩
        rw [walkEntries_lookup_of_not_found w repo policyName polDir ref rest written p hrest]
        exact hlk

theorem GetPolicyChangeDifferentials_returned (w : World) (changedFiles : List ChangedFile)
    (repo policyName polDir principalDir ref root : String) (entries : List (String × Bool))
    (pass1 : DiffMap)
    (hpass : deletedPass w repo policyName polDir ref changedFiles ∅ = .ok pass1)
    (habs : w.abs (w.join [repo, principalDir]) = .ok root)
    (hwalk : w.walkDir root = some entries) :
    GetPolicyChangeDifferentials w changedFiles repo policyName polDir principalDir ref =
      .returned
        (some (walkEntries w repo policyName polDir ref entries pass1).1,
          (walkEntries w repo policyName polDir ref entries pass1).2) := by
  simp [GetPolicyChangeDifferentials, hpass, habs, hwalk]

theorem deletedPass_ok_of_returned (w : World) (changedFiles : List ChangedFile)
    (repo policyName polDir principalDir ref : String) (mapping : DiffMap)
    (err : Option String)
    (hret : GetPolicyChangeDifferentials w changedFiles repo policyName polDir principalDir
      ref = .returned (some mapping, err)) :
    ∃ pass1, deletedPass w repo policyName polDir ref changedFiles ∅ = .ok pass1 := by
  unfold GetPolicyChangeDifferentials at hret
  cases hpass : deletedPass w repo policyName polDir ref changedFiles ∅ with
  | error e => rw [hpass] at hret; cases hret
  | ok pass1 => exact ⟨pass1, rfl⟩

end gitops

namespace gitops

theorem fetchPolicy_historical_name (w : World) (gitDir polDir ref readThing name : String)
    (href : ref ≠ "") (r : Option Policy)
    (h : fetchPolicy w gitDir polDir ref readThing name = .ok r) :
    ∃ policy, r = some policy ∧ policy.Name = name := by
  unfold fetchPolicy at h
  rw [if_neg href] at h
  cases hshow : w.gitShow gitDir (ref ++ ":" ++ w.join [polDir, name]) with
  | error e => rw [hshow] at h; cases h
  | ok policyData =>
    rw [hshow] at h
    simp only [] at h
    unfold ParsePolicy at h
    cases hdec : w.decode (name ++ ".hcl") policyData with
    | error e => rw [hdec] at h; cases h
    | ok decoded =>
      rw [hdec] at h
      simp only [Except.ok.injEq] at h
      exact ⟨_, h.symm, rfl⟩

theorem loadPolicies_historical_names (w : World) (gitDir polDir ref readThing : String)
    (href : ref ≠ "") (names : List String) (acc l : List Policy)
    (h : loadPolicies w gitDir polDir ref readThing names acc = .ok l) :
    l.map (fun policy => policy.Name) = acc.map (fun policy => policy.Name) ++ names := by
  induction names generalizing acc with
  | nil =>
    simp only [loadPolicies, Except.ok.injEq] at h
    subst h
    simp
  | cons name rest ih =>
    rw [loadPolicies_cons] at h
    cases hf : fetchPolicy w gitDir polDir ref readThing name with
    | error e => rw [hf] at h; cases h
    | ok r =>
      obtain ⟨policy, hr, hname⟩ := fetchPolicy_historical_name w gitDir polDir ref readThing
        name href r hf
      subst hr
      rw [hf] at h
      simp only [] at h
      rw [ih _ h]
      simp [hname]

theorem readPrincipalPolicies_historical (w : World) (gitDir principalPath polDir ref : String)
    (href : ref ≠ "") (policies : List Policy)
    (h : readPrincipalPolicies w gitDir principalPath polDir ref = .ok policies) :
    ∃ content data, w.gitShow gitDir (ref ++ ":" ++ principalPath) = .ok content ∧
      w.unmarshal content = .ok data ∧
      policies.map (fun policy => policy.Name) = data.AllPolicies := by
  unfold readPrincipalPolicies readPrincipalData at h
  simp only [if_neg href] at h
  cases hshow : w.gitShow gitDir (ref ++ ":" ++ principalPath) with
  | error e => rw [hshow] at h; cases h
  | ok content =>
    rw [hshow] at h
    simp only [] at h
    cases hun : w.unmarshal content with
    | error e => rw [hun] at h; cases h
    | ok data =>
      rw [hun] at h
      simp only [] at h
      refine ⟨content, data, rfl, hun, ?_⟩
      simpa using loadPolicies_historical_names w gitDir polDir ref _ href _ [] policies h

theorem deletedPass_read_ok (w : World) (repo policyName polDir ref : String)
    (changedFiles : List ChangedFile) (affected result : DiffMap)
    (h : deletedPass w repo policyName polDir ref changedFiles affected = .ok result)
    (cf : ChangedFile) (hcf : cf ∈ changedFiles) (hprin : cf.Principal = true)
    (hmut : cf.Mutation = Mutation.Delete) :
    ∃ policies, readPrincipalPolicies w repo cf.Path polDir ref = .ok policies := by
  induction changedFiles generalizing affected with
  | nil => exact absurd hcf (List.not_mem_nil _)
  | cons changed rest ih =>
    rw [deletedPass_cons] at h
    rcases List.mem_cons.mp hcf with hhead | htail
    · subst hhead
      have hdel : (cf.Principal && cf.Mutation == Mutation.Delete) = true := by
        simp [hprin, hmut]
      rw [if_pos hdel] at h
      cases hread : readPrincipalPolicies w repo cf.Path polDir ref with
      | error e => rw [hread] at h; cases h
      | ok policies => exact ⟨policies, rfl⟩
    · by_cases hdel : (changed.Principal && changed.Mutation == Mutation.Delete) = true
      · rw [if_pos hdel] at h
        cases hread : readPrincipalPolicies w repo changed.Path polDir ref with
        | error e => rw [hread] at h; cases h
        | ok policies0 =>
          rw [hread] at h
          simp only [] at h
          by_cases hrel : policies0.any (fun policy => policy.Name == policyName) = true
          · rw [if_pos hrel] at h; exact ih _ h htail
          · rw [if_neg hrel] at h; exact ih _ h htail
      · rw [if_neg hdel] at h; exact ih _ h htail

theorem mapping_eq_of_returned (w : World) (changedFiles : List ChangedFile)
    (repo policyName polDir principalDir ref root : String) (entries : List (String × Bool))
    (pass1 mapping : DiffMap) (err : Option String)
    (hpass : deletedPass w repo policyName polDir ref changedFiles ∅ = .ok pass1)
    (habs : w.abs (w.join [repo, principalDir]) = .ok root)
    (hwalk : w.walkDir root = some entries)
    (hret : GetPolicyChangeDifferentials w changedFiles repo policyName polDir principalDir
      ref = .returned (some mapping, err)) :
    (walkEntries w repo policyName polDir ref entries pass1).1 = mapping ∧
      (walkEntries w repo policyName polDir ref entries pass1).2 = err := by
  rw [GetPolicyChangeDifferentials_returned w changedFiles repo policyName polDir principalDir
    ref root entries pass1 hpass habs hwalk] at hret
  simp only [Outcome.returned.injEq, Prod.mk.injEq, Option.some.injEq] at hret
  exact hret

end gitops

/-! ## The claims about `GetPolicyChangeDifferentials` -/

namespace gitops

/-- C13 (deleted identities) fails on the code when the file reported deleted is still
on disk: in the concrete repository `auth/gone` is a deleted principal whose policies at
`main` include `P`, the walk finds the file, and the entry returned for it is the
before/after differential, whose `Added` is not absent. -/
theorem GetPolicyChangeDifferentials_deleted_but_on_disk :
    readPrincipalPolicies (exampleWorld walkWithGone) "/repo" "auth/gone" "sys/policies/acl"
        "main" = .ok [policyThen] ∧
      returnedWithoutError
        (GetPolicyChangeDifferentials (exampleWorld walkWithGone) [goneDeleted] "/repo" "P"
          "sys/policies/acl" "auth" "main") = true ∧
      ∃ d, returnedEntry
          (GetPolicyChangeDifferentials (exampleWorld walkWithGone) [goneDeleted] "/repo" "P"
            "sys/policies/acl" "auth" "main") "auth/gone" = some (some d) ∧
        d.Added.lookup2 "secret/b" "read" = some ["P"] ∧
        d ≠ { Added := none, Removed := GetCapabilityMap ⟨[policyThen]⟩ } :=
  ⟨rfl, rfl,
    Diff (GetCapabilityMap ⟨[policyThen]⟩) (GetCapabilityMap ⟨[policyNow]⟩), rfl, rfl,
    fun h => Option.noConfusion (congrArg RSoPDifferential.Added h)⟩

/-- C13, amended.  When the call returns without error from a historical revision: a
changed file that is a deleted principal, and at whose path the walk finds no matching
file, has its policies read at that revision, named exactly by its merged policy-name
list there; if the list contains the policy name the returned map binds its path to the
differential with `Added` nil and `Removed` the capability map of those policies; if not,
the first pass leaves the path without an entry. -/
theorem GetPolicyChangeDifferentials_deleted_principal (w : World)
    (changedFiles : List ChangedFile)
    (repo policyName polDir principalDir ref root : String) (entries : List (String × Bool))
    (mapping : DiffMap) (cf : ChangedFile) (href : ref ≠ "")
    (habs : w.abs (w.join [repo, principalDir]) = .ok root)
    (hwalk : w.walkDir root = some entries)
    (hret : GetPolicyChangeDifferentials w changedFiles repo policyName polDir principalDir
      ref = .returned (some mapping, none))
    (hcf : cf ∈ changedFiles) (hprin : cf.Principal = true)
    (hmut : cf.Mutation = Mutation.Delete)
    (hnf : ¬ foundByWalk w repo policyName entries cf.Path) :
    ∃ content data policies pass1,
      w.gitShow repo (ref ++ ":" ++ cf.Path) = .ok content ∧
      w.unmarshal content = .ok data ∧
      readPrincipalPolicies w repo cf.Path polDir ref = .ok policies ∧
      policies.map (fun policy => policy.Name) = data.AllPolicies ∧
      deletedPass w repo policyName polDir ref changedFiles ∅ = .ok pass1 ∧
      (policyName ∈ data.AllPolicies →
        mapping.lookup cf.Path =
          some (some { Added := none, Removed := GetCapabilityMap ⟨policies⟩ })) ∧
      (policyName ∉ data.AllPolicies → pass1.lookup cf.Path = none) := by
  obtain ⟨pass1, hpass⟩ := deletedPass_ok_of_returned w changedFiles repo policyName polDir
    principalDir ref mapping none hret
  obtain ⟨policies, hread⟩ := deletedPass_read_ok w repo policyName polDir ref changedFiles ∅
    pass1 hpass cf hcf hprin hmut
  obtain ⟨content, data, hshow, hun, hnames⟩ :=
    readPrincipalPolicies_historical w repo cf.Path polDir ref href policies hread
  obtain ⟨hmap, _⟩ := mapping_eq_of_returned w changedFiles repo policyName polDir principalDir
    ref root entries pass1 mapping none hpass habs hwalk hret
  obtain ⟨hrec, hnot⟩ := deletedPass_lookup w repo policyName polDir ref changedFiles ∅ pass1
    hpass cf.Path
  refine ⟨content, data, policies, pass1, hshow, hun, hread, hnames, hpass, ?_, ?_⟩
  · intro hin
    rw [← hmap, walkEntries_lookup_of_not_found w repo policyName polDir ref entries pass1
      cf.Path hnf]
    exact hrec policies ⟨cf, hcf, rfl, hprin, hmut, hread, by rw [hnames]; exact hin⟩
  · intro hnin
    rw [hnot, AList.lookup_empty]
    rintro ⟨q, _, _, _, _, _, hreadq, hinq⟩
    rw [hread] at hreadq
    have : policies = q := Except.ok.inj hreadq
    subst this
    rw [hnames] at hinq
    exact hnin hinq

theorem not_foundByWalk_walkWithoutGone (policyName path : String) :
    ¬ foundByWalk (exampleWorld walkWithoutGone) "/repo" policyName walkWithoutGone path := by
  rintro ⟨entry, hmem, hdir, _⟩
  simp only [walkWithoutGone, List.mem_singleton] at hmem
  subst hmem
  exact absurd hdir (by decide)

theorem GetPolicyChangeDifferentials_deleted_principal_witness :
    ∃ content data policies pass1,
      (exampleWorld walkWithoutGone).gitShow "/repo" ("main" ++ ":" ++ goneDeleted.Path) =
        .ok content ∧
      (exampleWorld walkWithoutGone).unmarshal content = .ok data ∧
      readPrincipalPolicies (exampleWorld walkWithoutGone) "/repo" goneDeleted.Path
        "sys/policies/acl" "main" = .ok policies ∧
      policies.map (fun policy => policy.Name) = data.AllPolicies ∧
      deletedPass (exampleWorld walkWithoutGone) "/repo" "P" "sys/policies/acl" "main"
        [goneDeleted] ∅ = .ok pass1 ∧
      ("P" ∈ data.AllPolicies →
        (AList.singleton "auth/gone"
            (some { Added := none, Removed := GetCapabilityMap ⟨[policyThen]⟩ }) :
              DiffMap).lookup goneDeleted.Path =
          some (some { Added := none, Removed := GetCapabilityMap ⟨policies⟩ })) ∧
      ("P" ∉ data.AllPolicies → pass1.lookup goneDeleted.Path = none) :=
  GetPolicyChangeDifferentials_deleted_principal (exampleWorld walkWithoutGone) [goneDeleted]
    "/repo" "P" "sys/policies/acl" "auth" "main" "/repo/auth" walkWithoutGone
    (AList.singleton "auth/gone"
      (some { Added := none, Removed := GetCapabilityMap ⟨[policyThen]⟩ }))
    goneDeleted (by decide) rfl rfl rfl (List.mem_singleton.mpr rfl) rfl rfl
    (not_foundByWalk_walkWithoutGone "P" goneDeleted.Path)

end gitops

namespace gitops

/-- C14 (every referencing identity) fails on the code: in the concrete repository the
identity `auth/kept` still exists, referenced `P` at revision `main` and no longer does;
the call for `P` returns without error and its map has no entry for `auth/kept`. -/
theorem GetPolicyChangeDifferentials_misses_former_reference :
    readPrincipalPolicies (exampleWorld walkWithKept) "/repo" "auth/kept" "sys/policies/acl"
        "main" = .ok [policyThen] ∧
      readPrincipalPolicies (exampleWorld walkWithKept) "/repo" "auth/kept" "sys/policies/acl"
        "" = .ok [⟨"other", [⟨"secret/o", ["list"]⟩]⟩] ∧
      returnedWithoutError
        (GetPolicyChangeDifferentials (exampleWorld walkWithKept)
          [⟨"auth/kept", Mutation.Change, true, false⟩,
            ⟨"sys/policies/acl/P", Mutation.Change, false, true⟩]
          "/repo" "P" "sys/policies/acl" "auth" "main") = true ∧
      returnedEntry
        (GetPolicyChangeDifferentials (exampleWorld walkWithKept)
          [⟨"auth/kept", Mutation.Change, true, false⟩,
            ⟨"sys/policies/acl/P", Mutation.Change, false, true⟩]
          "/repo" "P" "sys/policies/acl" "auth" "main") "auth/kept" = none :=
  ⟨rfl, rfl, rfl, rfl⟩

/-- C14, amended.  When the call returns without error, a path has an entry in the
returned map exactly when it is the path of a deleted principal of the changed-file list
whose policies at the historical revision include the policy name, or the relative path
of a file found by the walk whose merged policy-name list in the working copy contains
the name.  No other identity is looked for. -/
theorem GetPolicyChangeDifferentials_entries (w : World) (changedFiles : List ChangedFile)
    (repo policyName polDir principalDir ref root : String) (entries : List (String × Bool))
    (mapping : DiffMap)
    (habs : w.abs (w.join [repo, principalDir]) = .ok root)
    (hwalk : w.walkDir root = some entries)
    (hret : GetPolicyChangeDifferentials w changedFiles repo policyName polDir principalDir
      ref = .returned (some mapping, none))
    (p : String) :
    (mapping.lookup p).isSome ↔
      (∃ policies, recordedByDeletedPass w repo policyName polDir ref changedFiles p policies) ∨
        foundByWalk w repo policyName entries p := by
  obtain ⟨pass1, hpass⟩ := deletedPass_ok_of_returned w changedFiles repo policyName polDir
    principalDir ref mapping none hret
  obtain ⟨hmap, herr⟩ := mapping_eq_of_returned w changedFiles repo policyName polDir
    principalDir ref root entries pass1 mapping none hpass habs hwalk hret
  obtain ⟨hrec, hnot⟩ := deletedPass_lookup w repo policyName polDir ref changedFiles ∅ pass1
    hpass p
  by_cases hf : foundByWalk w repo policyName entries p
  · obtain ⟨d, _, hlk⟩ := walkEntries_lookup_of_found w repo policyName polDir ref entries
      pass1 p herr hf
    rw [hmap] at hlk
    simp [hlk, hf]
  · have hlk := walkEntries_lookup_of_not_found w repo policyName polDir ref entries pass1 p hf
    rw [hmap] at hlk
    rw [hlk]
    by_cases hr : ∃ policies,
        recordedByDeletedPass w repo policyName polDir ref changedFiles p policies
    · obtain ⟨policies, hpol⟩ := hr
      rw [hrec policies hpol]
      simp only [Option.isSome_some, true_iff]
      exact Or.inl ⟨policies, hpol⟩
    · rw [hnot hr, AList.lookup_empty]
      simp [hr, hf]

theorem GetPolicyChangeDifferentials_entries_witness :
    ((AList.singleton "auth/gone"
          (some { Added := none, Removed := GetCapabilityMap ⟨[policyThen]⟩ }) :
            DiffMap).lookup "auth/gone").isSome ↔
      (∃ policies, recordedByDeletedPass (exampleWorld walkWithoutGone) "/repo" "P"
          "sys/policies/acl" "main" [goneDeleted] "auth/gone" policies) ∨
        foundByWalk (exampleWorld walkWithoutGone) "/repo" "P" walkWithoutGone "auth/gone" :=
  GetPolicyChangeDifferentials_entries (exampleWorld walkWithoutGone) [goneDeleted]
    "/repo" "P" "sys/policies/acl" "auth" "main" "/repo/auth" walkWithoutGone
    (AList.singleton "auth/gone"
      (some { Added := none, Removed := GetCapabilityMap ⟨[policyThen]⟩ }))
    rfl rfl rfl "auth/gone"

/-- C17 (no overwrite) fails on the code: in the concrete repository the first pass
records `auth/gone` with everything removed, the walk finds the file `auth/gone` on
disk, and the returned map binds the path to the walk's differential instead. -/
theorem GetPolicyChangeDifferentials_walk_replaces_entry :
    ∃ pass1 d,
      deletedPass (exampleWorld walkWithGone) "/repo" "P" "sys/policies/acl" "main"
          [goneDeleted] ∅ = .ok pass1 ∧
        pass1.lookup "auth/gone" =
          some (some { Added := none, Removed := GetCapabilityMap ⟨[policyThen]⟩ }) ∧
        returnedEntry
          (GetPolicyChangeDifferentials (exampleWorld walkWithGone) [goneDeleted] "/repo" "P"
            "sys/policies/acl" "auth" "main") "auth/gone" = some (some d) ∧
        d = Diff (GetCapabilityMap ⟨[policyThen]⟩) (GetCapabilityMap ⟨[policyNow]⟩) ∧
        d.Removed.lookup2 "secret/a" "read" = some ["P"] ∧
        d.Added.lookup2 "secret/b" "read" = some ["P"] ∧
        some (some d) ≠ pass1.lookup "auth/gone" :=
  ⟨AList.singleton "auth/gone"
      (some { Added := none, Removed := GetCapabilityMap ⟨[policyThen]⟩ }),
    Diff (GetCapabilityMap ⟨[policyThen]⟩) (GetCapabilityMap ⟨[policyNow]⟩),
    rfl, rfl, rfl, rfl, rfl, rfl,
    fun h => Option.noConfusion
      (congrArg (fun e => Option.bind e (fun x => Option.bind x (fun y => y.Added))) h)⟩

/-- C17, amended.  The walk keeps an entry of the first pass at every path where it
finds no matching file; at a path where it does find one, a walk that ends without error
binds the path to the differential of `GetAuthPrincipalDifferential`, whether or not
the first pass had recorded it. -/
theorem GetPolicyChangeDifferentials_walk_frame (w : World) (changedFiles : List ChangedFile)
    (repo policyName polDir principalDir ref root : String) (entries : List (String × Bool))
    (pass1 mapping : DiffMap) (err : Option String)
    (hpass : deletedPass w repo policyName polDir ref changedFiles ∅ = .ok pass1)
    (habs : w.abs (w.join [repo, principalDir]) = .ok root)
    (hwalk : w.walkDir root = some entries)
    (hret : GetPolicyChangeDifferentials w changedFiles repo policyName polDir principalDir
      ref = .returned (some mapping, err))
    (p : String) :
    (¬ foundByWalk w repo policyName entries p → mapping.lookup p = pass1.lookup p) ∧
      (err = none → foundByWalk w repo policyName entries p →
        ∃ d, GetAuthPrincipalDifferential w repo p polDir ref = .ok d ∧
          mapping.lookup p = some (some d)) := by
  obtain ⟨hmap, herr⟩ := mapping_eq_of_returned w changedFiles repo policyName polDir
    principalDir ref root entries pass1 mapping err hpass habs hwalk hret
  constructor
  · intro hnf
    rw [← hmap]
    exact walkEntries_lookup_of_not_found w repo policyName polDir ref entries pass1 p hnf
  · intro he hf
    rw [← hmap]
    exact walkEntries_lookup_of_found w repo policyName polDir ref entries pass1 p
      (by rw [herr, he]) hf

theorem GetPolicyChangeDifferentials_walk_frame_witness :
    (¬ foundByWalk (exampleWorld walkWithGone) "/repo" "P" walkWithGone "auth/gone" →
        (AList.singleton "auth/gone"
            (some (Diff (GetCapabilityMap ⟨[policyThen]⟩) (GetCapabilityMap ⟨[policyNow]⟩))) :
              DiffMap).lookup "auth/gone" =
          (AList.singleton "auth/gone"
            (some { Added := none, Removed := GetCapabilityMap ⟨[policyThen]⟩ }) :
              DiffMap).lookup "auth/gone") ∧
      ((none : Option String) = none →
        foundByWalk (exampleWorld walkWithGone) "/repo" "P" walkWithGone "auth/gone" →
        ∃ d, GetAuthPrincipalDifferential (exampleWorld walkWithGone) "/repo" "auth/gone"
            "sys/policies/acl" "main" = .ok d ∧
          (AList.singleton "auth/gone"
            (some (Diff (GetCapabilityMap ⟨[policyThen]⟩) (GetCapabilityMap ⟨[policyNow]⟩))) :
              DiffMap).lookup "auth/gone" = some (some d)) :=
  GetPolicyChangeDifferentials_walk_frame (exampleWorld walkWithGone) [goneDeleted]
    "/repo" "P" "sys/policies/acl" "auth" "main" "/repo/auth" walkWithGone
    (AList.singleton "auth/gone"
      (some { Added := none, Removed := GetCapabilityMap ⟨[policyThen]⟩ }))
    (AList.singleton "auth/gone"
      (some (Diff (GetCapabilityMap ⟨[policyThen]⟩) (GetCapabilityMap ⟨[policyNow]⟩))))
    none rfl rfl rfl rfl "auth/gone"

end gitops

/-! ## The change-processing loop of `MustEmitMarkdownDiffs` -/

namespace gitops

theorem sortStrings_perm (l : List String) : (sortStrings l).Perm l :=
  List.perm_insertionSort _ l

theorem falloutKeys_nodup (affected : GoMap String (Option RSoPDifferential))
    (diffs : DiffMap) : (falloutKeys affected diffs).Nodup := by
  unfold falloutKeys
  refine (sortStrings_perm _).nodup_iff.mpr (List.Nodup.filter _ ?_)
  have h := affected.range_nodupKeys
  exact h

theorem falloutKeys_fresh (affected : GoMap String (Option RSoPDifferential))
    (diffs : DiffMap) (k : String) (hk : k ∈ falloutKeys affected diffs) :
    diffs.lookup k = none := by
  unfold falloutKeys at hk
  have := (sortStrings_perm _).mem_iff.mp hk
  simp only [List.mem_filter, Option.isNone_iff_eq_none] at this
  exact this.2

theorem recordFallout_cons (affected : GoMap String (Option RSoPDifferential))
    (st : EmitState) (k : String) (keys : List String) :
    recordFallout affected st (k :: keys) =
      recordFallout affected
        { changedPaths := st.changedPaths ++ [k],
          diffs := st.diffs.insert k (affected.index k none) } keys :=
  rfl

theorem recordFallout_spec (affected : GoMap String (Option RSoPDifferential))
    (keys : List String) (st : EmitState) (hnd : keys.Nodup)
    (hfresh : ∀ k ∈ keys, st.diffs.lookup k = none) :
    (∀ p v, st.diffs.lookup p = some v →
        (recordFallout affected st keys).diffs.lookup p = some v) ∧
      ((st.changedPaths.Nodup ∧ ∀ p, p ∈ st.changedPaths ↔ (st.diffs.lookup p).isSome) →
        (recordFallout affected st keys).changedPaths.Nodup ∧
          ∀ p, p ∈ (recordFallout affected st keys).changedPaths ↔
            ((recordFallout affected st keys).diffs.lookup p).isSome) := by
  induction keys generalizing st with
  | nil => exact ⟨fun _ _ h => h, fun h => h⟩
  | cons k keys ih =>
    rw [recordFallout_cons]
    obtain ⟨hk, hnd2⟩ := List.nodup_cons.mp hnd
    have hknone := hfresh k (List.mem_cons_self _ _)
    have hfresh2 : ∀ k2 ∈ keys,
        (st.diffs.insert k (affected.index k none)).lookup k2 = none := by
      intro k2 hk2
      have hne : k2 ≠ k := fun h => hk (h ▸ hk2)
      rw [AList.lookup_insert_ne hne]
      exact hfresh k2 (List.mem_cons_of_mem _ hk2)
    obtain ⟨ih1, ih2⟩ := ih
      { changedPaths := st.changedPaths ++ [k],
        diffs := st.diffs.insert k (affected.index k none) } hnd2 hfresh2
    constructor
    · intro p v hp
      apply ih1
      have hne : p ≠ k := by
        intro h
        subst h
        rw [hknone] at hp
        cases hp
      show (st.diffs.insert k (affected.index k none)).lookup p = some v
      rw [AList.lookup_insert_ne hne]
      exact hp
    · rintro ⟨hnodup, hiff⟩
      apply ih2
      have hkn : k ∉ st.changedPaths := by
        intro hin
        have := (hiff k).mp hin
        rw [hknone] at this
        cases this
      constructor
      · show (st.changedPaths ++ [k]).Nodup
        rw [List.nodup_append]
        refine ⟨hnodup, List.nodup_singleton k, ?_⟩
        intro a ha hb
        rw [List.mem_singleton] at hb
        subst hb
        exact hkn ha
      · intro p
        show p ∈ st.changedPaths ++ [k] ↔
          ((st.diffs.insert k (affected.index k none)).lookup p).isSome
        rw [lookup_insert_if, List.mem_append, List.mem_singleton]
        by_cases hpk : p = k
        · simp [hpk]
        · simp [hpk, hiff p]

theorem processChange_spec (w : World) (changes : List ChangedFile)
    (gitDirectory compareRef : String) (st st2 : EmitState) (change : ChangedFile)
    (h : processChange w changes gitDirectory compareRef st change = .ok st2) :
    (∀ p v, st.diffs.lookup p = some v → st2.diffs.lookup p = some v) ∧
      ((st.changedPaths.Nodup ∧ ∀ p, p ∈ st.changedPaths ↔ (st.diffs.lookup p).isSome) →
        st2.changedPaths.Nodup ∧ ∀ p, p ∈ st2.changedPaths ↔ (st2.diffs.lookup p).isSome) := by
  unfold processChange at h
  by_cases hex : (st.diffs.lookup change.Path).isSome = true
  · rw [if_pos hex] at h
    have : st2 = st := (Except.ok.inj h).symm
    subst this
    exact ⟨fun _ _ hp => hp, fun hi => hi⟩
  · rw [if_neg hex] at h
    have hnone : st.diffs.lookup change.Path = none := by
      cases hl : st.diffs.lookup change.Path with
      | none => rfl
      | some v => rw [hl] at hex; exact absurd rfl hex
    by_cases hprin : change.Principal = true
    · rw [if_pos hprin] at h
      have hspec := recordFallout_spec
        (some (AList.singleton change.Path
          (match GetAuthPrincipalDifferential w gitDirectory change.Path
              (w.join ["sys", "policies", "acl"]) compareRef with
            | .ok d => some d
            | .error _ => none)))
        [change.Path] st (List.nodup_singleton _)
        (fun k hk => by rw [List.mem_singleton.mp hk]; exact hnone)
      have heq : st2 = recordFallout
          (some (AList.singleton change.Path
            (match GetAuthPrincipalDifferential w gitDirectory change.Path
                (w.join ["sys", "policies", "acl"]) compareRef with
              | .ok d => some d
              | .error _ => none)))
          st [change.Path] := by
        have h2 := (Except.ok.inj h).symm
        rw [h2]
        simp [recordFallout, GoMap.index, GoMap.get?, AList.singleton, AList.lookup]
      rw [heq]
      exact hspec
    · rw [if_neg hprin] at h
      by_cases hpol : change.Policy = true
      · rw [if_pos hpol] at h
        cases hres : GetPolicyChangeDifferentials w changes gitDirectory (w.base change.Path)
            (w.join ["sys", "policies", "acl"]) "auth" compareRef with
        | panicked => rw [hres] at h; cases h
        | returned value =>
          obtain ⟨affected, err⟩ := value
          rw [hres] at h
          cases err with
          | some e => cases h
          | none =>
            have : st2 = recordFallout affected st (falloutKeys affected st.diffs) :=
              (Except.ok.inj h).symm
            subst this
            exact recordFallout_spec affected _ st (falloutKeys_nodup affected st.diffs)
              (fun k hk => falloutKeys_fresh affected st.diffs k hk)
      · rw [if_neg hpol] at h
        have : st2 = st := (Except.ok.inj h).symm
        subst this
        exact ⟨fun _ _ hp => hp, fun hi => hi⟩

theorem processChanges_spec (w : World) (changes : List ChangedFile)
    (gitDirectory compareRef : String) (todo : List ChangedFile) (st st2 : EmitState)
    (h : processChanges w changes gitDirectory compareRef todo st = .ok st2) :
    (∀ p v, st.diffs.lookup p = some v → st2.diffs.lookup p = some v) ∧
      ((st.changedPaths.Nodup ∧ ∀ p, p ∈ st.changedPaths ↔ (st.diffs.lookup p).isSome) →
        st2.changedPaths.Nodup ∧ ∀ p, p ∈ st2.changedPaths ↔ (st2.diffs.lookup p).isSome) := by
  induction todo generalizing st with
  | nil =>
    have : st2 = st := (Except.ok.inj h).symm
    subst this
    exact ⟨fun _ _ hp => hp, fun hi => hi⟩
  | cons change rest ih =>
    unfold processChanges at h
    cases hstep : processChange w changes gitDirectory compareRef st change with
    | error a => rw [hstep] at h; cases h
    | ok st1 =>
      rw [hstep] at h
      obtain ⟨s1, s2⟩ := processChange_spec w changes gitDirectory compareRef st st1 change hstep
      obtain ⟨r1, r2⟩ := ih st1 h
      exact ⟨fun p v hp => r1 p v (s1 p v hp), fun hi => r2 (s2 hi)⟩

end gitops

namespace gitops

theorem processChanges_cons (w : World) (changes : List ChangedFile)
    (gitDirectory compareRef : String) (change : ChangedFile) (rest : List ChangedFile)
    (st : EmitState) :
    processChanges w changes gitDirectory compareRef (change :: rest) st =
      match processChange w changes gitDirectory compareRef st change with
      | .error a => .error a
      | .ok st2 => processChanges w changes gitDirectory compareRef rest st2 :=
  rfl

theorem processChanges_append (w : World) (changes : List ChangedFile)
    (gitDirectory compareRef : String) (before after : List ChangedFile)
    (st final : EmitState)
    (h : processChanges w changes gitDirectory compareRef (before ++ after) st = .ok final) :
    ∃ st1, processChanges w changes gitDirectory compareRef before st = .ok st1 ∧
      processChanges w changes gitDirectory compareRef after st1 = .ok final := by
  induction before generalizing st with
  | nil => exact ⟨st, rfl, h⟩
  | cons change rest ih =>
    rw [List.cons_append, processChanges_cons] at h
    cases hstep : processChange w changes gitDirectory compareRef st change with
    | error a => rw [hstep] at h; cases h
    | ok st0 =>
      rw [hstep] at h
      obtain ⟨st1, h1, h2⟩ := ih st0 h
      exact ⟨st1, by rw [processChanges_cons, hstep]; exact h1, h2⟩

/-- C18 (first writer wins).  Whenever the loop runs to its end: however the list of
changes is cut in two, every differential stored once the first part is processed is
still the one stored at the end, so no later principal change and no later fallout of a
policy change replaces it; and at the end the reported paths are pairwise distinct and
are exactly the paths that have a stored differential. -/
theorem processChanges_first_writer_wins (w : World) (changes : List ChangedFile)
    (gitDirectory compareRef : String) (before after : List ChangedFile) (final : EmitState)
    (h : processChanges w changes gitDirectory compareRef (before ++ after)
      EmitState.initial = .ok final) :
    ∃ st1, processChanges w changes gitDirectory compareRef before EmitState.initial =
        .ok st1 ∧
      (∀ p v, st1.diffs.lookup p = some v → final.diffs.lookup p = some v) ∧
      final.changedPaths.Nodup ∧
      (∀ p, p ∈ final.changedPaths ↔ (final.diffs.lookup p).isSome) := by
  obtain ⟨st1, h1, h2⟩ := processChanges_append w changes gitDirectory compareRef before after
    EmitState.initial final h
  have hinit : EmitState.initial.changedPaths.Nodup ∧
      ∀ p, p ∈ EmitState.initial.changedPaths ↔ (EmitState.initial.diffs.lookup p).isSome := by
    refine ⟨List.nodup_nil, fun p => ?_⟩
    simp [EmitState.initial]
  have hinv1 := (processChanges_spec w changes gitDirectory compareRef before
    EmitState.initial st1 h1).2 hinit
  obtain ⟨hkeep, hinv⟩ := processChanges_spec w changes gitDirectory compareRef after st1 final h2
  exact ⟨st1, h1, hkeep, (hinv hinv1).1, (hinv hinv1).2⟩

theorem processChanges_first_writer_wins_witness :
    processChanges (exampleWorld walkWithGone) exampleChanges "/repo" "main"
        ([⟨"auth/new", Mutation.Add, true, false⟩] ++
          [⟨"sys/policies/acl/P", Mutation.Change, false, true⟩])
        EmitState.initial = .ok exampleFinalState ∧
      ∃ st1, processChanges (exampleWorld walkWithGone) exampleChanges "/repo" "main"
          [⟨"auth/new", Mutation.Add, true, false⟩] EmitState.initial = .ok st1 ∧
        (∀ p v, st1.diffs.lookup p = some v → exampleFinalState.diffs.lookup p = some v) ∧
        exampleFinalState.changedPaths.Nodup ∧
        (∀ p, p ∈ exampleFinalState.changedPaths ↔
          (exampleFinalState.diffs.lookup p).isSome) :=
  ⟨rfl,
    processChanges_first_writer_wins (exampleWorld walkWithGone) exampleChanges "/repo" "main"
      [⟨"auth/new", Mutation.Add, true, false⟩]
      [⟨"sys/policies/acl/P", Mutation.Change, false, true⟩] exampleFinalState rfl⟩

end gitops

/-! ## Further laws of `Diff` -/

theorem diffSide_of_len_eq_zero (ours theirs : RSoPCapMap) (h : ours.len = 0) :
    diffSide ours theirs = ∅ := by
  unfold diffSide
  rw [GoMap.len_eq_length_range] at h
  rw [List.length_eq_zero.mp h]
  rfl

theorem get?_Diff_Removed (r other : RSoPCapMap) (p : String) :
    (Diff r other).Removed.get? p = (diffSide r other).lookup p := by
  by_cases h : other.len = 0
  · simp only [Diff, if_pos h]
    exact (lookup_diffSide_absent r other
      (fun q _ => GoMap.get?_of_len_eq_zero other h q) p).symm
  · simp only [Diff, if_neg h, get?_normalizeSide]

theorem get?_Diff_Added (r other : RSoPCapMap) (p : String) :
    (Diff r other).Added.get? p = (diffSide other r).lookup p := by
  by_cases h : other.len = 0
  · simp only [Diff, if_pos h, diffSide_of_len_eq_zero other r h]
    rfl
  · simp only [Diff, if_neg h, get?_normalizeSide]

/-- C26 (faithful patch on keys).  For every `before` and `after`, with
`d = before.Diff(after)` and every path and capability: the pair is a key of `after`
iff it is a key of `before` that is not a key of `d.Removed`, or a key of `d.Added`;
a key of `d.Removed` is a key of `before`; a key of `d.Added` is not a key of `before`;
and no pair is a key of both `d.Added` and `d.Removed`. -/
theorem Diff_faithful_patch (before after : RSoPCapMap) (p : String) (c : Capability) :
    ((after.lookup2 p c).isSome ↔
        ((before.lookup2 p c).isSome ∧ ¬ ((Diff before after).Removed.lookup2 p c).isSome) ∨
          ((Diff before after).Added.lookup2 p c).isSome) ∧
      (((Diff before after).Removed.lookup2 p c).isSome → (before.lookup2 p c).isSome) ∧
      (((Diff before after).Added.lookup2 p c).isSome → ¬ (before.lookup2 p c).isSome) ∧
      ¬ (((Diff before after).Added.lookup2 p c).isSome ∧
        ((Diff before after).Removed.lookup2 p c).isSome) := by
  rw [Diff_removed_lookup2, Diff_added_lookup2]
  cases hb : before.lookup2 p c <;> cases ha : after.lookup2 p c <;> simp

/-- C27 (exchange of the arguments).  For every `A` and `B`, every path is bound in
`A.Diff(B).Added` exactly as in `B.Diff(A).Removed`, and in `A.Diff(B).Removed` exactly
as in `B.Diff(A).Added`: the same capabilities with the same granting-policy lists,
whichever of the two calls takes the early return. -/
theorem Diff_swap (A B : RSoPCapMap) (p : String) :
    (Diff A B).Added.get? p = (Diff B A).Removed.get? p ∧
      (Diff A B).Removed.get? p = (Diff B A).Added.get? p := by
  rw [get?_Diff_Added, get?_Diff_Removed, get?_Diff_Added, get?_Diff_Removed]
  exact ⟨rfl, rfl⟩

/-- An empty differential always counts no change. -/
theorem Metrics_of_Empty (d : RSoPDifferential) (h : Empty (some d) = true) :
    Metrics (some d) = some ⟨0⟩ := by
  simp only [Empty, Bool.and_eq_true, beq_iff_eq] at h
  have ha : d.Added.range = [] := by
    have := h.1; rw [GoMap.len_eq_length_range] at this; exact List.length_eq_zero.mp this
  have hr : d.Removed.range = [] := by
    have := h.2; rw [GoMap.len_eq_length_range] at this; exact List.length_eq_zero.mp this
  simp [Metrics, countChanges, ha, hr]

theorem Metrics_of_Empty_witness :
    Empty (some (Diff (GetCapabilityMap readRSoP) (GetCapabilityMap readRSoP))) = true ∧
      Metrics (some (Diff (GetCapabilityMap readRSoP) (GetCapabilityMap readRSoP))) =
        some ⟨0⟩ :=
  ⟨rfl, Metrics_of_Empty _ rfl⟩

/-- C28 (empty iff no change counted), at an input where the code departs from it.
Both RSoPs hold one policy whose only rule lists no capability: the differential of
their capability maps is not empty, it counts 0 changes, and the report prints for its
path the line with the count 0, which the table follows. -/
theorem Empty_false_Metrics_zero :
    Empty (some (Diff (GetCapabilityMap emptyRuleRSoP) (GetCapabilityMap emptyRuleRSoP))) =
        false ∧
      Metrics (some (Diff (GetCapabilityMap emptyRuleRSoP) (GetCapabilityMap emptyRuleRSoP))) =
        some ⟨0⟩ ∧
      gitops.reportPath
          ((∅ : gitops.DiffMap).insert "auth/a"
            (some (Diff (GetCapabilityMap emptyRuleRSoP) (GetCapabilityMap emptyRuleRSoP))))
          "auth/a" =
        some (gitops.Report.effectiveChanges 0 "auth/a") :=
  ⟨rfl, rfl, rfl⟩

/-! ## `GuessAuthKind` and `AllPolicies` -/

theorem any_hasPrefix_iff (tokenPrefixes : List String) (s : String) :
    tokenPrefixes.any (fun pre => gitops.HasPrefix s pre) = true ↔
      ∃ pre ∈ tokenPrefixes, pre.data <+: s.data := by
  simp [List.any_eq_true, gitops.HasPrefix]

/-- C24 (guessing the kind).  For every string: the result is `Token` iff the string
starts with one of the six token prefixes; failing that, it is `TokenAccessor` iff the
string is 24 characters of `A-Z`, `a-z`, `0-9`; failing that too, it is `RolePathMaybe`
iff the string contains `/`; and otherwise the kind is -1 with an error.  A string with
a token prefix that also contains `/` is a `Token`. -/
theorem GuessAuthKind_cases (s : String) :
    (GuessAuthKind vaultTokenPrefixes s = (Token, none) ↔
        ∃ pre ∈ vaultTokenPrefixes, pre.data <+: s.data) ∧
      ((¬ ∃ pre ∈ vaultTokenPrefixes, pre.data <+: s.data) →
        (GuessAuthKind vaultTokenPrefixes s = (TokenAccessor, none) ↔
          s.data.length = 24 ∧ ∀ c ∈ s.data, isBase62 c = true)) ∧
      ((¬ ∃ pre ∈ vaultTokenPrefixes, pre.data <+: s.data) →
        ¬ (s.data.length = 24 ∧ ∀ c ∈ s.data, isBase62 c = true) →
        (GuessAuthKind vaultTokenPrefixes s = (RolePathMaybe, none) ↔ '/' ∈ s.data)) ∧
      ((¬ ∃ pre ∈ vaultTokenPrefixes, pre.data <+: s.data) →
        ¬ (s.data.length = 24 ∧ ∀ c ∈ s.data, isBase62 c = true) →
        '/' ∉ s.data →
        GuessAuthKind vaultTokenPrefixes s =
          (-1, some ("could not guess the auth kind of: '" ++ s ++ "'"))) ∧
      GuessAuthKind vaultTokenPrefixes "hvs.abc/def" = (Token, none) := by
  have hpre := any_hasPrefix_iff vaultTokenPrefixes s
  have hacc : matchesTokenAccessor s = true ↔
      s.data.length = 24 ∧ ∀ c ∈ s.data, isBase62 c = true := by
    simp [matchesTokenAccessor, List.all_eq_true]
  have hslash : 0 < s.data.count '/' ↔ '/' ∈ s.data := List.count_pos_iff
  refine ⟨?_, ?_, ?_, ?_, by decide⟩
  · unfold GuessAuthKind
    rw [← hpre]
    split_ifs with h1 h2 h3
    · simp [h1]
    · simp [h1, Token, TokenAccessor]
    · simp [h1, Token, RolePathMaybe]
    · simp [h1, Token]
  · intro hn
    rw [← hpre] at hn
    unfold GuessAuthKind
    rw [if_neg hn, ← hacc]
    split_ifs with h2 h3
    · simp [h2]
    · simp [h2, TokenAccessor, RolePathMaybe]
    · simp [h2, TokenAccessor]
  · intro hn ha
    rw [← hpre] at hn
    rw [← hacc] at ha
    unfold GuessAuthKind
    rw [if_neg hn, if_neg ha, ← hslash]
    split_ifs with h3
    · simp [h3]
    · simp [h3, RolePathMaybe]
  · intro hn ha hs
    rw [← hpre] at hn
    rw [← hacc] at ha
    rw [← hslash] at hs
    unfold GuessAuthKind
    rw [if_neg hn, if_neg ha, if_neg hs]

namespace gitops

theorem sortStrings_sorted (l : List String) : (sortStrings l).Sorted (fun a b => a ≤ b) := by
  haveI : IsTotal String (fun a b => a.data ≤ b.data) :=
    ⟨fun a b => by
      have h := le_total a b
      rw [String.le_iff_toList_le, String.le_iff_toList_le] at h
      exact h⟩
  haveI : IsTrans String (fun a b => a.data ≤ b.data) :=
    ⟨fun a b c hab hbc => by
      have h1 : a ≤ b := String.le_iff_toList_le.mpr hab
      have h2 : b ≤ c := String.le_iff_toList_le.mpr hbc
      exact String.le_iff_toList_le.mp (le_trans h1 h2)⟩
  have h := List.sorted_insertionSort (fun a b : String => a.data ≤ b.data) l
  exact h.imp (fun hab => String.le_iff_toList_le.mpr hab)

/-- C22 (merged policy names).  For every identity binding, `AllPolicies` is in
ascending order, is as long as the three lists together, and is a rearrangement of
`TokenPolicies ++ AllowedPolicies ++ Policies`, so every name occurs in it as many times
as in the concatenation. -/
theorem AllPolicies_sorted_perm (a : authPrincipalData) :
    a.AllPolicies.Sorted (fun x y => x ≤ y) ∧
      a.AllPolicies.length =
        a.TokenPolicies.length + a.AllowedPolicies.length + a.Policies.length ∧
      a.AllPolicies.Perm (a.TokenPolicies ++ a.AllowedPolicies ++ a.Policies) ∧
      ∀ name, a.AllPolicies.count name =
        (a.TokenPolicies ++ a.AllowedPolicies ++ a.Policies).count name := by
  have hperm : a.AllPolicies.Perm (a.TokenPolicies ++ a.AllowedPolicies ++ a.Policies) :=
    sortStrings_perm _
  refine ⟨sortStrings_sorted _, ?_, hperm, fun name => hperm.count_eq name⟩
  rw [hperm.length_eq]
  simp [Nat.add_assoc]

/-- `AllPolicies` on a binding with a repeated name: both occurrences are kept. -/
theorem AllPolicies_example :
    authPrincipalData.AllPolicies ⟨["b", "a"], ["c", "a"], ["B"]⟩ = ["B", "a", "a", "b", "c"] := by
  decide

end gitops

/-! ## The line-parsing loop of `GetChangedFiles` -/

namespace gitops

theorem TrimSpace_append_newline (x : List Char) : TrimSpace (x ++ ['\n']) = TrimSpace x := by
  have h : isSpace '\n' = true := by decide
  simp [TrimSpace, List.reverse_append, List.dropWhile_cons, h]

theorem parseLine_append_newline (dir : String → String) (x : List Char) :
    parseLine dir (x ++ ['\n']) = parseLine dir x := by
  unfold parseLine
  rw [TrimSpace_append_newline]

theorem ReadString_nil : ReadString [] = ([], [], true) := rfl

theorem ReadString_cons_newline (t : List Char) : ReadString ('\n' :: t) = (['\n'], t, false) := by
  simp [ReadString, List.span_eq_take_drop]

theorem ReadString_cons_other (c : Char) (t : List Char) (hc : c ≠ '\n') :
    ReadString (c :: t) = (c :: (ReadString t).1, (ReadString t).2.1, (ReadString t).2.2) := by
  have hb : (c != '\n') = true := by simpa using hc
  unfold ReadString
  simp only [List.span_eq_take_drop, List.takeWhile_cons, List.dropWhile_cons, hb, if_true]
  cases List.dropWhile (fun c => c != '\n') t <;> rfl

/-- What `ReadString` returns, against the lines of the text: at the end of input the
text is its own single line; otherwise the first line is returned with its newline and
the remaining lines are those of what is left. -/
theorem ReadString_splitOn (l : List Char) :
    ((ReadString l).2.2 = true →
        l.splitOn '\n' = [l] ∧ (ReadString l).1 = l ∧ (ReadString l).2.1 = []) ∧
      ((ReadString l).2.2 = false →
        ∃ x, (ReadString l).1 = x ++ ['\n'] ∧
          l.splitOn '\n' = x :: (ReadString l).2.1.splitOn '\n') := by
  induction l with
  | nil => exact ⟨fun _ => ⟨rfl, rfl, rfl⟩, fun h => by simp [ReadString_nil] at h⟩
  | cons c t ih =>
    by_cases hc : c = '\n'
    · subst hc
      rw [ReadString_cons_newline]
      refine ⟨fun h => by simp at h, fun _ => ⟨[], rfl, ?_⟩⟩
      show List.splitOnP (fun x => x == '\n') ('\n' :: t) = _
      rw [List.splitOnP_cons]
      simp
      rfl
    · rw [ReadString_cons_other c t hc]
      have hsplit : (c :: t).splitOn '\n' = (t.splitOn '\n').modifyHead (List.cons c) := by
        show List.splitOnP (fun x => x == '\n') (c :: t) = _
        rw [List.splitOnP_cons]
        simp [hc]
        rfl
      constructor
      · intro h
        obtain ⟨h1, h2, h3⟩ := ih.1 h
        refine ⟨?_, by simp [h2], h3⟩
        rw [hsplit, h1]
        rfl
      · intro h
        obtain ⟨x, hx, hs⟩ := ih.2 h
        refine ⟨c :: x, by simp [hx], ?_⟩
        rw [hsplit, hs]
        rfl

theorem getLast?_cons_of_ne {α : Type} (a : α) {l : List α} (h : l ≠ []) :
    (a :: l).getLast? = l.getLast? := by
  cases l with
  | nil => exact absurd rfl h
  | cons b t => exact List.getLast?_cons_cons

theorem parseLoop_succ (dir : String → String) (fuel : Nat) (remaining : List Char)
    (changes : List ChangedFile) :
    parseLoop dir (fuel + 1) remaining changes =
      match parseLine dir (ReadString remaining).1 with
      | none => parseLoop dir fuel (ReadString remaining).2.1 changes
      | some cf =>
        if (ReadString remaining).2.2 then some (changes ++ [cf])
        else parseLoop dir fuel (ReadString remaining).2.1 (changes ++ [cf]) := by
  rfl

/-- At the end of input the loop can only stop after appending: on the empty remainder
it runs for ever. -/
theorem parseLoop_nil (dir : String → String) (fuel : Nat) (changes : List ChangedFile) :
    parseLoop dir fuel [] changes = none := by
  induction fuel with
  | zero => rfl
  | succ n ih =>
    rw [parseLoop_succ, ReadString_nil]
    have h : parseLine dir [] = none := rfl
    simp only [h]
    exact ih

/-- When the last line contributes no change, the loop never returns. -/
theorem parseLoop_never_returns (dir : String → String) (L : List (List Char))
    (l : List Char) (changes : List ChangedFile) (hL : l.splitOn '\n' = L)
    (hlast : L.getLast?.bind (parseLine dir) = none) (fuel : Nat) :
    parseLoop dir fuel l changes = none := by
  induction fuel generalizing L l changes with
  | zero => rfl
  | succ n ih =>
    rw [parseLoop_succ]
    obtain ⟨heof, hmore⟩ := ReadString_splitOn l
    cases hdone : (ReadString l).2.2 with
    | true =>
      obtain ⟨h1, h2, h3⟩ := heof hdone
      rw [h1] at hL
      subst hL
      have hnone : parseLine dir l = none := by simpa using hlast
      rw [h2, hnone, h3]
      exact parseLoop_nil dir n changes
    | false =>
      obtain ⟨x, hx, hs⟩ := hmore hdone
      have hne : (ReadString l).2.1.splitOn '\n' ≠ [] := List.splitOnP_ne_nil _ _
      have hlast2 : ((ReadString l).2.1.splitOn '\n').getLast?.bind (parseLine dir) = none := by
        rw [← hL, hs] at hlast
        rw [getLast?_cons_of_ne _ hne] at hlast
        exact hlast
      cases hp : parseLine dir (ReadString l).1 with
      | none => exact ih _ _ changes rfl hlast2
      | some cf =>
        simp only [Bool.false_eq_true, if_false]
        exact ih _ _ _ rfl hlast2

/-- When the last line contributes a change, the loop returns, within as many iterations
as there are lines, what the lines contribute, in order. -/
theorem parseLoop_returns (dir : String → String) (L : List (List Char))
    (l : List Char) (changes : List ChangedFile) (hL : l.splitOn '\n' = L)
    (hlast : (L.getLast?.bind (parseLine dir)).isSome) (k : Nat) :
    parseLoop dir (L.length + k) l changes =
      some (changes ++ L.filterMap (parseLine dir)) := by
  induction L generalizing l changes with
  | nil => exact absurd hL (List.splitOnP_ne_nil _ _)
  | cons x rest ih =>
    have hfuel : (x :: rest).length + k = (rest.length + k) + 1 := by
      simp [Nat.add_right_comm]
    rw [hfuel, parseLoop_succ]
    obtain ⟨heof, hmore⟩ := ReadString_splitOn l
    cases hdone : (ReadString l).2.2 with
    | true =>
      obtain ⟨h1, h2, h3⟩ := heof hdone
      rw [h1] at hL
      have hx : x = l := by simp at hL; exact hL.1.symm
      have hrest : rest = [] := by simp at hL; exact hL.2
      subst hx; subst hrest
      rw [h2]
      simp only [List.getLast?_singleton, Option.some_bind] at hlast
      cases hp : parseLine dir x with
      | none => rw [hp] at hlast; cases hlast
      | some cf => simp [hp]
    | false =>
      obtain ⟨y, hy, hs⟩ := hmore hdone
      rw [hs] at hL
      have hx : y = x := by simp at hL; exact hL.1
      have hrest : (ReadString l).2.1.splitOn '\n' = rest := by simp at hL; exact hL.2
      subst hx
      have hne : rest ≠ [] := by rw [← hrest]; exact List.splitOnP_ne_nil _ _
      have hlast2 : (rest.getLast?.bind (parseLine dir)).isSome := by
        rw [getLast?_cons_of_ne _ hne] at hlast
        exact hlast
      rw [hy, parseLine_append_newline]
      cases hp : parseLine dir y with
      | none =>
        simp only [List.filterMap_cons, hp]
        exact ih _ changes hrest hlast2
      | some cf =>
        simp only [Bool.false_eq_true, if_false, List.filterMap_cons, hp]
        rw [ih _ (changes ++ [cf]) hrest hlast2]
        simp

end gitops

/-! ## `GetChangedFiles` -/

namespace gitops

theorem splitAtTab_eq_pair (s a b : List Char) (h : splitAtTab s = [a, b]) :
    s = a ++ '\t' :: b := by
  unfold splitAtTab at h
  rw [List.span_eq_take_drop] at h
  cases hd : List.dropWhile (fun c => c != '\t') s with
  | nil =>
    rw [hd] at h
    simp at h
  | cons x path =>
    rw [hd] at h
    simp only [List.cons.injEq, and_true] at h
    have hx : x = '\t' := by
      have hne : List.dropWhile (fun c => c != '\t') s ≠ [] := by simp [hd]
      have := List.head_dropWhile_not (fun c => c != '\t') s hne
      simp only [hd, List.head_cons] at this
      simpa using this
    have hs := List.takeWhile_append_dropWhile (fun c => c != '\t') s
    rw [hd, h.1, h.2, hx] at hs
    exact hs.symm

theorem statusMutation_eq_some (status : List Char) (mutation : Mutation) :
    statusMutation status = some mutation ↔
      ((status = ['A'] ∨ status = ['C']) ∧ mutation = Mutation.Add) ∨
        (status = ['D'] ∧ mutation = Mutation.Delete) ∨
        (status = ['M'] ∧ mutation = Mutation.Change) := by
  unfold statusMutation
  by_cases h1 : status = ['A'] ∨ status = ['C']
  · rw [if_pos h1]
    rcases h1 with h | h <;> subst h <;> simp [eq_comm]
  · rw [if_neg h1]
    by_cases h2 : status = ['D']
    · subst h2; simp [eq_comm]
    · rw [if_neg h2]
      by_cases h3 : status = ['M']
      · subst h3; simp [eq_comm]
      · rw [if_neg h3]
        simp [h1, h2, h3]

theorem splitAtTab_of_status (status path : List Char) (mutation : Mutation)
    (h : statusMutation status = some mutation) :
    splitAtTab (status ++ '\t' :: path) = [status, path] := by
  rcases (statusMutation_eq_some status mutation).1 h with ⟨h | h, _⟩ | ⟨h, _⟩ | ⟨h, _⟩ <;>
    subst h <;> simp [splitAtTab, List.span_eq_take_drop, List.takeWhile_cons, List.dropWhile_cons]

/-- What a line contributes: its text without the white space at both ends has to be a
status A, C, D or M, a tab and a path. -/
theorem parseLine_eq_some (dir : String → String) (line : List Char) (cf : ChangedFile) :
    parseLine dir line = some cf ↔
      ∃ status path mutation, TrimSpace line = status ++ '\t' :: path ∧
        statusMutation status = some mutation ∧
        cf = classifyChange dir (String.mk path) mutation := by
  constructor
  · intro h
    unfold parseLine at h
    split at h
    · rename_i status path hsplit
      cases hm : statusMutation status with
      | none => rw [hm] at h; cases h
      | some mutation =>
        rw [hm] at h
        exact ⟨status, path, mutation, splitAtTab_eq_pair _ _ _ hsplit, hm,
          (Option.some.inj h).symm⟩
    · cases h
  · rintro ⟨status, path, mutation, ht, hm, hcf⟩
    unfold parseLine
    rw [ht, splitAtTab_of_status status path mutation hm]
    simp only [hm, hcf]

theorem resolveReference_of_ne (git : List String → String × Option GitError) (ref : String)
    (href : ref ≠ "") : resolveReference git ref = .ok ref := by
  unfold resolveReference
  rw [if_neg href]

theorem GetChangedFiles_of_diff (git : List String → String × Option GitError)
    (dir : String → String) (fuel : Nat) (ref output : String) (href : ref ≠ "")
    (hgit : git ["diff", ref, "--name-status"] = (output, none)) :
    GetChangedFiles git dir fuel ref =
      (parseLoop dir fuel output.data []).map (fun changes => (changes, ref, none)) := by
  unfold GetChangedFiles
  rw [resolveReference_of_ne git ref href]
  simp only [hgit]
  cases parseLoop dir fuel output.data [] <;> rfl

/-- C21 (counterexample).  A line `M<TAB>foo ` whose path ends in a blank gives an entry
whose path is `foo`, not the path of the line; and a line that starts with a blank, whose
status is therefore not one of A, C, D and M, gives an entry all the same. -/
theorem GetChangedFiles_trims_path :
    GetChangedFiles (exampleGit "M\tfoo \nM\tbar") filepathDir 2 "main" =
        some ([⟨"foo", Mutation.Change, false, false⟩, ⟨"bar", Mutation.Change, false, false⟩],
          "main", none) ∧
      ("M\tfoo \nM\tbar".data.splitOn '\n').head? = some "M\tfoo ".data ∧
      "foo" ≠ "foo " ∧
      GetChangedFiles (exampleGit " M\tfoo\nM\tbar") filepathDir 2 "main" =
        some ([⟨"foo", Mutation.Change, false, false⟩, ⟨"bar", Mutation.Change, false, false⟩],
          "main", none) := by
  refine ⟨rfl, rfl, by decide, rfl⟩

theorem GetChangedFiles_of_resolved (git : List String → String × Option GitError)
    (dir : String → String) (fuel : Nat) (referenceName ref output : String)
    (hres : resolveReference git referenceName = .ok ref)
    (hgit : git ["diff", ref, "--name-status"] = (output, none)) :
    GetChangedFiles git dir fuel referenceName =
      (parseLoop dir fuel output.data []).map (fun changes => (changes, ref, none)) := by
  unfold GetChangedFiles
  rw [hres]
  simp only [hgit]
  cases parseLoop dir fuel output.data [] <;> rfl

/-- How the reference is resolved: a reference that is not blank is taken as it is; for a
blank one, `git config init.defaultBranch` has not failed other than with exit code 1,
and the reference is its output or, when that is empty, the branch guessed from
`git branch`. -/
theorem resolveReference_ok (git : List String → String × Option GitError)
    (referenceName ref : String) (hres : resolveReference git referenceName = .ok ref) :
    (referenceName ≠ "" → ref = referenceName) ∧
      (referenceName = "" →
        ((git ["config", "init.defaultBranch"]).2 = none ∨
          (git ["config", "init.defaultBranch"]).2.bind (fun e => e.exitCode) = some 1) ∧
        (((git ["config", "init.defaultBranch"]).1 ≠ "" ∧
            ref = (git ["config", "init.defaultBranch"]).1) ∨
          ((git ["config", "init.defaultBranch"]).1 = "" ∧
            guessDefaultBranch git = .ok ref))) := by
  constructor
  · intro hne
    rw [resolveReference_of_ne git referenceName hne] at hres
    exact (Except.ok.inj hres).symm
  · intro hblank
    unfold resolveReference at hres
    rw [if_pos hblank] at hres
    rcases hc : git ["config", "init.defaultBranch"] with ⟨out, err⟩
    rw [hc] at hres
    simp only [] at hres
    by_cases hbad : err.isSome ∧ ¬ (err.bind (fun e => e.exitCode) = some 1)
    · rw [if_pos hbad] at hres
      cases hres
    · rw [if_neg hbad] at hres
      have herr : err = none ∨ err.bind (fun e => e.exitCode) = some 1 := by
        by_cases hs : err.bind (fun e => e.exitCode) = some 1
        · exact Or.inr hs
        · left
          cases err with
          | none => rfl
          | some e => exact absurd ⟨rfl, hs⟩ hbad
      refine ⟨herr, ?_⟩
      by_cases hout : out = ""
      · rw [if_pos hout] at hres
        right
        refine ⟨hout, ?_⟩
        cases hg : guessDefaultBranch git with
        | error e => rw [hg] at hres; cases hres
        | ok branch =>
          rw [hg] at hres
          rw [Except.ok.inj hres]
      · rw [if_neg hout] at hres
        exact Or.inl ⟨hout, (Except.ok.inj hres).symm⟩

/-- C21 (amended).  Whatever reference is asked for, the blank one included: when the
reference resolves to `ref` (a reference that is not blank is taken as it is; a blank one
is replaced by the output of `git config init.defaultBranch` or, when that is empty, by
the branch guessed from `git branch`), `git diff ref --name-status` succeeds, and the last
line of its output, without the white space at both ends, is a status A, C, D or M, a tab
and a path, `GetChangedFiles` returns, for every sufficient number of loop iterations, no
error, the reference `ref`, and in input order what each line contributes.  A line
contributes an entry exactly when its text without the white space at both ends is a
status A, C, D or M, a tab and a path (the text after the first tab); the entry is the
classification of that path with mutation Add for A and C, Delete for D and Change for
M.  Every other line contributes nothing. -/
theorem GetChangedFiles_parses (git : List String → String × Option GitError)
    (dir : String → String) (referenceName ref output : String)
    (hres : resolveReference git referenceName = .ok ref)
    (hgit : git ["diff", ref, "--name-status"] = (output, none))
    (hlast : ∃ status path, TrimSpace ((output.data.splitOn '\n').getLastD []) =
        status ++ '\t' :: path ∧ status ∈ [['A'], ['C'], ['D'], ['M']]) :
    (∃ fuel, ∀ k, GetChangedFiles git dir (fuel + k) referenceName =
        some ((output.data.splitOn '\n').filterMap (parseLine dir), ref, none)) ∧
      (∀ line cf, parseLine dir line = some cf ↔
        ∃ status path mutation, TrimSpace line = status ++ '\t' :: path ∧
          (((status = ['A'] ∨ status = ['C']) ∧ mutation = Mutation.Add) ∨
            (status = ['D'] ∧ mutation = Mutation.Delete) ∨
            (status = ['M'] ∧ mutation = Mutation.Change)) ∧
          cf.Path = String.mk path ∧ cf.Mutation = mutation ∧
          cf = classifyChange dir (String.mk path) mutation) ∧
      (referenceName ≠ "" → ref = referenceName) ∧
      (referenceName = "" →
        ((git ["config", "init.defaultBranch"]).2 = none ∨
          (git ["config", "init.defaultBranch"]).2.bind (fun e => e.exitCode) = some 1) ∧
        (((git ["config", "init.defaultBranch"]).1 ≠ "" ∧
            ref = (git ["config", "init.defaultBranch"]).1) ∨
          ((git ["config", "init.defaultBranch"]).1 = "" ∧
            guessDefaultBranch git = .ok ref))) := by
  refine ⟨?_, ?_, (resolveReference_ok git referenceName ref hres).1,
    (resolveReference_ok git referenceName ref hres).2⟩
  · refine ⟨(output.data.splitOn '\n').length, fun k => ?_⟩
    rw [GetChangedFiles_of_resolved git dir _ referenceName ref output hres hgit]
    obtain ⟨status, path, ht, hs⟩ := hlast
    have hm : ∃ mutation, statusMutation status = some mutation := by
      simp only [List.mem_cons, List.mem_singleton, List.not_mem_nil, or_false] at hs
      rcases hs with h | h | h | h <;> subst h
      · exact ⟨Mutation.Add, rfl⟩
      · exact ⟨Mutation.Add, rfl⟩
      · exact ⟨Mutation.Delete, rfl⟩
      · exact ⟨Mutation.Change, rfl⟩
    obtain ⟨mutation, hm⟩ := hm
    have hsome : ((output.data.splitOn '\n').getLast?.bind (parseLine dir)).isSome := by
      have hne : output.data.splitOn '\n' ≠ [] := List.splitOnP_ne_nil _ _
      obtain ⟨x, hx⟩ : ∃ x, (output.data.splitOn '\n').getLast? = some x := by
        cases hg : (output.data.splitOn '\n').getLast? with
        | none => exact absurd (List.getLast?_eq_none_iff.1 hg) hne
        | some x => exact ⟨x, rfl⟩
      have hd : (output.data.splitOn '\n').getLastD [] = x := by
        rw [List.getLastD_eq_getLast?, hx]; rfl
      rw [hd] at ht
      rw [hx, Option.some_bind,
        (parseLine_eq_some dir x _).2 ⟨status, path, mutation, ht, hm, rfl⟩]
      rfl
    rw [parseLoop_returns dir _ output.data [] rfl hsome k]
    rfl
  · intro line cf
    rw [parseLine_eq_some]
    constructor
    · rintro ⟨status, path, mutation, ht, hm, hcf⟩
      refine ⟨status, path, mutation, ht, (statusMutation_eq_some _ _).1 hm, ?_, ?_, hcf⟩
      · rw [hcf]; unfold classifyChange; split_ifs <;> rfl
      · rw [hcf]; unfold classifyChange; split_ifs <;> rfl
    · rintro ⟨status, path, mutation, ht, hm, _, _, hcf⟩
      exact ⟨status, path, mutation, ht, (statusMutation_eq_some _ _).2 hm, hcf⟩

theorem GetChangedFiles_parses_witness :
    (resolveReference (exampleGitBranches "A\tauth/new\nR100\told\tnew\n\nM\tsys/policies/acl/test")
          "" = .ok "main" ∧
        (∃ fuel, ∀ k, GetChangedFiles
            (exampleGitBranches "A\tauth/new\nR100\told\tnew\n\nM\tsys/policies/acl/test")
            filepathDir (fuel + k) "" =
          some (("A\tauth/new\nR100\told\tnew\n\nM\tsys/policies/acl/test".data.splitOn
            '\n').filterMap (parseLine filepathDir), "main", none)) ∧
        ("A\tauth/new\nR100\told\tnew\n\nM\tsys/policies/acl/test".data.splitOn
            '\n').filterMap (parseLine filepathDir) =
          [⟨"auth/new", Mutation.Add, true, false⟩,
            ⟨"sys/policies/acl/test", Mutation.Change, false, true⟩]) ∧
      (resolveReference (exampleGit "M\tsys/policies/acl/test") "main" = .ok "main" ∧
        ∃ fuel, ∀ k, GetChangedFiles (exampleGit "M\tsys/policies/acl/test") filepathDir
            (fuel + k) "main" =
          some (("M\tsys/policies/acl/test".data.splitOn '\n').filterMap
            (parseLine filepathDir), "main", none)) :=
  ⟨⟨rfl,
      (GetChangedFiles_parses
        (exampleGitBranches "A\tauth/new\nR100\told\tnew\n\nM\tsys/policies/acl/test")
        filepathDir "" "main" "A\tauth/new\nR100\told\tnew\n\nM\tsys/policies/acl/test" rfl rfl
        ⟨['M'], "sys/policies/acl/test".data, rfl, by decide⟩).1,
      rfl⟩,
    ⟨rfl,
      (GetChangedFiles_parses (exampleGit "M\tsys/policies/acl/test") filepathDir "main" "main"
        "M\tsys/policies/acl/test" rfl rfl
        ⟨['M'], "sys/policies/acl/test".data, rfl, by decide⟩).1⟩⟩

/-- C25.  The loop of `GetChangedFiles` does not terminate on the empty output, on an
output whose last line has the status R100 and on an output whose last line has no tab:
whatever the number of iterations allowed, it is still running. -/
theorem GetChangedFiles_never_returns :
    (∀ fuel, GetChangedFiles (exampleGit "") filepathDir fuel "main" = none) ∧
      (∀ fuel, GetChangedFiles (exampleGit "M\tfoo\nR100\told\tnew") filepathDir fuel "main" =
        none) ∧
      (∀ fuel, GetChangedFiles (exampleGit "M\tfoo\nnot a line") filepathDir fuel "main" =
        none) := by
  refine ⟨fun fuel => ?_, fun fuel => ?_, fun fuel => ?_⟩
  · rw [GetChangedFiles_of_diff _ filepathDir fuel "main" "" (by decide) rfl,
      parseLoop_never_returns filepathDir _ "".data [] rfl rfl fuel]
    rfl
  · rw [GetChangedFiles_of_diff _ filepathDir fuel "main" "M\tfoo\nR100\told\tnew" (by decide) rfl,
      parseLoop_never_returns filepathDir _ "M\tfoo\nR100\told\tnew".data [] rfl rfl fuel]
    rfl
  · rw [GetChangedFiles_of_diff _ filepathDir fuel "main" "M\tfoo\nnot a line" (by decide) rfl,
      parseLoop_never_returns filepathDir _ "M\tfoo\nnot a line".data [] rfl rfl fuel]
    rfl

end gitops

/-! ## The order of the policies of an RSoP -/

namespace gitops

theorem ParsePolicy_name (decode : String → String → Except String Policy)
    (sortSlice : (PathConfig → PathConfig → Bool) → List PathConfig → List PathConfig)
    (policyData name : String) (policy : Policy)
    (h : ParsePolicy decode sortSlice policyData name = .ok policy) : policy.Name = name := by
  unfold ParsePolicy at h
  cases hdec : decode (name ++ ".hcl") policyData with
  | error e => rw [hdec] at h; cases h
  | ok decoded =>
    rw [hdec] at h
    simp only [Except.ok.injEq] at h
    rw [← h]

theorem fetchPolicy_name (w : World) (gitDir polDir ref readThing name : String)
    (policy : Policy) (h : fetchPolicy w gitDir polDir ref readThing name = .ok (some policy)) :
    policy.Name = name := by
  unfold fetchPolicy at h
  by_cases href : ref = ""
  · rw [if_pos href] at h
    cases hread : w.readFile (w.join [gitDir, polDir, name]) with
    | error err =>
      rw [hread] at h
      simp only [] at h
      split_ifs at h
      cases h
    | ok data =>
      rw [hread] at h
      simp only [] at h
      cases hp : ParsePolicy w.decode w.sortSlice data name with
      | error e => rw [hp] at h; cases h
      | ok parsed =>
        rw [hp] at h
        simp only [Except.ok.injEq, Option.some.injEq] at h
        rw [← h]
        exact ParsePolicy_name _ _ _ _ _ hp
  · rw [if_neg href] at h
    cases hshow : w.gitShow gitDir (ref ++ ":" ++ w.join [polDir, name]) with
    | error e => rw [hshow] at h; cases h
    | ok policyData =>
      rw [hshow] at h
      simp only [] at h
      cases hp : ParsePolicy w.decode w.sortSlice policyData name with
      | error e => rw [hp] at h; cases h
      | ok parsed =>
        rw [hp] at h
        simp only [Except.ok.injEq, Option.some.injEq] at h
        rw [← h]
        exact ParsePolicy_name _ _ _ _ _ hp

/-- The policies loaded are named, in order, by the names asked for, less the names that
were passed over. -/
theorem loadPolicies_names_sublist (w : World) (gitDir polDir ref readThing : String)
    (names : List String) (acc l : List Policy)
    (h : loadPolicies w gitDir polDir ref readThing names acc = .ok l) :
    ∃ l2 : List Policy, l = acc ++ l2 ∧ (l2.map (fun policy => policy.Name)).Sublist names := by
  induction names generalizing acc with
  | nil =>
    simp only [loadPolicies, Except.ok.injEq] at h
    exact ⟨[], by simp [h], List.Sublist.refl _⟩
  | cons name rest ih =>
    rw [loadPolicies_cons] at h
    rcases hf : fetchPolicy w gitDir polDir ref readThing name with e | _ | policy
    · rw [hf] at h; cases h
    · rw [hf] at h
      obtain ⟨l2, hl, hsub⟩ := ih acc h
      exact ⟨l2, hl, hsub.cons name⟩
    · rw [hf] at h
      obtain ⟨l2, hl, hsub⟩ := ih (acc ++ [policy]) h
      refine ⟨policy :: l2, by simp [hl], ?_⟩
      rw [List.map_cons, fetchPolicy_name w gitDir polDir ref readThing name policy hf]
      exact hsub.cons₂ name

theorem readPrincipalPolicies_sorted (w : World) (gitDir principalPath polDir ref : String)
    (policies : List Policy)
    (h : readPrincipalPolicies w gitDir principalPath polDir ref = .ok policies) :
    policies.Pairwise (fun a b => a.Name ≤ b.Name) := by
  cases hc : readPrincipalData w gitDir principalPath ref with
  | error e => simp [readPrincipalPolicies, hc] at h
  | ok content =>
    cases hd : w.unmarshal content with
    | error e => simp [readPrincipalPolicies, hc, hd] at h
    | ok data =>
      rw [readPrincipalPolicies_of_data w gitDir principalPath polDir ref content data hc hd] at h
      obtain ⟨l2, hl, hsub⟩ := loadPolicies_names_sublist w gitDir polDir ref _ _ [] policies h
      rw [List.nil_append] at hl
      subst hl
      have hs : (policies.map (fun policy => policy.Name)).Pairwise (fun a b => a ≤ b) :=
        List.Pairwise.sublist hsub (sortStrings_sorted _)
      exact List.pairwise_map.mp hs

end gitops

theorem nameLess_eq_false_iff (a b : Policy) : nameLess b a = false ↔ a.Name ≤ b.Name := by
  have h : b.Name < a.Name ↔ b.Name.data < a.Name.data := String.lt_iff_toList_lt
  simp only [nameLess, decide_eq_false_iff_not, ← h, not_lt]

theorem getPolicies_cons {FS : Type} (h : Host FS) (p : ReadthroughPolicyProvider) (fs : FS)
    (name : String) (rest : List String) (acc : List Policy) :
    p.getPolicies h fs (name :: rest) acc =
      match p.GetPolicy h fs name with
      | (.error e, fs2) => (.error ("error getting policy '" ++ name ++ "': " ++ e), fs2)
      | (.ok policy, fs2) => p.getPolicies h fs2 rest (acc ++ [{ policy with Name := name }]) :=
  rfl

/-- The loop of `GetRSoP` names its policies, in order, by the names it was given. -/
theorem getPolicies_names {FS : Type} (h : Host FS) (p : ReadthroughPolicyProvider)
    (names : List String) (fs fs2 : FS) (acc l : List Policy)
    (hl : p.getPolicies h fs names acc = (.ok l, fs2)) :
    l.map (fun policy => policy.Name) = acc.map (fun policy => policy.Name) ++ names := by
  induction names generalizing fs acc with
  | nil =>
    simp only [ReadthroughPolicyProvider.getPolicies, Prod.mk.injEq, Except.ok.injEq] at hl
    rw [← hl.1]
    simp
  | cons name rest ih =>
    rw [getPolicies_cons] at hl
    rcases hg : p.GetPolicy h fs name with ⟨r, fs3⟩
    rw [hg] at hl
    cases r with
    | error e => simp at hl
    | ok policy =>
      simp only [] at hl
      rw [ih fs3 _ hl]
      simp

theorem GetRSoP_ok {FS : Type} (h : Host FS) (p : ReadthroughPolicyProvider)
    (tokenPrefixes : List String) (fs fs2 : FS) (authThing : String) (rsop : RSoP)
    (hr : p.GetRSoP h tokenPrefixes fs authThing = (.ok rsop, fs2)) :
    ∃ client policyNames policies, p.client = some client ∧
      policyNamesOf client (GuessAuthKind tokenPrefixes authThing).1 authThing = .ok policyNames ∧
      p.getPolicies h fs policyNames [] = (.ok policies, fs2) ∧
      rsop = ⟨h.sortPolicies nameLess policies⟩ := by
  unfold ReadthroughPolicyProvider.GetRSoP at hr
  cases hc : p.client with
  | none => rw [hc] at hr; simp at hr
  | some client =>
    rw [hc] at hr
    simp only [] at hr
    rcases hg : GuessAuthKind tokenPrefixes authThing with ⟨ak, err⟩
    rw [hg] at hr
    cases err with
    | some e => simp at hr
    | none =>
      simp only [] at hr
      cases hn : policyNamesOf client ak authThing with
      | error e => rw [hn] at hr; simp at hr
      | ok policyNames =>
        rw [hn] at hr
        simp only [] at hr
        rcases hp : p.getPolicies h fs policyNames [] with ⟨r, fs3⟩
        rw [hp] at hr
        cases r with
        | error e => simp at hr
        | ok policies =>
          simp only [Prod.mk.injEq, Except.ok.injEq] at hr
          exact ⟨client, policyNames, policies, rfl, hn, by rw [← hr.2, hp], hr.1.symm⟩

theorem sortsPoliciesBy_exampleHost : SortsPoliciesBy exampleHost.sortPolicies nameLess := by
  intro l
  refine ⟨List.perm_insertionSort _ l, ?_⟩
  haveI : IsTotal Policy (fun a b => nameLess b a = false) :=
    ⟨fun a b => by simp only [nameLess_eq_false_iff]; exact le_total _ _⟩
  haveI : IsTrans Policy (fun a b => nameLess b a = false) :=
    ⟨fun a b c => by simp only [nameLess_eq_false_iff]; exact le_trans⟩
  exact List.sorted_insertionSort (fun a b => nameLess b a = false) l

/-- C23 (policies sorted by name).  Whatever `readPrincipalPolicies` returns, for any
identity file and any revision, the working copy included, is in ascending order of
`Name`; so are therefore the two policy lists from which a differential returned by
`GetAuthPrincipalDifferential` is computed.  Whenever `sort.Slice` keeps its promise for
the comparison by `Name`, the RSoP returned by `GetRSoP` has its policies in ascending
order of `Name`, and their names are a rearrangement of the names looked up. -/
theorem RSoP_policies_sorted :
    (∀ (w : gitops.World) (gitDir principalPath polDir ref : String) (policies : List Policy),
        gitops.readPrincipalPolicies w gitDir principalPath polDir ref = .ok policies →
        policies.Pairwise (fun a b => a.Name ≤ b.Name)) ∧
      (∀ (w : gitops.World) (gitDir principalPath polDir ref : String) (d : RSoPDifferential),
        gitops.GetAuthPrincipalDifferential w gitDir principalPath polDir ref = .ok d →
        ∃ historical current : RSoP,
          historical.Policies.Pairwise (fun a b => a.Name ≤ b.Name) ∧
          current.Policies.Pairwise (fun a b => a.Name ≤ b.Name) ∧
          gitops.readPrincipalPolicies w gitDir principalPath polDir ref =
            .ok historical.Policies ∧
          gitops.readPrincipalPolicies w gitDir principalPath polDir "" = .ok current.Policies ∧
          d = Diff (GetCapabilityMap historical) (GetCapabilityMap current)) ∧
      (∀ (FS : Type) (h : Host FS) (p : ReadthroughPolicyProvider) (tokenPrefixes : List String)
          (fs fs2 : FS) (authThing : String) (rsop : RSoP),
        SortsPoliciesBy h.sortPolicies nameLess →
        p.GetRSoP h tokenPrefixes fs authThing = (.ok rsop, fs2) →
        rsop.Policies.Pairwise (fun a b => a.Name ≤ b.Name) ∧
          ∃ client policyNames, p.client = some client ∧
            policyNamesOf client (GuessAuthKind tokenPrefixes authThing).1 authThing =
              .ok policyNames ∧
            (rsop.Policies.map (fun policy => policy.Name)).Perm policyNames) := by
  refine ⟨gitops.readPrincipalPolicies_sorted, ?_, ?_⟩
  · intro w gitDir principalPath polDir ref d hd
    unfold gitops.GetAuthPrincipalDifferential at hd
    cases hcur : gitops.readPrincipalPolicies w gitDir principalPath polDir "" with
    | error e => rw [hcur] at hd; cases hd
    | ok currentPolicies =>
      rw [hcur] at hd
      simp only [] at hd
      cases hhist : gitops.readPrincipalPolicies w gitDir principalPath polDir ref with
      | error e => rw [hhist] at hd; cases hd
      | ok historicalPolicies =>
        rw [hhist] at hd
        simp only [Except.ok.injEq] at hd
        exact ⟨⟨historicalPolicies⟩, ⟨currentPolicies⟩,
          gitops.readPrincipalPolicies_sorted w gitDir principalPath polDir ref _ hhist,
          gitops.readPrincipalPolicies_sorted w gitDir principalPath polDir "" _ hcur,
          rfl, rfl, hd.symm⟩
  · intro FS h p tokenPrefixes fs fs2 authThing rsop hs hr
    obtain ⟨client, policyNames, policies, hc, hn, hp, hrsop⟩ :=
      GetRSoP_ok h p tokenPrefixes fs fs2 authThing rsop hr
    subst hrsop
    refine ⟨(hs policies).2.imp (fun hab => (nameLess_eq_false_iff _ _).mp hab),
      client, policyNames, hc, hn, ?_⟩
    have hnames := getPolicies_names h p policyNames fs fs2 [] policies hp
    simp only [List.map_nil, List.nil_append] at hnames
    rw [← hnames]
    exact (hs policies).1.map _

theorem RSoP_policies_sorted_witness :
    (gitops.readPrincipalPolicies (gitops.exampleWorld []) "/repo" "auth/dangling"
          "sys/policies/acl" "" = .ok [⟨"P", [⟨"secret/b", ["read"]⟩]⟩] ∧
        [(⟨"P", [⟨"secret/b", ["read"]⟩]⟩ : Policy)].Pairwise (fun a b => a.Name ≤ b.Name)) ∧
      (ReadthroughPolicyProvider.GetRSoP exampleHost ⟨"", some exampleClient⟩
          vaultTokenPrefixes [] "hvs.mine" =
          (.ok ⟨[⟨"P", [⟨"secret/b", ["read"]⟩]⟩, ⟨"other", [⟨"secret/o", ["list"]⟩]⟩]⟩, []) ∧
        [(⟨"P", [⟨"secret/b", ["read"]⟩]⟩ : Policy), ⟨"other", [⟨"secret/o", ["list"]⟩]⟩].Pairwise
          (fun a b => a.Name ≤ b.Name)) :=
  ⟨⟨rfl, RSoP_policies_sorted.1 (gitops.exampleWorld []) "/repo" "auth/dangling"
      "sys/policies/acl" "" _ rfl⟩,
    ⟨rfl, (RSoP_policies_sorted.2.2 _ exampleHost ⟨"", some exampleClient⟩
      vaultTokenPrefixes [] [] "hvs.mine" _ sortsPoliciesBy_exampleHost rfl).1⟩⟩

/-! ## The report of `MustEmitMarkdownDiffs` -/

namespace gitops

theorem processChange_principal_error (w : World) (changes : List ChangedFile)
    (gitDirectory compareRef : String) (st : EmitState) (change : ChangedFile) (e : String)
    (hnew : st.diffs.lookup change.Path = none) (hp : change.Principal = true)
    (herr : GetAuthPrincipalDifferential w gitDirectory change.Path
      (w.join ["sys", "policies", "acl"]) compareRef = .error e) :
    processChange w changes gitDirectory compareRef st change =
      .ok { changedPaths := st.changedPaths ++ [change.Path],
            diffs := st.diffs.insert change.Path none } := by
  unfold processChange
  simp [hnew, hp, herr]

theorem reportPath_nil (diffs : DiffMap) (path : String)
    (h : diffs.lookup path = some none) :
    reportPath diffs path = some (Report.noEffectiveChanges path) := by
  simp [reportPath, h, Empty]

/-- C29.  Whenever `GetAuthPrincipalDifferential` returns an error for a principal change
whose path has no differential yet, the loop goes on, records the path and stores a nil
differential for it, and the report prints for that path the line of 0 effective changes
(a no-op).  In the concrete repository this happens for the newly added identity
`auth/new` and for an identity `auth/removed` that is no longer in the working copy. -/
theorem processChange_reports_error_as_noop :
    (∀ (w : World) (changes : List ChangedFile) (gitDirectory compareRef : String)
        (st : EmitState) (change : ChangedFile) (e : String),
        st.diffs.lookup change.Path = none → change.Principal = true →
        GetAuthPrincipalDifferential w gitDirectory change.Path
          (w.join ["sys", "policies", "acl"]) compareRef = .error e →
        ∃ st2, processChange w changes gitDirectory compareRef st change = .ok st2 ∧
          st2.changedPaths = st.changedPaths ++ [change.Path] ∧
          st2.diffs.lookup change.Path = some none ∧
          reportPath st2.diffs change.Path = some (Report.noEffectiveChanges change.Path)) ∧
      (∃ msg, GetAuthPrincipalDifferential (exampleWorld walkWithGone) "/repo" "auth/new"
        "sys/policies/acl" "main" = .error msg) ∧
      processChanges (exampleWorld walkWithGone) exampleChanges "/repo" "main" exampleChanges
        EmitState.initial = .ok exampleFinalState ∧
      exampleFinalState.diffs.lookup "auth/new" = some none ∧
      emitReports exampleFinalState =
        [some (Report.noEffectiveChanges "auth/new"),
          some (Report.effectiveChanges 2 "auth/gone")] ∧
      (∃ msg, GetAuthPrincipalDifferential (exampleWorld []) "/repo" "auth/removed"
        "sys/policies/acl" "main" = .error msg) ∧
      (processChange (exampleWorld []) [⟨"auth/removed", Mutation.Delete, true, false⟩] "/repo"
          "main" EmitState.initial ⟨"auth/removed", Mutation.Delete, true, false⟩).map
          emitReports =
        .ok [some (Report.noEffectiveChanges "auth/removed")] := by
  refine ⟨?_, ⟨_, rfl⟩, rfl, rfl, rfl, ⟨_, rfl⟩, rfl⟩
  intro w changes gitDirectory compareRef st change e hnew hp herr
  refine ⟨_, processChange_principal_error w changes gitDirectory compareRef st change e hnew hp
    herr, rfl, ?_, ?_⟩
  · simp
  · exact reportPath_nil _ _ (by simp)

end gitops

end HVResult
